import Mathlib

/-!
# cAT: a shallow embedding of the AT-command engine of `src/cat.c`

The engine of `cat.c` is a step function (`cat_service`) over a small record
(`struct cat_object`), a caller-supplied scratch buffer and a byte transport.

Modelling conventions

* bytes and characters are natural numbers (`'\n'` is `10`, `'A'` is `65`, ...);
  where the C code truncates to `uint8_t` the model writes `% 256`;
* `size_t` counters (`index`, `length`) are natural numbers: the model covers
  input lines shorter than `SIZE_MAX`; the one `size_t` product of the code, the
  capacity assertion of `cat_init`, is computed modulo `2 ^ size_bits`;
* a C string is the list of its characters before the terminating NUL;
* the scratch buffer `desc->buf` is a list; `desc->buf_size` is its length;
* the pointer `self->cmd` into the command table is an optional table index;
* the transport is part of the record: `rx` is the schedule of future results of
  `iface->read` (`some b`: byte `b` is available, `none`: no byte available, the
  empty schedule: no byte available), `tx` is the sequence of bytes accepted by
  `iface->write` (the retry loop of `print_string` is run to its end);
* callbacks are functions over an abstract world `W`; `calls` logs every
  invocation with its arguments;
* an operation whose behaviour is undefined in C (out-of-bounds access, NULL
  dereference, use of the value of `parse_and_write_args`, which has no
  `return`) yields `none`.
-/

namespace CAT

/-- Engine states (`CAT_STATE_*`). -/
inductive cat_state
  | CAT_STATE_ERROR
  | CAT_STATE_PARSE_PREFIX
  | CAT_STATE_PARSE_COMMAND_CHAR
  | CAT_STATE_UPDATE_COMMAND_STATE
  | CAT_STATE_WAIT_ACKNOWLEDGE
  | CAT_STATE_SEARCH_COMMAND
  | CAT_STATE_COMMAND_FOUND
  | CAT_STATE_COMMAND_NOT_FOUND
  | CAT_STATE_PARSE_COMMAND_ARGS
  deriving DecidableEq, Repr

/-- Prefix sub-states (`CAT_PREFIX_STATE_*`). -/
inductive cat_prefix_state
  | CAT_PREFIX_STATE_WAIT_A
  | CAT_PREFIX_STATE_WAIT_T
  deriving DecidableEq, Repr

/-- Operation kinds (`CAT_CMD_TYPE_*`). -/
inductive cat_cmd_type
  | CAT_CMD_TYPE_EXECUTE
  | CAT_CMD_TYPE_READ
  | CAT_CMD_TYPE_WRITE
  deriving DecidableEq, Repr

open cat_state cat_prefix_state cat_cmd_type

/-- One logged callback invocation: the table index of the command and the
arguments handed to the callback. -/
inductive Call
  | run (cmd : Nat)
  | read (cmd : Nat) (data : List Nat) (max_data_size : Nat)
  | write (cmd : Nat) (data : List Nat) (data_size : Nat)
  deriving DecidableEq, Repr

/-- Command descriptor (`struct cat_command`): the name and the optional
callbacks.  A callback maps the world before the call to its return code and
the world after it; `read` also returns the new contents of the buffer it was
handed and the size it stored through `data_size`.  `var` tells whether a
bound-variable descriptor is present. -/
structure cat_command (W : Type) where
  name : List Nat
  run : Option (W → Int × W)
  read : Option (W → List Nat → Nat → Int × List Nat × Nat × W)
  write : Option (W → List Nat → Nat → Int × W)
  var : Bool

/-- Protocol configuration (`struct cat_descriptor`): the command table;
`cmd_num` is its length. -/
structure cat_descriptor (W : Type) where
  cmd : List (cat_command W)

/-- The number of commands, `desc->cmd_num`. -/
def cat_descriptor.cmd_num {W : Type} (desc : cat_descriptor W) : Nat :=
  desc.cmd.length

/-- Engine record (`struct cat_object`) together with the memory and the
environment it acts on: the scratch buffer, the transport and the callbacks'
world. -/
structure cat_object (W : Type) where
  state : cat_state
  prefix_state : cat_prefix_state
  current_char : Nat
  index : Nat
  length : Nat
  cmd_type : cat_cmd_type
  cmd : Option Nat
  buf : List Nat
  rx : List (Option Nat)
  tx : List Nat
  calls : List Call
  world : W
  deriving DecidableEq, Repr

variable {W : Type}

/-- The constant `CAT_CMD_STATE_NOT_MATCH`. -/
def CAT_CMD_STATE_NOT_MATCH : Nat := 0

/-- The constant `CAT_CMD_STATE_PARTIAL_MATCH`. -/
def CAT_CMD_STATE_PARTIAL_MATCH : Nat := 1

/-- The constant `CAT_CMD_STATE_FULL_MATCH`. -/
def CAT_CMD_STATE_FULL_MATCH : Nat := 2

/-- The string literal "\nERROR\n". -/
def STR_ERROR : List Nat := [10, 69, 82, 82, 79, 82, 10]

/-- The string literal "\nOK\n". -/
def STR_OK : List Nat := [10, 79, 75, 10]

/-- Upper-cases an ASCII letter: `'a'..'z'` (97..122) lose `'a' - 'A'` (32). -/
def to_upper (ch : Nat) : Nat :=
  if 97 ≤ ch ∧ ch ≤ 122 then ch - (97 - 65) else ch

/-- Writes a C string to the transport. -/
def print_string (self : cat_object W) (str : List Nat) : cat_object W :=
  { self with tx := self.tx ++ str }

/-- Writes `size` bytes of `data` to the transport; reading past the end of
`data` is undefined. -/
def print_binary (self : cat_object W) (data : List Nat) (size : Nat) :
    Option (cat_object W) :=
  if size ≤ data.length then some { self with tx := self.tx ++ data.take size }
  else none

/-- Back to prefix recognition. -/
def reset_state (self : cat_object W) : cat_object W :=
  { self with state := CAT_STATE_PARSE_PREFIX, prefix_state := CAT_PREFIX_STATE_WAIT_A }

/-- Error acknowledgement. -/
def ack_error (self : cat_object W) : cat_object W :=
  reset_state (print_string self STR_ERROR)

/-- Success acknowledgement. -/
def ack_ok (self : cat_object W) : cat_object W :=
  reset_state (print_string self STR_OK)

/-- Polls the transport once: `0` when no byte is available, else `1` with the
byte, upper-cased, in `current_char`. -/
def read_cmd_char (self : cat_object W) : Nat × cat_object W :=
  match self.rx with
  | [] => (0, self)
  | none :: rest => (0, { self with rx := rest })
  | some ch :: rest => (1, { self with rx := rest, current_char := to_upper ch })

/-- Initialisation: `none` when an assertion fails.  `size_bits` is the width of
`size_t` on the target: the product `buf_size * 4U` of the capacity assertion is computed
in `size_t` and wraps.  The pointer assertions (`self`, `desc`, `iface`, `desc->cmd`,
`desc->buf`, every `name`) hold by typing, the embedding has no null reference; `self`
is the uninitialised record. -/
def cat_init (size_bits : Nat) (self : cat_object W) (desc : cat_descriptor W) :
    Option (cat_object W) :=
  if desc.cmd_num > 0 ∧ (self.buf.length * 4) % 2 ^ size_bits ≥ desc.cmd_num then
    some (reset_state self)
  else none

/-- The state `CAT_STATE_ERROR`: discard input up to a newline, then
acknowledge the error. -/
def error_state (self : cat_object W) : Nat × cat_object W :=
  let r := read_cmd_char self
  if r.1 = 0 then (0, r.2)
  else if r.2.current_char = 10 then (1, ack_error r.2)
  else (1, r.2)

/-- Start of a command name: every slot "partial match" (`memset 0x55`). -/
def prepare_parse_command (self : cat_object W) : cat_object W :=
  { self with
    buf := List.replicate self.buf.length 0x55
    index := 0
    length := 0
    cmd_type := CAT_CMD_TYPE_EXECUTE }

/-- The state `CAT_STATE_PARSE_PREFIX`. -/
def parse_prefix (self : cat_object W) : Nat × cat_object W :=
  let r := read_cmd_char self
  if r.1 = 0 then (0, r.2)
  else
    match r.2.prefix_state with
    | CAT_PREFIX_STATE_WAIT_A =>
      if r.2.current_char = 65 then (1, { r.2 with prefix_state := CAT_PREFIX_STATE_WAIT_T })
      else if r.2.current_char = 10 ∨ r.2.current_char = 13 then (1, r.2)
      else (1, { r.2 with state := CAT_STATE_ERROR })
    | CAT_PREFIX_STATE_WAIT_T =>
      if r.2.current_char = 84 then
        (1, { prepare_parse_command r.2 with state := CAT_STATE_PARSE_COMMAND_CHAR })
      else if r.2.current_char = 10 then (1, ack_error r.2)
      else if r.2.current_char = 13 then (1, r.2)
      else (1, { r.2 with state := CAT_STATE_ERROR })

/-- Start of the resolution scan. -/
def prepare_search_command (self : cat_object W) : cat_object W :=
  { self with index := 0, cmd := none }

/-- Name characters: `A-Z`, `0-9`, `+`. -/
def is_valid_cmd_name_char (ch : Nat) : Nat :=
  if (65 ≤ ch ∧ ch ≤ 90) ∨ (48 ≤ ch ∧ ch ≤ 57) ∨ ch = 43 then 1 else 0

/-- The state `CAT_STATE_PARSE_COMMAND_CHAR`. -/
def parse_command (self : cat_object W) : Nat × cat_object W :=
  let r := read_cmd_char self
  if r.1 = 0 then (0, r.2)
  else if r.2.current_char = 10 then
    if r.2.length ≠ 0 then
      (1, { prepare_search_command r.2 with state := CAT_STATE_SEARCH_COMMAND })
    else (1, ack_ok r.2)
  else if r.2.current_char = 13 then (1, r.2)
  else if r.2.current_char = 63 then
    if r.2.length = 0 then (1, { r.2 with state := CAT_STATE_ERROR })
    else (1, { r.2 with cmd_type := CAT_CMD_TYPE_READ, state := CAT_STATE_WAIT_ACKNOWLEDGE })
  else if r.2.current_char = 61 then
    if r.2.length = 0 then (1, { r.2 with state := CAT_STATE_ERROR })
    else
      (1, { prepare_search_command { r.2 with cmd_type := CAT_CMD_TYPE_WRITE } with
            state := CAT_STATE_SEARCH_COMMAND })
  else if is_valid_cmd_name_char r.2.current_char ≠ 0 then
    (1, { r.2 with length := r.2.length + 1, state := CAT_STATE_UPDATE_COMMAND_STATE })
  else (1, { r.2 with state := CAT_STATE_ERROR })

/-- Reads the 2-bit match state of slot `i`; undefined when the byte
`i >> 2` lies outside the buffer. -/
def get_cmd_state (self : cat_object W) (i : Nat) : Option Nat :=
  match self.buf[i >>> 2]? with
  | none => none
  | some s => some (((s >>> ((i % 4) <<< 1)) % 256) &&& 0x03)

/-- Writes the 2-bit match state of slot `i`; undefined when the byte
`i >> 2` lies outside the buffer. -/
def set_cmd_state (self : cat_object W) (i : Nat) (state : Nat) : Option (cat_object W) :=
  let n := i >>> 2
  let k := ((i % 4) <<< 1) % 256
  match self.buf[n]? with
  | none => none
  | some s =>
    let s1 := s &&& (0xFF ^^^ ((0x03 <<< k) % 256))
    let s2 := (s1 ||| ((state &&& 0x03) <<< k)) % 256
    some { self with buf := self.buf.set n s2 }

/-- The slot update of `update_command` (the body of its outer `if`): the
name is read at `length - 1`, which is undefined for `length = 0`. -/
def update_command_slot (cmd : cat_command W) (self : cat_object W) :
    Option (cat_object W) :=
  let cmd_name_len := cmd.name.length
  if self.length > cmd_name_len then
    set_cmd_state self self.index CAT_CMD_STATE_NOT_MATCH
  else if self.length = 0 then none
  else
    match cmd.name[self.length - 1]? with
    | none => none
    | some ch =>
      if to_upper ch ≠ self.current_char then
        set_cmd_state self self.index CAT_CMD_STATE_NOT_MATCH
      else if self.length = cmd_name_len then
        set_cmd_state self self.index CAT_CMD_STATE_FULL_MATCH
      else some self

/-- The state `CAT_STATE_UPDATE_COMMAND_STATE`: one matcher step, on the slot
under the cursor. -/
def update_command (desc : cat_descriptor W) (self : cat_object W) :
    Option (Nat × cat_object W) :=
  match get_cmd_state self self.index with
  | none => none
  | some st =>
    let upd : Option (cat_object W) :=
      if st ≠ CAT_CMD_STATE_NOT_MATCH then
        match desc.cmd[self.index]? with
        | none => none
        | some cmd => update_command_slot cmd self
      else some self
    match upd with
    | none => none
    | some self1 =>
      if self1.index + 1 ≥ desc.cmd_num then
        some (1, { self1 with index := 0, state := CAT_STATE_PARSE_COMMAND_CHAR })
      else some (1, { self1 with index := self1.index + 1 })

/-- The state `CAT_STATE_WAIT_ACKNOWLEDGE`. -/
def wait_acknowledge (self : cat_object W) : Nat × cat_object W :=
  let r := read_cmd_char self
  if r.1 = 0 then (0, r.2)
  else if r.2.current_char = 10 then
    (1, { prepare_search_command r.2 with state := CAT_STATE_SEARCH_COMMAND })
  else if r.2.current_char = 13 then (1, r.2)
  else (1, { r.2 with state := CAT_STATE_ERROR })

/-- The end of `search_command`: advance the cursor and, past the last slot,
decide between found and not found. -/
def search_command_next (desc : cat_descriptor W) (self : cat_object W) :
    Nat × cat_object W :=
  if self.index + 1 ≥ desc.cmd_num then
    if self.cmd = none then
      (1, { self with index := self.index + 1, state := CAT_STATE_COMMAND_NOT_FOUND })
    else (1, { self with index := self.index + 1, state := CAT_STATE_COMMAND_FOUND })
  else (1, { self with index := self.index + 1 })

/-- The state `CAT_STATE_SEARCH_COMMAND`: one resolver step, on the slot
under the cursor. -/
def search_command (desc : cat_descriptor W) (self : cat_object W) :
    Option (Nat × cat_object W) :=
  match get_cmd_state self self.index with
  | none => none
  | some cmd_state =>
    if cmd_state ≠ CAT_CMD_STATE_NOT_MATCH then
      if cmd_state = CAT_CMD_STATE_PARTIAL_MATCH then
        if self.cmd ≠ none then
          some (1, { self with state := CAT_STATE_COMMAND_NOT_FOUND })
        else some (search_command_next desc { self with cmd := some self.index })
      else if cmd_state = CAT_CMD_STATE_FULL_MATCH then
        some (1, { self with cmd := some self.index, state := CAT_STATE_COMMAND_FOUND })
      else some (search_command_next desc self)
    else some (search_command_next desc self)

/-- Dereferences `self->cmd`: undefined for NULL or outside the table. -/
def cmd_deref (desc : cat_descriptor W) (self : cat_object W) :
    Option (Nat × cat_command W) :=
  match self.cmd with
  | none => none
  | some k =>
    match desc.cmd[k]? with
    | none => none
    | some c => some (k, c)

/-- The state `CAT_STATE_COMMAND_FOUND`: the dispatcher. -/
def command_found (desc : cat_descriptor W) (self : cat_object W) :
    Option (Nat × cat_object W) :=
  match self.cmd_type with
  | CAT_CMD_TYPE_EXECUTE =>
    match cmd_deref desc self with
    | none => none
    | some (k, cmd) =>
      match cmd.run with
      | none => some (1, ack_error self)
      | some run =>
        let r := run self.world
        let self1 := { self with world := r.2, calls := self.calls ++ [Call.run k] }
        if r.1 ≠ 0 then some (1, ack_error self1) else some (1, ack_ok self1)
  | CAT_CMD_TYPE_READ =>
    match cmd_deref desc self with
    | none => none
    | some (k, cmd) =>
      match cmd.read with
      | none => some (1, ack_error self)
      | some read =>
        let r := read self.world self.buf self.buf.length
        let self1 :=
          { self with
            world := r.2.2.2
            buf := r.2.1
            calls := self.calls ++ [Call.read k self.buf self.buf.length] }
        if r.1 ≠ 0 then some (1, ack_error self1)
        else
          let self2 := print_string (print_string (print_string self1 [10]) cmd.name) [61]
          match print_binary self2 self2.buf r.2.2.1 with
          | none => none
          | some self3 => some (1, ack_ok (print_string self3 [10]))
  | CAT_CMD_TYPE_WRITE =>
    some (1, { self with length := 0, state := CAT_STATE_PARSE_COMMAND_ARGS })

/-- The state `CAT_STATE_COMMAND_NOT_FOUND`. -/
def command_not_found (self : cat_object W) : Nat × cat_object W :=
  (1, ack_error self)

/-- The newline case of `parse_command_args`: the write callback for a
command without bound variable; with one, the value of
`parse_and_write_args` is used, which is undefined. -/
def parse_command_args_newline (desc : cat_descriptor W) (self : cat_object W) :
    Option (Nat × cat_object W) :=
  match cmd_deref desc self with
  | none => none
  | some (k, cmd) =>
    if cmd.var = false then
      match cmd.write with
      | none => some (1, ack_error self)
      | some write =>
        let r := write self.world self.buf self.length
        let self1 :=
          { self with
            world := r.2
            calls := self.calls ++ [Call.write k self.buf self.length] }
        if r.1 ≠ 0 then some (1, ack_error self1) else some (1, ack_ok self1)
    else none

/-- The state `CAT_STATE_PARSE_COMMAND_ARGS`: argument collection. -/
def parse_command_args (desc : cat_descriptor W) (self : cat_object W) :
    Option (Nat × cat_object W) :=
  let r := read_cmd_char self
  if r.1 = 0 then some (0, r.2)
  else if r.2.current_char = 10 then parse_command_args_newline desc r.2
  else if r.2.current_char = 13 then some (1, r.2)
  else if r.2.length ≥ r.2.buf.length then some (1, { r.2 with state := CAT_STATE_ERROR })
  else
    some (1, { r.2 with
               buf := r.2.buf.set r.2.length (r.2.current_char % 256)
               length := r.2.length + 1 })

/-- One call of the service routine: the return value and the record after
the call, or `none` when the call's behaviour is undefined. -/
def cat_service (desc : cat_descriptor W) (self : cat_object W) :
    Option (Nat × cat_object W) :=
  match self.state with
  | CAT_STATE_ERROR => some (error_state self)
  | CAT_STATE_PARSE_PREFIX => some ( parse_prefix self)
  | CAT_STATE_PARSE_COMMAND_CHAR => some (parse_command self)
  | CAT_STATE_UPDATE_COMMAND_STATE => update_command desc self
  | CAT_STATE_WAIT_ACKNOWLEDGE => some (wait_acknowledge self)
  | CAT_STATE_SEARCH_COMMAND => search_command desc self
  | CAT_STATE_COMMAND_FOUND => command_found desc self
  | CAT_STATE_COMMAND_NOT_FOUND => some (command_not_found self)
  | CAT_STATE_PARSE_COMMAND_ARGS => parse_command_args desc self

/-- The record after `n` calls of `cat_service`. -/
def steps (desc : cat_descriptor W) : Nat → cat_object W → Option (cat_object W)
  | 0, self => some self
  | n + 1, self =>
    match cat_service desc self with
    | none => none
    | some r => steps desc n r.2

/-- The states whose handler polls the transport (`read_cmd_char`). -/
def reads_input : cat_state → Bool
  | CAT_STATE_ERROR => true
  | CAT_STATE_PARSE_PREFIX => true
  | CAT_STATE_PARSE_COMMAND_CHAR => true
  | CAT_STATE_WAIT_ACKNOWLEDGE => true
  | CAT_STATE_PARSE_COMMAND_ARGS => true
  | _ => false

/-- The engine waits for input: the schedule is used up and the next call
would poll the transport. -/
def idle (self : cat_object W) : Bool :=
  self.rx.isEmpty && reads_input self.state

/-- Result of driving the engine. -/
inductive Outcome (W : Type)
  | done (self : cat_object W)
  | undefined
  | out_of_fuel

/-- The caller's loop: `cat_service` is called until the whole schedule is
consumed and the engine waits for input, at most `fuel` times. -/
def run (desc : cat_descriptor W) : Nat → cat_object W → Outcome W
  | 0, self => if idle self then Outcome.done self else Outcome.out_of_fuel
  | fuel + 1, self =>
    if idle self then Outcome.done self
    else
      match cat_service desc self with
      | none => Outcome.undefined
      | some r => run desc fuel r.2

/-- What the caller observes of one drive of the engine until it is idle: the bytes
written to the transport and the callback invocations. -/
def transcript (desc : cat_descriptor W) (fuel : Nat) (self : cat_object W) :
    Option (List Nat × List Call) :=
  match run desc fuel self with
  | Outcome.done v => some (v.tx, v.calls)
  | _ => none

/-! ## Definitions used by the proofs -/

/-- The 2-bit field at bit offset `k` of byte `s` (the arithmetic of `get_cmd_state`). -/
def getb (s k : Nat) : Nat := ((s >>> k) % 256) &&& 0x03

/-- The byte `s` with the 2-bit field at offset `k` replaced (the arithmetic of
`set_cmd_state`). -/
def setb (s k x : Nat) : Nat :=
  ((s &&& (0xFF ^^^ ((0x03 <<< k) % 256))) ||| ((x &&& 0x03) <<< k)) % 256

/-- The engine is inside an exchange and before the dispatcher: it is not idle and its
state is neither `CAT_STATE_COMMAND_FOUND` nor `CAT_STATE_COMMAND_NOT_FOUND`. -/
def in_progress (s : cat_object W) : Prop :=
  idle s = false ∧ s.state ≠ CAT_STATE_COMMAND_FOUND ∧ s.state ≠ CAT_STATE_COMMAND_NOT_FOUND

/-- `advances desc n s t`: `n` calls of `cat_service` lead from `s` to `t`, none of them
undefined and each made while the engine is in progress. -/
def advances (desc : cat_descriptor W) : Nat → cat_object W → cat_object W → Prop
  | 0, s, t => s = t
  | n + 1, s, t => in_progress s ∧ ∃ r, cat_service desc s = some r ∧ advances desc n r.2 t

/-- The match state of slot `i` as stored in buffer `buf`. -/
def slot (buf : List Nat) (i : Nat) : Option Nat :=
  (buf[i / 4]?).map (fun b => getb b (2 * (i % 4)))

/-- What one matcher step does to the state `st` of a slot whose command is called `name`,
when `len` name characters have been accepted, the last one being `ch`. -/
def upd_slot (name : List Nat) (len ch st : Nat) : Nat :=
  if st = 0 then 0
  else if len > name.length then 0
  else if to_upper (name.getD (len - 1) 0) ≠ ch then 0
  else if len = name.length then 2
  else st

/-- The state of a slot whose command is called `name` after the upper-cased name
characters `uw` went through the matcher: `(number of characters, state)`. -/
def match_fold (name : List Nat) (uw : List Nat) : Nat × Nat :=
  uw.foldl (fun p ch => (p.1 + 1, upd_slot name (p.1 + 1) ch p.2)) (0, 1)

/-- The match state of `name` after the characters `uw`. -/
def match_state (name : List Nat) (uw : List Nat) : Nat := (match_fold name uw).2

/-- Every slot of the table holds the match state of its command after the upper-cased
name characters `uw`. -/
def slots_are (desc : cat_descriptor W) (buf : List Nat) (uw : List Nat) : Prop :=
  ∀ j c, desc.cmd[j]? = some c → slot buf j = some (match_state c.name uw)

/-- The engine is in the reset state over a configuration that satisfies the
initialisation contract of `cat_init`. -/
def ready (desc : cat_descriptor W) (s : cat_object W) : Prop :=
  s.state = CAT_STATE_PARSE_PREFIX ∧ s.prefix_state = CAT_PREFIX_STATE_WAIT_A ∧
    0 < desc.cmd_num ∧ desc.cmd_num ≤ 4 * s.buf.length

/-- Some number of non-idle, defined calls of `cat_service` lead from `s` to `t`. -/
def reaches (desc : cat_descriptor W) (s t : cat_object W) : Prop :=
  ∃ n, advances desc n s t

/-- The three ways to end a command name: newline (execute), `?` and newline (read),
`=` (write). -/
def terminator (ty : cat_cmd_type) : List Nat :=
  match ty with
  | CAT_CMD_TYPE_EXECUTE => [10]
  | CAT_CMD_TYPE_READ => [63, 10]
  | CAT_CMD_TYPE_WRITE => [61]

/-- The typed text `p` is, case-insensitively, a strict initial segment of `name`. -/
def is_abbreviation (p name : List Nat) : Prop :=
  ∃ t, t ≠ [] ∧ name.map to_upper = p.map to_upper ++ t

/-- The typed text `p` is, case-insensitively, `name` itself. -/
def is_name (p name : List Nat) : Prop :=
  name.map to_upper = p.map to_upper

/-- The typed text `w` is a command name as the engine accepts it: not empty, every
character a name character once upper-cased. -/
def typed_name (w : List Nat) : Prop :=
  w ≠ [] ∧ ∀ ch ∈ w, is_valid_cmd_name_char (to_upper ch) ≠ 0

/-- A command with all three callbacks, each returning 0; `read` stores one byte `1`. -/
def demo_cmd (name : List Nat) : cat_command Unit :=
  { name := name
    run := some (fun w => (0, w))
    read := some (fun w b _ => (0, b.set 0 1, 1, w))
    write := some (fun w _ _ => (0, w))
    var := false }

/-- A reset engine with a zeroed buffer of `buf_size` bytes and the bytes `input` ready
on the transport. -/
def demo_start (buf_size : Nat) (input : List Nat) : cat_object Unit :=
  { state := CAT_STATE_PARSE_PREFIX
    prefix_state := CAT_PREFIX_STATE_WAIT_A
    current_char := 0
    index := 0
    length := 0
    cmd_type := CAT_CMD_TYPE_EXECUTE
    cmd := none
    buf := List.replicate buf_size 0
    rx := input.map some
    tx := []
    calls := []
    world := () }

/-- The table `+TEST1`, `+TEST2`, `+TEST`. -/
def demo_table3 : cat_descriptor Unit :=
  { cmd := [demo_cmd [43, 84, 69, 83, 84, 49], demo_cmd [43, 84, 69, 83, 84, 50],
            demo_cmd [43, 84, 69, 83, 84]] }

/-- The table `+TEST1`, `+TEST`. -/
def demo_table2 : cat_descriptor Unit :=
  { cmd := [demo_cmd [43, 84, 69, 83, 84, 49], demo_cmd [43, 84, 69, 83, 84]] }

/-- The table `+TEST1`, `+TEST2`. -/
def demo_table_pair : cat_descriptor Unit :=
  { cmd := [demo_cmd [43, 84, 69, 83, 84, 49], demo_cmd [43, 84, 69, 83, 84, 50]] }

/-- The table with the single command `+TEST`. -/
def demo_table1 : cat_descriptor Unit :=
  { cmd := [demo_cmd [43, 84, 69, 83, 84]] }

/-- The engine of `demo_start 1` at the moment the name `+TEST` has been resolved to
entry 0 of `demo_table1`: operation kind `ty`, last character `cc`, schedule `rx` left. -/
def demo_found (ty : cat_cmd_type) (cc : Nat) (rx : List Nat) : cat_object Unit :=
  { state := CAT_STATE_COMMAND_FOUND
    prefix_state := CAT_PREFIX_STATE_WAIT_T
    current_char := cc
    index := 0
    length := 5
    cmd_type := ty
    cmd := some 0
    buf := [86]
    rx := rx.map some
    tx := []
    calls := []
    world := () }

/-- The payload as argument collection keeps it: every byte goes through
`read_cmd_char`, which upper-cases letters, and carriage returns are skipped. -/
def args_kept (payload : List Nat) : List Nat :=
  (payload.map to_upper).filter (fun ch => ch ≠ 13)

/-- The buffer after the bytes `data` have been stored from position `len` on, as
`parse_command_args` does one byte per call. -/
def stored (buf : List Nat) (len : Nat) : List Nat → List Nat
  | [] => buf
  | x :: xs => stored (buf.set len (x % 256)) (len + 1) xs

/-- The transport has no byte for the next poll: the schedule is empty or starts with
a "no byte available" event. -/
def no_data (rx : List (Option Nat)) : Bool :=
  match rx with
  | some _ :: _ => false
  | _ => true

/-- The bounds the engine relies on, state by state: the table is not empty and the
buffer has a slot for every command; the cursor is inside the table while the matcher
or the resolver runs; a name character has been counted when the matcher runs; the
resolved command is an entry of the table when the dispatcher or argument collection
runs. -/
def safe_state (desc : cat_descriptor W) (s : cat_object W) : Prop :=
  0 < desc.cmd_num ∧ desc.cmd_num ≤ 4 * s.buf.length ∧
  match s.state with
  | CAT_STATE_PARSE_COMMAND_CHAR => s.index = 0
  | CAT_STATE_UPDATE_COMMAND_STATE => s.index < desc.cmd_num ∧ 1 ≤ s.length
  | CAT_STATE_SEARCH_COMMAND =>
    s.index < desc.cmd_num ∧ ∀ k, s.cmd = some k → k < desc.cmd_num
  | CAT_STATE_COMMAND_FOUND => ∃ k, s.cmd = some k ∧ k < desc.cmd_num
  | CAT_STATE_PARSE_COMMAND_ARGS => ∃ k, s.cmd = some k ∧ k < desc.cmd_num
  | _ => True

/-- The contract of the read callbacks: the callback writes inside the buffer it is
handed (the buffer keeps its size) and reports at most `max_data_size` bytes. -/
def read_contract (desc : cat_descriptor W) : Prop :=
  ∀ c ∈ desc.cmd, ∀ f, c.read = some f → ∀ (w : W) (buf : List Nat) (max : Nat),
    (f w buf max).2.1.length = buf.length ∧ (f w buf max).2.2.1 ≤ max

/-- No command of the table has a bound-variable descriptor. -/
def no_bound_variable (desc : cat_descriptor W) : Prop :=
  ∀ c ∈ desc.cmd, c.var = false

/-- Within `m` calls of `cat_service` the engine is in the reset state. -/
def recovers (desc : cat_descriptor W) (s : cat_object W) (m : Nat) : Prop :=
  ∃ j v, j ≤ m ∧ steps desc j s = some v ∧
    v.state = CAT_STATE_PARSE_PREFIX ∧ v.prefix_state = CAT_PREFIX_STATE_WAIT_A

/-- A command like `demo_cmd` whose read callback honours `max_data_size`. -/
def bounded_cmd (name : List Nat) : cat_command Unit :=
  { name := name
    run := some (fun w => (0, w))
    read := some (fun w b m => (0, b.set 0 1, min 1 m, w))
    write := some (fun w _ _ => (0, w))
    var := false }

/-- The table `+TEST1`, `+TEST` with read callbacks that honour `max_data_size`. -/
def bounded_table : cat_descriptor Unit :=
  { cmd := [bounded_cmd [43, 84, 69, 83, 84, 49], bounded_cmd [43, 84, 69, 83, 84]] }

/-- The engine of `demo_start 1` over `bounded_table` after `AT+` has been read, in the
matcher at slot 0, with `T` still on the transport. -/
def bounded_mid : cat_object Unit :=
  { state := CAT_STATE_UPDATE_COMMAND_STATE
    prefix_state := CAT_PREFIX_STATE_WAIT_T
    current_char := 43
    index := 0
    length := 1
    cmd_type := CAT_CMD_TYPE_EXECUTE
    cmd := none
    buf := [85]
    rx := [some 84]
    tx := []
    calls := []
    world := () }

/-- The number of calls made in the matcher state (`CAT_STATE_UPDATE_COMMAND_STATE`)
among the first `n` calls of `cat_service` from `s`. -/
def matcher_calls (desc : cat_descriptor W) : Nat → cat_object W → Nat
  | 0, _ => 0
  | n + 1, s =>
    (if s.state = CAT_STATE_UPDATE_COMMAND_STATE then 1 else 0) +
      match cat_service desc s with
      | none => 0
      | some r => matcher_calls desc n r.2

/-- The engine of `demo_start 1` right after the prefix `AT`: waiting for the first name
character, with the bytes `input` on the transport. -/
def demo_name_start (input : List Nat) : cat_object Unit :=
  { state := CAT_STATE_PARSE_COMMAND_CHAR
    prefix_state := CAT_PREFIX_STATE_WAIT_T
    current_char := 84
    index := 0
    length := 0
    cmd_type := CAT_CMD_TYPE_EXECUTE
    cmd := none
    buf := [85]
    rx := input.map some
    tx := []
    calls := []
    world := () }

/-- The record `self` with the transport schedule replaced by `q`. -/
def with_rx (self : cat_object W) (q : List (Option Nat)) : cat_object W :=
  { self with rx := q }

/-- The bytes a transport schedule carries, in order. -/
def bytes (q : List (Option Nat)) : List Nat := q.filterMap id

/-- How many calls a state that does not poll the transport is away, at most, from one
that does. -/
def phase (desc : cat_descriptor W) (s : cat_object W) : Nat :=
  match s.state with
  | CAT_STATE_UPDATE_COMMAND_STATE => (desc.cmd_num - s.index) + 1
  | CAT_STATE_SEARCH_COMMAND => (desc.cmd_num - s.index) + 2
  | CAT_STATE_COMMAND_FOUND => 1
  | CAT_STATE_COMMAND_NOT_FOUND => 1
  | _ => 0

/-- A bound on the number of calls until the engine is idle. -/
def calls_bound (desc : cat_descriptor W) (s : cat_object W) : Nat :=
  s.rx.length * (desc.cmd_num + 3) + phase desc s

/-- The record with the fields erased that the engine overwrites before it looks at them
again: in prefix recognition and in the error sink the cursor, the counter, the operation
kind, the resolved command, the last character and the contents of the buffer; while the
name is read the resolved command. -/
def forget_scratch (s : cat_object W) : cat_object W :=
  match s.state with
  | CAT_STATE_PARSE_PREFIX =>
    { s with current_char := 0, index := 0, length := 0, cmd_type := CAT_CMD_TYPE_EXECUTE,
             cmd := none, buf := List.replicate s.buf.length 0 }
  | CAT_STATE_ERROR =>
    { s with current_char := 0, index := 0, length := 0, cmd_type := CAT_CMD_TYPE_EXECUTE,
             cmd := none, buf := List.replicate s.buf.length 0 }
  | CAT_STATE_PARSE_COMMAND_CHAR => { s with cmd := none }
  | CAT_STATE_UPDATE_COMMAND_STATE => { s with cmd := none }
  | CAT_STATE_WAIT_ACKNOWLEDGE => { s with cmd := none }
  | _ => s

/-- What is left of an outcome when the scratch fields are forgotten. -/
def Outcome.forget : Outcome W → Outcome W
  | Outcome.done v => Outcome.done (forget_scratch v)
  | Outcome.undefined => Outcome.undefined
  | Outcome.out_of_fuel => Outcome.out_of_fuel

/-- The record `self` with the resolved command replaced by `c`. -/
def with_cmd (self : cat_object W) (c : Option Nat) : cat_object W :=
  { self with cmd := c }

/-- An uninitialised record with a 1-byte buffer whose observer has already seen
`"\nOK\n"` on the transport. -/
def demo_fresh : cat_object Unit :=
  { demo_start 1 [] with tx := STR_OK }

/-- The record `self` with the output written so far replaced by `o`. -/
def with_tx (self : cat_object W) (o : List Nat) : cat_object W :=
  { self with tx := o }

/-- The command with its registered name upper-cased. -/
def upper_name (c : cat_command W) : cat_command W :=
  { c with name := c.name.map to_upper }

/-- The table with every registered name upper-cased. -/
def upper_names (desc : cat_descriptor W) : cat_descriptor W :=
  { cmd := desc.cmd.map upper_name }

/-- The record with the case of letters forgotten on the transport: in the bytes still to
be read and in the bytes written so far. -/
def fold_case (s : cat_object W) : cat_object W :=
  { s with rx := s.rx.map (Option.map to_upper), tx := s.tx.map to_upper }

/-- What is left of an outcome when the case of letters on the transport is forgotten. -/
def Outcome.fold_case : Outcome W → Outcome W
  | Outcome.done v => Outcome.done (CAT.fold_case v)
  | Outcome.undefined => Outcome.undefined
  | Outcome.out_of_fuel => Outcome.out_of_fuel

/-- The record with the bytes still to be read upper-cased. -/
def upper_rx (s : cat_object W) : cat_object W :=
  with_rx s (s.rx.map (Option.map to_upper))

/-- The table with the single command `+test`, registered in lower case. -/
def demo_table_lower : cat_descriptor Unit :=
  { cmd := [demo_cmd [43, 116, 101, 115, 116]] }

/-! ## The match-state store -/

theorem and_low (s m : Nat) (hm : m < 256) : s &&& m = (s % 256) &&& m := by
  apply Nat.eq_of_testBit_eq
  intro i
  simp only [Nat.testBit_and]
  by_cases hi : i < 8
  · have : (s % 256).testBit i = s.testBit i := by
      have := Nat.testBit_mod_two_pow s 8 i
      simpa [hi] using this
    rw [this]
  · have : m.testBit i = false := by
      apply Nat.testBit_lt_two_pow
      calc m < 256 := hm
        _ = 2 ^ 8 := by norm_num
        _ ≤ 2 ^ i := Nat.pow_le_pow_right (by norm_num) (by omega)
    simp [this]

theorem getb_mod (s k : Nat) (hk : k ≤ 6) : getb s k = getb (s % 256) k := by
  unfold getb
  have h3 : (3 : Nat) = 2 ^ 2 - 1 := by norm_num
  rw [h3, Nat.and_pow_two_sub_one_eq_mod, Nat.and_pow_two_sub_one_eq_mod]
  simp only [Nat.shiftRight_eq_div_pow]
  interval_cases k <;> omega

theorem setb_mod (s k x : Nat) (hk : k ≤ 6) : setb s k x = setb (s % 256) k (x % 4) := by
  unfold setb
  have h3 : (3 : Nat) = 2 ^ 2 - 1 := by norm_num
  have hx : x &&& 3 = x % 4 := by rw [h3, Nat.and_pow_two_sub_one_eq_mod]
  have hx2 : (x % 4) &&& 3 = x % 4 := by
    rw [h3, Nat.and_pow_two_sub_one_eq_mod]; simp
  rw [hx, hx2]
  have hm : (255 ^^^ (3 <<< k % 256)) < 256 := by interval_cases k <;> decide
  rw [and_low s _ hm]

set_option maxRecDepth 1000000 in
theorem getb_setb_fin (k x k2 : Fin 4) : ∀ s : Fin 256,
    getb (setb s.val (2 * k.val) x.val) (2 * k2.val)
      = if k2 = k then x.val else getb s.val (2 * k2.val) := by
  fin_cases k <;> fin_cases x <;> fin_cases k2 <;> decide

theorem getb_setb (s x a b : Nat) (ha : a < 4) (hb : b < 4) :
    getb (setb s (2 * a) x) (2 * b) = if b = a then x % 4 else getb s (2 * b) := by
  rw [setb_mod s (2 * a) x (by omega), getb_mod s (2 * b) (by omega)]
  have h := getb_setb_fin ⟨a, ha⟩ ⟨x % 4, Nat.mod_lt _ (by norm_num)⟩ ⟨b, hb⟩
    ⟨s % 256, Nat.mod_lt _ (by norm_num)⟩
  simp only [Fin.mk.injEq] at h
  exact h

theorem shift_facts (i : Nat) : i >>> 2 = i / 4 ∧ (i % 4) <<< 1 = 2 * (i % 4) := by
  constructor
  · rw [Nat.shiftRight_eq_div_pow]
  · rw [Nat.shiftLeft_eq]; omega

theorem get_cmd_state_eq (s : cat_object W) (i : Nat) :
    get_cmd_state s i = (s.buf[i / 4]?).map (fun b => getb b (2 * (i % 4))) := by
  unfold get_cmd_state getb
  rw [(shift_facts i).1, (shift_facts i).2]
  cases s.buf[i / 4]? <;> rfl

theorem set_cmd_state_eq (s : cat_object W) (i x : Nat) :
    set_cmd_state s i x
      = (s.buf[i / 4]?).map (fun b => { s with buf := s.buf.set (i / 4) (setb b (2 * (i % 4)) x) }) := by
  unfold set_cmd_state setb
  simp only [(shift_facts i).1, (shift_facts i).2]
  have : 2 * (i % 4) % 256 = 2 * (i % 4) := by omega
  rw [this]
  cases s.buf[i / 4]? <;> rfl

/-- After a successful `set_cmd_state` slot `i` reads back the stored state and every
other slot reads as before. -/
theorem get_set_cmd_state (s s1 : cat_object W) (i x j : Nat)
    (h : set_cmd_state s i x = some s1) :
    get_cmd_state s1 j = if j = i then some (x % 4) else get_cmd_state s j := by
  rw [set_cmd_state_eq] at h
  rw [get_cmd_state_eq, get_cmd_state_eq]
  cases hb : s.buf[i / 4]? with
  | none => rw [hb] at h; simp at h
  | some b =>
    rw [hb] at h
    simp only [Option.map_some', Option.some.injEq] at h
    subst h
    have hlt : i / 4 < s.buf.length := by
      rcases List.getElem?_eq_some_iff.mp hb with ⟨h1, _⟩; exact h1
    simp only
    by_cases hji : j = i
    · subst hji
      simp only [if_true]
      rw [List.getElem?_set_self hlt]
      simp only [Option.map_some']
      rw [getb_setb _ _ _ _ (Nat.mod_lt _ (by norm_num)) (Nat.mod_lt _ (by norm_num))]
      simp
    · simp only [hji, if_false]
      by_cases hq : j / 4 = i / 4
      · rw [hq, List.getElem?_set_self hlt, hb]
        simp only [Option.map_some']
        rw [getb_setb _ _ _ _ (Nat.mod_lt _ (by norm_num)) (Nat.mod_lt _ (by norm_num))]
        have : j % 4 ≠ i % 4 := by omega
        simp [this]
      · rw [List.getElem?_set_ne (Ne.symm hq)]

theorem set_cmd_state_some (s : cat_object W) (i x : Nat) (h : i / 4 < s.buf.length) :
    ∃ b, b.length = s.buf.length ∧ set_cmd_state s i x = some { s with buf := b } := by
  rw [set_cmd_state_eq]
  rw [List.getElem?_eq_getElem h]
  exact ⟨_, by simp, rfl⟩

theorem get_cmd_state_some (s : cat_object W) (i : Nat) (h : i / 4 < s.buf.length) :
    ∃ st, get_cmd_state s i = some st := by
  rw [get_cmd_state_eq, List.getElem?_eq_getElem h]
  exact ⟨_, rfl⟩

theorem get_cmd_state_replicate (s : cat_object W) (n i : Nat) (h : i / 4 < n)
    (hb : s.buf = List.replicate n 0x55) : get_cmd_state s i = some 1 := by
  rw [get_cmd_state_eq, hb]
  have : (List.replicate n 85)[i / 4]? = some 85 := by
    rw [List.getElem?_eq_getElem (by simpa using h)]
    simp
  rw [this]
  simp only [Option.map_some', Option.some.injEq]
  have h4 : i % 4 < 4 := Nat.mod_lt _ (by norm_num)
  interval_cases (i % 4) <;> decide

/-! ## Driving the engine -/

theorem advances_trans (desc : cat_descriptor W) (n m : Nat) (s t u : cat_object W)
    (h1 : advances desc n s t) (h2 : advances desc m t u) : advances desc (n + m) s u := by
  induction n generalizing s with
  | zero => simp only [advances] at h1; subst h1; simpa using h2
  | succ n ih =>
    obtain ⟨hi, r, hr, hrest⟩ := h1
    have : n + 1 + m = (n + m) + 1 := by omega
    rw [this]
    exact ⟨hi, r, hr, ih _ hrest⟩

theorem advances_step (desc : cat_descriptor W) (n ret : Nat) (s t u : cat_object W)
    (hi : in_progress s) (h : cat_service desc s = some (ret, t))
    (h2 : advances desc n t u) : advances desc (n + 1) s u :=
  ⟨hi, (ret, t), h, h2⟩

theorem run_idle (desc : cat_descriptor W) (n : Nat) (s : cat_object W) (h : idle s = true) :
    run desc n s = Outcome.done s := by
  cases n <;> simp [run, h]

theorem run_advances (desc : cat_descriptor W) (n k : Nat) (s t : cat_object W)
    (h : advances desc n s t) : run desc (n + k) s = run desc k t := by
  induction n generalizing s with
  | zero => simp only [advances] at h; subst h; simp
  | succ n ih =>
    obtain ⟨hi, r, hr, hrest⟩ := h
    have : n + 1 + k = (n + k) + 1 := by omega
    rw [this]
    simp only [run, hi.1, hr]
    exact ih _ hrest

theorem run_of_advances (desc : cat_descriptor W) (n : Nat) (s t : cat_object W)
    (h : advances desc n s t) (ht : idle t = true) :
    ∀ fuel, n ≤ fuel → run desc fuel s = Outcome.done t := by
  intro fuel hf
  obtain ⟨k, rfl⟩ := Nat.exists_eq_add_of_le hf
  rw [run_advances desc n k s t h, run_idle desc k t ht]

theorem steps_of_advances (desc : cat_descriptor W) (n : Nat) (s t : cat_object W)
    (h : advances desc n s t) : steps desc n s = some t := by
  induction n generalizing s with
  | zero => simp only [advances] at h; subst h; rfl
  | succ n ih =>
    obtain ⟨_, r, hr, hrest⟩ := h
    simp only [steps, hr]
    exact ih _ hrest

theorem cat_service_update (desc : cat_descriptor W) (s : cat_object W)
    (h : s.state = CAT_STATE_UPDATE_COMMAND_STATE) :
    cat_service desc s = update_command desc s := by
  unfold cat_service; rw [h]

theorem cat_service_search (desc : cat_descriptor W) (s : cat_object W)
    (h : s.state = CAT_STATE_SEARCH_COMMAND) :
    cat_service desc s = search_command desc s := by
  unfold cat_service; rw [h]

theorem cat_service_found (desc : cat_descriptor W) (s : cat_object W)
    (h : s.state = CAT_STATE_COMMAND_FOUND) :
    cat_service desc s = command_found desc s := by
  unfold cat_service; rw [h]

theorem cat_service_not_found (desc : cat_descriptor W) (s : cat_object W)
    (h : s.state = CAT_STATE_COMMAND_NOT_FOUND) :
    cat_service desc s = some (command_not_found s) := by
  unfold cat_service; rw [h]

theorem cat_service_parse_command (desc : cat_descriptor W) (s : cat_object W)
    (h : s.state = CAT_STATE_PARSE_COMMAND_CHAR) :
    cat_service desc s = some (parse_command s) := by
  unfold cat_service; rw [h]

theorem cat_service_prefix_state (desc : cat_descriptor W) (s : cat_object W)
    (h : s.state = CAT_STATE_PARSE_PREFIX) :
    cat_service desc s = some ( parse_prefix s) := by
  unfold cat_service; rw [h]

theorem cat_service_wait (desc : cat_descriptor W) (s : cat_object W)
    (h : s.state = CAT_STATE_WAIT_ACKNOWLEDGE) :
    cat_service desc s = some (wait_acknowledge s) := by
  unfold cat_service; rw [h]

theorem cat_service_args (desc : cat_descriptor W) (s : cat_object W)
    (h : s.state = CAT_STATE_PARSE_COMMAND_ARGS) :
    cat_service desc s = parse_command_args desc s := by
  unfold cat_service; rw [h]

theorem cat_service_error (desc : cat_descriptor W) (s : cat_object W)
    (h : s.state = CAT_STATE_ERROR) :
    cat_service desc s = some (error_state s) := by
  unfold cat_service; rw [h]

/-! ## The matcher -/

theorem get_cmd_state_slot (s : cat_object W) (i : Nat) : get_cmd_state s i = slot s.buf i :=
  get_cmd_state_eq s i

theorem update_command_slot_spec (c : cat_command W) (s : cat_object W) (st : Nat)
    (hlen : 1 ≤ s.length) (hi : s.index / 4 < s.buf.length)
    (hst : slot s.buf s.index = some st) (hne : st ≠ 0) :
    ∃ b, b.length = s.buf.length ∧ update_command_slot c s = some { s with buf := b } ∧
      ∀ j, slot b j = if j = s.index then some (upd_slot c.name s.length s.current_char st)
        else slot s.buf j := by
  have hset : ∀ x, x < 4 → ∃ b, b.length = s.buf.length ∧
      set_cmd_state s s.index x = some { s with buf := b } ∧
      ∀ j, slot b j = if j = s.index then some x else slot s.buf j := by
    intro x hx
    obtain ⟨b, hb, hs⟩ := set_cmd_state_some s s.index x hi
    refine ⟨b, hb, hs, ?_⟩
    intro j
    have := get_set_cmd_state s _ s.index x j hs
    rw [get_cmd_state_slot, get_cmd_state_slot] at this
    simpa [Nat.mod_eq_of_lt hx] using this
  unfold update_command_slot upd_slot
  simp only [hne, if_false]
  by_cases h1 : s.length > c.name.length
  · simp only [h1, if_true]
    exact hset 0 (by norm_num)
  · simp only [h1, if_false]
    have h0 : s.length ≠ 0 := by omega
    simp only [h0, if_false]
    have hlt : s.length - 1 < c.name.length := by omega
    rw [List.getElem?_eq_getElem hlt]
    have hget : c.name.getD (s.length - 1) 0 = c.name[s.length - 1] := by
      simp [List.getD_eq_getElem?_getD, List.getElem?_eq_getElem hlt]
    rw [hget]
    simp only
    by_cases h2 : to_upper c.name[s.length - 1] ≠ s.current_char
    · rw [if_pos h2, if_pos h2]
      exact hset 0 (by norm_num)
    · rw [if_neg h2, if_neg h2]
      by_cases h3 : s.length = c.name.length
      · rw [if_pos h3, if_pos h3]
        exact hset 2 (by norm_num)
      · rw [if_neg h3, if_neg h3]
        refine ⟨s.buf, rfl, rfl, ?_⟩
        intro j
        by_cases hj : j = s.index
        · subst hj; simp [hst]
        · simp [hj]

/-- One call in the matcher state: the slot under the cursor is updated and the cursor
moves on (or wraps). -/
theorem update_command_spec (desc : cat_descriptor W) (s : cat_object W) (c : cat_command W)
    (hc : desc.cmd[s.index]? = some c) (hlen : 1 ≤ s.length)
    (hi : s.index / 4 < s.buf.length) :
    ∃ b st, b.length = s.buf.length ∧ slot s.buf s.index = some st ∧
      (∀ j, slot b j = if j = s.index then some (upd_slot c.name s.length s.current_char st)
        else slot s.buf j) ∧
      update_command desc s = some (1,
        if s.index + 1 ≥ desc.cmd_num then
          { s with buf := b, index := 0, state := CAT_STATE_PARSE_COMMAND_CHAR }
        else { s with buf := b, index := s.index + 1 }) := by
  obtain ⟨st, hst⟩ := get_cmd_state_some s s.index hi
  have hst2 : slot s.buf s.index = some st := by rw [← get_cmd_state_slot]; exact hst
  unfold update_command
  rw [hst]
  simp only
  by_cases h0 : st = 0
  · subst h0
    refine ⟨s.buf, 0, rfl, hst2, ?_, ?_⟩
    · intro j
      by_cases hj : j = s.index
      · subst hj; simp [hst2, upd_slot]
      · simp [hj]
    · simp [CAT_CMD_STATE_NOT_MATCH]
      split <;> rfl
  · obtain ⟨b, hb, hupd, hslots⟩ := update_command_slot_spec c s st hlen hi hst2 h0
    refine ⟨b, st, hb, hst2, hslots, ?_⟩
    simp only [CAT_CMD_STATE_NOT_MATCH, ne_eq, h0, not_false_eq_true, if_true, hc, hupd]
    split <;> rfl

theorem match_fold_len (name uw : List Nat) : (match_fold name uw).1 = uw.length := by
  unfold match_fold
  induction uw using List.reverseRecOn with
  | nil => rfl
  | append_singleton l a ih => simp [List.foldl_append, ih]

theorem match_state_snoc (name uw : List Nat) (ch : Nat) :
    match_state name (uw ++ [ch]) = upd_slot name (uw.length + 1) ch (match_state name uw) := by
  unfold match_state
  have h := match_fold_len name uw
  unfold match_fold at h ⊢
  simp [List.foldl_append, h]

theorem match_state_nil (name : List Nat) : match_state name [] = 1 := rfl

/-- A whole matcher pass: from the cursor to the end of the table every slot is updated
once, then the engine is back in `CAT_STATE_PARSE_COMMAND_CHAR` with cursor 0. -/
theorem matcher_pass (desc : cat_descriptor W) (d : Nat) :
    ∀ s : cat_object W, s.state = CAT_STATE_UPDATE_COMMAND_STATE →
      s.index + (d + 1) = desc.cmd_num → 1 ≤ s.length → desc.cmd_num ≤ 4 * s.buf.length →
      ∃ b, b.length = s.buf.length ∧
        (∀ j c, desc.cmd[j]? = some c → s.index ≤ j →
          slot b j = (slot s.buf j).map (upd_slot c.name s.length s.current_char)) ∧
        (∀ j, j < s.index → slot b j = slot s.buf j) ∧
        advances desc (d + 1) s
          { s with buf := b, index := 0, state := CAT_STATE_PARSE_COMMAND_CHAR } := by
  induction d with
  | zero =>
    intro s hstate hidx hlen hbuf
    have hlt : s.index < desc.cmd.length := by unfold cat_descriptor.cmd_num at hidx; omega
    obtain ⟨b, st, hb, hst, hslots, hupd⟩ :=
      update_command_spec desc s desc.cmd[s.index] (List.getElem?_eq_getElem hlt) hlen
        (by omega)
    have hge : s.index + 1 ≥ desc.cmd_num := by omega
    rw [if_pos hge] at hupd
    refine ⟨b, hb, ?_, ?_, ?_⟩
    · intro j c hc hj
      have hjlt : j < desc.cmd.length := (List.getElem?_eq_some_iff.mp hc).1
      have hje : j = s.index := by unfold cat_descriptor.cmd_num at hidx; omega
      subst hje
      rw [List.getElem?_eq_getElem hlt] at hc
      injection hc with hc
      subst hc
      rw [hslots, if_pos rfl, hst]; rfl
    · intro j hj
      rw [hslots, if_neg (by omega)]
    · refine advances_step desc 0 1 s _ _ (by simp [in_progress, idle, hstate, reads_input]) ?_ rfl
      rw [cat_service_update desc s hstate]
      exact hupd
  | succ d ih =>
    intro s hstate hidx hlen hbuf
    have hlt : s.index < desc.cmd.length := by unfold cat_descriptor.cmd_num at hidx; omega
    obtain ⟨b, st, hb, hst, hslots, hupd⟩ :=
      update_command_spec desc s desc.cmd[s.index] (List.getElem?_eq_getElem hlt) hlen
        (by omega)
    have hge : ¬ (s.index + 1 ≥ desc.cmd_num) := by omega
    rw [if_neg hge] at hupd
    obtain ⟨b2, hb2, hslots2, hframe2, hadv⟩ :=
      ih { s with buf := b, index := s.index + 1 } hstate (by simp only; omega) hlen
        (by simp only; omega)
    simp only at hb2 hslots2 hframe2 hadv
    refine ⟨b2, by omega, ?_, ?_, ?_⟩
    · intro j c hc hj
      by_cases hje : j = s.index
      · subst hje
        rw [hframe2 _ (by omega), hslots, if_pos rfl, hst]
        rw [List.getElem?_eq_getElem hlt] at hc
        injection hc with hc
        subst hc
        rfl
      · rw [hslots2 j c hc (by omega), hslots, if_neg hje]
    · intro j hj
      rw [hframe2 _ (by omega), hslots, if_neg (by omega)]
    · refine advances_step desc (d + 1) 1 s _ _ (by simp [in_progress, idle, hstate, reads_input]) ?_ hadv
      rw [cat_service_update desc s hstate]
      exact hupd

theorem valid_char_facts (c : Nat) (h : is_valid_cmd_name_char c ≠ 0) :
    c ≠ 10 ∧ c ≠ 13 ∧ c ≠ 63 ∧ c ≠ 61 := by
  unfold is_valid_cmd_name_char at h
  split at h
  · omega
  · exact absurd rfl h

theorem read_cmd_char_some (s : cat_object W) (ch : Nat) (rest : List (Option Nat))
    (h : s.rx = some ch :: rest) :
    read_cmd_char s = (1, { s with rx := rest, current_char := to_upper ch }) := by
  unfold read_cmd_char; rw [h]

theorem parse_command_valid (s : cat_object W) (ch : Nat) (rest : List (Option Nat))
    (h : s.rx = some ch :: rest) (hv : is_valid_cmd_name_char (to_upper ch) ≠ 0) :
    parse_command s = (1, { s with rx := rest, current_char := to_upper ch,
                                   length := s.length + 1,
                                   state := CAT_STATE_UPDATE_COMMAND_STATE }) := by
  obtain ⟨h1, h2, h3, h4⟩ := valid_char_facts _ hv
  unfold parse_command
  rw [read_cmd_char_some s ch rest h]
  simp [h1, h2, h3, h4, hv]

theorem advances_cast (desc : cat_descriptor W) (n m : Nat) (s t : cat_object W)
    (h : advances desc n s t) (e : n = m) : advances desc m s t := e ▸ h

/-- Accumulating name characters: each valid character costs one reading call and one
matcher pass; afterwards every slot holds the match state for the longer name. -/
theorem name_chars (desc : cat_descriptor W) (rest : List (Option Nat)) (w : List Nat) :
    ∀ (s : cat_object W) (u : List Nat), s.state = CAT_STATE_PARSE_COMMAND_CHAR →
      s.index = 0 → s.length = u.length → 0 < desc.cmd_num →
      desc.cmd_num ≤ 4 * s.buf.length → s.rx = w.map some ++ rest →
      (∀ ch ∈ w, is_valid_cmd_name_char (to_upper ch) ≠ 0) →
      slots_are desc s.buf u →
      ∃ b cc, b.length = s.buf.length ∧ slots_are desc b (u ++ w.map to_upper) ∧
        advances desc (w.length * (desc.cmd_num + 1)) s
          { s with buf := b, length := u.length + w.length, rx := rest, current_char := cc } := by
  induction w with
  | nil =>
    intro s u hstate hidx hlen hn hbuf hrx hv hsl
    refine ⟨s.buf, s.current_char, rfl, by simpa using hsl, ?_⟩
    simp only [List.length_nil, Nat.zero_mul, advances]
    cases s
    simp_all
  | cons ch w ih =>
    intro s u hstate hidx hlen hn hbuf hrx hv hsl
    have hvch : is_valid_cmd_name_char (to_upper ch) ≠ 0 := hv ch (by simp)
    have hrx1 : s.rx = some ch :: (w.map some ++ rest) := by simpa using hrx
    have hstep := parse_command_valid s ch _ hrx1 hvch
    obtain ⟨d, hd⟩ : ∃ d, desc.cmd_num = d + 1 := ⟨desc.cmd_num - 1, by omega⟩
    obtain ⟨b1, hb1, hs1, _, hadv1⟩ := matcher_pass desc d
      { s with rx := w.map some ++ rest, current_char := to_upper ch,
               length := s.length + 1, state := CAT_STATE_UPDATE_COMMAND_STATE }
      rfl (by simp only; omega) (by simp) (by simpa using hbuf)
    simp only at hb1 hs1 hadv1
    have hsl1 : slots_are desc b1 (u ++ [to_upper ch]) := by
      intro j c hc
      rw [hs1 j c hc (by omega), hsl j c hc, match_state_snoc, hlen]
      rfl
    obtain ⟨b, cc, hb, hsl2, hadv2⟩ := ih
      { s with rx := w.map some ++ rest, current_char := to_upper ch,
               length := s.length + 1, buf := b1, index := 0,
               state := CAT_STATE_PARSE_COMMAND_CHAR }
      (u ++ [to_upper ch]) rfl rfl (by simp [hlen]) hn (by simp only; omega) rfl
      (fun c hc => hv c (by simp [hc])) hsl1
    simp only at hb hsl2 hadv2
    refine ⟨b, cc, by omega, by simpa using hsl2, ?_⟩
    have h1 : advances desc 1 s
        { s with rx := w.map some ++ rest, current_char := to_upper ch,
                 length := s.length + 1, state := CAT_STATE_UPDATE_COMMAND_STATE } := by
      refine advances_step desc 0 1 s _ _ (by simp [in_progress, idle, hrx1, hstate]) ?_ rfl
      rw [cat_service_parse_command desc s hstate, hstep]
    have h12 := advances_trans desc _ _ _ _ _ h1 hadv1
    have h123 := advances_trans desc _ _ _ _ _ h12 hadv2
    refine advances_cast desc (1 + (d + 1) + w.length * (desc.cmd_num + 1)) _ _ _ ?_ ?_
    · convert h123 using 2
      simp only [List.length_cons, List.length_append, List.length_nil]
      omega
    · simp only [List.length_cons, hd]; ring

theorem take_snoc_iff (l uw : List Nat) (ch : Nat) :
    l.take (uw.length + 1) = uw ++ [ch] ↔ l.take uw.length = uw ∧ l[uw.length]? = some ch := by
  rw [List.take_succ]
  cases h : l[uw.length]? with
  | none =>
    simp only [Option.toList_none, List.append_nil, and_false, iff_false, reduceCtorEq]
    intro hc
    have := congrArg List.length hc
    simp at this
    omega
  | some x =>
    simp only [Option.toList_some, Option.some.injEq]
    constructor
    · intro hc
      have hl : (List.take uw.length l).length = uw.length := by
        have := congrArg List.length hc
        simp only [List.length_append, List.length_singleton] at this
        omega
      obtain ⟨h1, h2⟩ := List.append_inj hc hl
      exact ⟨h1, by simpa using h2⟩
    · rintro ⟨h1, h2⟩
      rw [h1, h2]

/-- The match state in closed form: 0 unless the characters seen are an initial segment
of the upper-cased name; 2 when they are the whole name; 1 otherwise. -/
theorem match_state_eq (name uw : List Nat) :
    match_state name uw =
      if (name.map to_upper).take uw.length = uw then
        (if uw.length = name.length ∧ uw ≠ [] then 2 else 1)
      else 0 := by
  induction uw using List.reverseRecOn with
  | nil => simp [match_state_nil]
  | append_singleton uw ch ih =>
    rw [match_state_snoc, ih]
    have hlen : (uw ++ [ch]).length = uw.length + 1 := by simp
    simp only [hlen, take_snoc_iff]
    unfold upd_slot
    by_cases hp : (name.map to_upper).take uw.length = uw
    · rw [if_pos hp]
      have hle : uw.length ≤ name.length := by
        have := congrArg List.length hp
        simp at this
        omega
      by_cases hgt : uw.length + 1 > name.length
      · have hnone : (List.map to_upper name)[uw.length]? = none := by
          rw [List.getElem?_eq_none_iff]; simp; omega
        simp only [hnone, and_false, if_false, reduceCtorEq]
        split <;> simp [hgt]
      · have hlt : uw.length < name.length := by omega
        have hsome : (List.map to_upper name)[uw.length]? = some (to_upper (name.getD uw.length 0)) := by
          rw [List.getElem?_map, List.getD_eq_getElem?_getD, List.getElem?_eq_getElem hlt]
          rfl
        have hne : ¬ (uw.length = name.length ∧ uw ≠ []) := by omega
        simp only [hne, if_false, hsome, Option.some.injEq, hp, true_and,
          Nat.add_sub_cancel, hgt, one_ne_zero]
        by_cases hch : to_upper (name.getD uw.length 0) = ch
        · simp [hch]
        · simp [hch]
    · simp [hp]

/-- A name of which the characters seen are a proper initial segment is a partial match. -/
theorem match_state_of_abbrev (name uw t : List Nat)
    (h : name.map to_upper = uw ++ t) (ht : t ≠ []) : match_state name uw = 1 := by
  rw [match_state_eq]
  have hl := congrArg List.length h
  simp only [List.length_map, List.length_append] at hl
  have : t.length ≠ 0 := by simpa using ht
  rw [h, List.take_left' rfl]
  simp only [if_true]
  rw [if_neg]
  omega

/-- A name equal to the characters seen is a full match. -/
theorem match_state_full (name uw : List Nat) (hu : uw ≠ [])
    (h : name.map to_upper = uw) : match_state name uw = 2 := by
  rw [match_state_eq]
  have hl := congrArg List.length h
  simp only [List.length_map] at hl
  rw [h, List.take_length]
  simp [hl, hu]

/-- A name of which the characters seen are no initial segment does not match. -/
theorem match_state_none (name uw : List Nat)
    (h : ∀ t, name.map to_upper ≠ uw ++ t) : match_state name uw = 0 := by
  rw [match_state_eq]
  rw [if_neg]
  intro hc
  apply h ((name.map to_upper).drop uw.length)
  conv_lhs => rw [← List.take_append_drop uw.length (name.map to_upper)]
  rw [hc]

theorem reaches_refl (desc : cat_descriptor W) (s : cat_object W) : reaches desc s s :=
  ⟨0, rfl⟩

theorem reaches_trans (desc : cat_descriptor W) (s t u : cat_object W)
    (h1 : reaches desc s t) (h2 : reaches desc t u) : reaches desc s u := by
  obtain ⟨n, hn⟩ := h1
  obtain ⟨m, hm⟩ := h2
  exact ⟨n + m, advances_trans desc n m s t u hn hm⟩

theorem reaches_step (desc : cat_descriptor W) (ret : Nat) (s t : cat_object W)
    (hi : in_progress s) (h : cat_service desc s = some (ret, t)) : reaches desc s t :=
  ⟨1, advances_step desc 0 ret s t t hi h rfl⟩

theorem slots_are_init (desc : cat_descriptor W) (n : Nat) (h : desc.cmd_num ≤ 4 * n) :
    slots_are desc (List.replicate n 0x55) [] := by
  intro j c hc
  have hj : j < desc.cmd.length := (List.getElem?_eq_some_iff.mp hc).1
  unfold cat_descriptor.cmd_num at h
  have hq : j / 4 < n := by omega
  unfold slot
  rw [List.getElem?_eq_getElem (by simpa using hq)]
  simp only [List.getElem_replicate, Option.map_some', match_state_nil, Option.some.injEq]
  have h4 : j % 4 < 4 := Nat.mod_lt _ (by norm_num)
  interval_cases (j % 4) <;> decide

/-- The prefix and the name: after the two prefix letters and the valid name characters
`w` the engine is in `CAT_STATE_PARSE_COMMAND_CHAR`, has counted `w`, and every slot holds
the match state of its command for the upper-cased `w`; nothing was emitted or called. -/
theorem name_phase (desc : cat_descriptor W) (s : cat_object W) (a t : Nat) (w : List Nat)
    (rest : List (Option Nat)) (hr : ready desc s)
    (hrx : s.rx = some a :: some t :: (w.map some ++ rest))
    (ha : to_upper a = 65) (ht : to_upper t = 84)
    (hv : ∀ ch ∈ w, is_valid_cmd_name_char (to_upper ch) ≠ 0) :
    ∃ b cc, b.length = s.buf.length ∧ slots_are desc b (w.map to_upper) ∧
      advances desc (2 + w.length * (desc.cmd_num + 1)) s
        { s with state := CAT_STATE_PARSE_COMMAND_CHAR,
                 prefix_state := CAT_PREFIX_STATE_WAIT_T,
                 current_char := cc, index := 0, length := w.length,
                 cmd_type := CAT_CMD_TYPE_EXECUTE, buf := b, rx := rest } := by
  obtain ⟨hstate, hpre, hn, hbuf⟩ := hr
  have e1 : cat_service desc s = some (1,
      { s with rx := some t :: (w.map some ++ rest), current_char := 65,
               prefix_state := CAT_PREFIX_STATE_WAIT_T }) := by
    rw [cat_service_prefix_state desc s hstate]
    unfold parse_prefix
    rw [read_cmd_char_some s a _ hrx]
    simp [hpre, ha]
  have e2 : cat_service desc
      { s with rx := some t :: (w.map some ++ rest), current_char := 65,
               prefix_state := CAT_PREFIX_STATE_WAIT_T } = some (1,
      { s with rx := w.map some ++ rest, current_char := 84,
               prefix_state := CAT_PREFIX_STATE_WAIT_T,
               buf := List.replicate s.buf.length 0x55, index := 0, length := 0,
               cmd_type := CAT_CMD_TYPE_EXECUTE,
               state := CAT_STATE_PARSE_COMMAND_CHAR }) := by
    rw [cat_service_prefix_state]
    · unfold parse_prefix
      rw [read_cmd_char_some _ t (w.map some ++ rest) rfl]
      simp [ht, prepare_parse_command]
    · exact hstate
  obtain ⟨b, cc, hb, hsl, hadv⟩ := name_chars desc rest w
      { s with rx := w.map some ++ rest, current_char := 84,
               prefix_state := CAT_PREFIX_STATE_WAIT_T,
               buf := List.replicate s.buf.length 0x55, index := 0, length := 0,
               cmd_type := CAT_CMD_TYPE_EXECUTE,
               state := CAT_STATE_PARSE_COMMAND_CHAR }
      [] rfl rfl rfl hn (by simpa using hbuf) rfl hv
      (slots_are_init desc s.buf.length hbuf)
  simp only [List.length_replicate, List.nil_append, List.length_nil, Nat.zero_add] at hb hsl hadv
  refine ⟨b, cc, hb, hsl, ?_⟩
  have h2 := advances_step desc 0 1 _ _ _ (by simp [in_progress, idle, hstate]) e2 rfl
  have h1 := advances_step desc 1 1 s _ _ (by simp [in_progress, idle, hrx, hstate]) e1 h2
  exact advances_trans desc 2 _ _ _ _ h1 hadv

/-! ## The resolver -/

theorem search_idle (s : cat_object W) (h : s.state = CAT_STATE_SEARCH_COMMAND) :
    in_progress s := by
  simp [in_progress, idle, h, reads_input]

/-- A resolver call on a slot in state "not matching". -/
theorem search_zero (desc : cat_descriptor W) (s : cat_object W)
    (hs : s.state = CAT_STATE_SEARCH_COMMAND) (h0 : slot s.buf s.index = some 0) :
    cat_service desc s = some (search_command_next desc s) := by
  rw [cat_service_search desc s hs]
  unfold search_command
  rw [get_cmd_state_slot, h0]
  simp [CAT_CMD_STATE_NOT_MATCH]

/-- A resolver call on a "partial match" slot while a candidate is already recorded. -/
theorem search_partial_second (desc : cat_descriptor W) (s : cat_object W)
    (hs : s.state = CAT_STATE_SEARCH_COMMAND) (h1 : slot s.buf s.index = some 1)
    (hc : s.cmd ≠ none) :
    cat_service desc s = some (1, { s with state := CAT_STATE_COMMAND_NOT_FOUND }) := by
  rw [cat_service_search desc s hs]
  unfold search_command
  rw [get_cmd_state_slot, h1]
  simp [CAT_CMD_STATE_NOT_MATCH, CAT_CMD_STATE_PARTIAL_MATCH, hc]

/-- A resolver call on a "partial match" slot while no candidate is recorded. -/
theorem search_partial_first (desc : cat_descriptor W) (s : cat_object W)
    (hs : s.state = CAT_STATE_SEARCH_COMMAND) (h1 : slot s.buf s.index = some 1)
    (hc : s.cmd = none) :
    cat_service desc s = some (search_command_next desc { s with cmd := some s.index }) := by
  rw [cat_service_search desc s hs]
  unfold search_command
  rw [get_cmd_state_slot, h1]
  simp [CAT_CMD_STATE_NOT_MATCH, CAT_CMD_STATE_PARTIAL_MATCH, hc]

/-- A resolver call on a "full match" slot. -/
theorem search_full (desc : cat_descriptor W) (s : cat_object W)
    (hs : s.state = CAT_STATE_SEARCH_COMMAND) (h2 : slot s.buf s.index = some 2) :
    cat_service desc s
      = some (1, { s with cmd := some s.index, state := CAT_STATE_COMMAND_FOUND }) := by
  rw [cat_service_search desc s hs]
  unfold search_command
  rw [get_cmd_state_slot, h2]
  simp [CAT_CMD_STATE_NOT_MATCH, CAT_CMD_STATE_PARTIAL_MATCH, CAT_CMD_STATE_FULL_MATCH]

theorem search_next_inside (desc : cat_descriptor W) (s : cat_object W)
    (h : s.index + 1 < desc.cmd_num) :
    search_command_next desc s = (1, { s with index := s.index + 1 }) := by
  unfold search_command_next
  rw [if_neg (by omega)]

theorem search_next_last (desc : cat_descriptor W) (s : cat_object W)
    (h : s.index + 1 ≥ desc.cmd_num) :
    search_command_next desc s = (1,
      { s with index := s.index + 1,
               state := if s.cmd = none then CAT_STATE_COMMAND_NOT_FOUND
                        else CAT_STATE_COMMAND_FOUND }) := by
  unfold search_command_next
  rw [if_pos h]
  split <;> rfl

/-- The resolver walks over a run of `m` "not matching" slots inside the table. -/
theorem search_skip (desc : cat_descriptor W) (m : Nat) :
    ∀ s : cat_object W, s.state = CAT_STATE_SEARCH_COMMAND →
      s.index + m < desc.cmd_num →
      (∀ j, s.index ≤ j → j < s.index + m → slot s.buf j = some 0) →
      reaches desc s { s with index := s.index + m } := by
  induction m with
  | zero => intro s _ _ _; exact reaches_refl desc s
  | succ m ih =>
    intro s hs hlt hz
    have e := search_zero desc s hs (hz s.index (le_refl _) (by omega))
    rw [search_next_inside desc s (by omega)] at e
    have r1 := reaches_step desc 1 s _ (search_idle s hs) e
    have r2 := ih { s with index := s.index + 1 } hs (by simp only; omega)
      (fun j h1 h2 => hz j (by simp only at h1; omega) (by simp only at h2; omega))
    have r := reaches_trans desc _ _ _ r1 r2
    convert r using 2
    simp only
    omega

/-- The resolver walks over "not matching" slots up to the end of the table and decides. -/
theorem search_skip_end (desc : cat_descriptor W) (m : Nat) (s : cat_object W)
    (hs : s.state = CAT_STATE_SEARCH_COMMAND) (he : s.index + (m + 1) = desc.cmd_num)
    (hz : ∀ j, s.index ≤ j → j < desc.cmd_num → slot s.buf j = some 0) :
    reaches desc s
      { s with index := desc.cmd_num,
               state := if s.cmd = none then CAT_STATE_COMMAND_NOT_FOUND
                        else CAT_STATE_COMMAND_FOUND } := by
  have r1 := search_skip desc m s hs (by omega) (fun j h1 h2 => hz j h1 (by omega))
  have e := search_zero desc { s with index := s.index + m } hs
    (hz (s.index + m) (by omega) (by omega))
  rw [search_next_last desc _ (by simp only; omega)] at e
  simp only at e
  have r2 := reaches_step desc 1 { s with index := s.index + m } _
    (search_idle { s with index := s.index + m } hs) e
  have r := reaches_trans desc _ _ _ r1 r2
  convert r using 2
  omega

/-- The resolver over a table without any matching slot: not found. -/
theorem resolve_none (desc : cat_descriptor W) (s : cat_object W)
    (hs : s.state = CAT_STATE_SEARCH_COMMAND) (hi : s.index = 0) (hc : s.cmd = none)
    (hn : 0 < desc.cmd_num)
    (hz : ∀ j, j < desc.cmd_num → slot s.buf j = some 0) :
    reaches desc s { s with index := desc.cmd_num, state := CAT_STATE_COMMAND_NOT_FOUND } := by
  have r := search_skip_end desc (desc.cmd_num - 1) s hs (by omega) (fun j _ h => hz j h)
  rw [if_pos hc] at r
  exact r

/-- The resolver when the first matching slot `k` is a full match: found, command `k`. -/
theorem resolve_full_first (desc : cat_descriptor W) (s : cat_object W) (k : Nat)
    (hs : s.state = CAT_STATE_SEARCH_COMMAND) (hi : s.index = 0)
    (hk : k < desc.cmd_num) (h2 : slot s.buf k = some 2)
    (hz : ∀ j, j < k → slot s.buf j = some 0) :
    reaches desc s { s with index := k, cmd := some k, state := CAT_STATE_COMMAND_FOUND } := by
  have r1 := search_skip desc k s hs (by omega) (fun j _ h => hz j (by omega))
  have e := search_full desc { s with index := s.index + k } hs (by simpa [hi] using h2)
  have r2 := reaches_step desc 1 { s with index := s.index + k } _
    (search_idle { s with index := s.index + k } hs) e
  have r := reaches_trans desc _ _ _ r1 r2
  convert r using 2 <;> simp [hi]

/-- The resolver when a single partial match `j1` precedes the first full match `k`:
found, command `k`. -/
theorem resolve_full_after_partial (desc : cat_descriptor W) (s : cat_object W) (j1 k : Nat)
    (hs : s.state = CAT_STATE_SEARCH_COMMAND) (hi : s.index = 0) (hc : s.cmd = none)
    (hk : k < desc.cmd_num) (hj : j1 < k) (h1 : slot s.buf j1 = some 1)
    (h2 : slot s.buf k = some 2)
    (hz : ∀ j, j < k → j ≠ j1 → slot s.buf j = some 0) :
    reaches desc s { s with index := k, cmd := some k, state := CAT_STATE_COMMAND_FOUND } := by
  have r1 := search_skip desc j1 s hs (by omega) (fun j _ h => hz j (by omega) (by omega))
  have e := search_partial_first desc { s with index := s.index + j1 } hs
    (by simpa [hi] using h1) hc
  rw [search_next_inside desc _ (by simp only; omega)] at e
  have r2 := reaches_step desc 1 { s with index := s.index + j1 } _
    (search_idle { s with index := s.index + j1 } hs) e
  have r3 := search_skip desc (k - j1 - 1)
    { s with cmd := some (s.index + j1), index := s.index + j1 + 1 } hs
    (by simp only; omega)
    (fun j h1 h2 => hz j (by simp only at h2; omega) (by simp only at h1; omega))
  have e4 := search_full desc
    { s with cmd := some (s.index + j1), index := s.index + j1 + 1 + (k - j1 - 1) } hs
    (by
      have : s.index + j1 + 1 + (k - j1 - 1) = k := by omega
      simpa [this] using h2)
  have r4 := reaches_step desc 1
    { s with cmd := some (s.index + j1), index := s.index + j1 + 1 + (k - j1 - 1) } _
    (search_idle
      { s with cmd := some (s.index + j1), index := s.index + j1 + 1 + (k - j1 - 1) } hs) e4
  have r := reaches_trans desc _ _ _ (reaches_trans desc _ _ _ (reaches_trans desc _ _ _ r1 r2) r3) r4
  convert r using 2 <;> simp only [hi, Option.some.injEq] <;> omega

/-- The resolver when two partial matches come before any full match: not found. -/
theorem resolve_ambiguous (desc : cat_descriptor W) (s : cat_object W) (j1 j2 : Nat)
    (hs : s.state = CAT_STATE_SEARCH_COMMAND) (hi : s.index = 0) (hc : s.cmd = none)
    (hk : j2 < desc.cmd_num) (hj : j1 < j2) (h1 : slot s.buf j1 = some 1)
    (h2 : slot s.buf j2 = some 1)
    (hz : ∀ j, j < j2 → j ≠ j1 → slot s.buf j = some 0) :
    reaches desc s
      { s with index := j2, cmd := some j1, state := CAT_STATE_COMMAND_NOT_FOUND } := by
  have r1 := search_skip desc j1 s hs (by omega) (fun j _ h => hz j (by omega) (by omega))
  have e := search_partial_first desc { s with index := s.index + j1 } hs
    (by simpa [hi] using h1) hc
  rw [search_next_inside desc _ (by simp only; omega)] at e
  have r2 := reaches_step desc 1 { s with index := s.index + j1 } _
    (search_idle { s with index := s.index + j1 } hs) e
  have r3 := search_skip desc (j2 - j1 - 1)
    { s with cmd := some (s.index + j1), index := s.index + j1 + 1 } hs
    (by simp only; omega)
    (fun j h1 h2 => hz j (by simp only at h2; omega) (by simp only at h1; omega))
  have e4 := search_partial_second desc
    { s with cmd := some (s.index + j1), index := s.index + j1 + 1 + (j2 - j1 - 1) } hs
    (by
      have : s.index + j1 + 1 + (j2 - j1 - 1) = j2 := by omega
      simpa [this] using h2) (by simp)
  have r4 := reaches_step desc 1
    { s with cmd := some (s.index + j1), index := s.index + j1 + 1 + (j2 - j1 - 1) } _
    (search_idle
      { s with cmd := some (s.index + j1), index := s.index + j1 + 1 + (j2 - j1 - 1) } hs) e4
  have r := reaches_trans desc _ _ _ (reaches_trans desc _ _ _ (reaches_trans desc _ _ _ r1 r2) r3) r4
  convert r using 2 <;> simp only [hi, Option.some.injEq] <;> omega

/-- The resolver over a table with one partial match `k` and no other matching slot:
found, command `k`. -/
theorem resolve_unique (desc : cat_descriptor W) (s : cat_object W) (k : Nat)
    (hs : s.state = CAT_STATE_SEARCH_COMMAND) (hi : s.index = 0) (hc : s.cmd = none)
    (hk : k < desc.cmd_num) (h1 : slot s.buf k = some 1)
    (hz : ∀ j, j < desc.cmd_num → j ≠ k → slot s.buf j = some 0) :
    reaches desc s
      { s with index := desc.cmd_num, cmd := some k, state := CAT_STATE_COMMAND_FOUND } := by
  have r1 := search_skip desc k s hs (by omega) (fun j _ h => hz j (by omega) (by omega))
  have e := search_partial_first desc { s with index := s.index + k } hs
    (by simpa [hi] using h1) hc
  by_cases hlast : k + 1 = desc.cmd_num
  · rw [search_next_last desc _ (by simp only; omega)] at e
    have r2 := reaches_step desc 1 { s with index := s.index + k } _
      (search_idle { s with index := s.index + k } hs) e
    have r := reaches_trans desc _ _ _ r1 r2
    convert r using 2 <;> simp only [hi, if_false, reduceCtorEq, Option.some.injEq] <;> omega
  · rw [search_next_inside desc _ (by simp only; omega)] at e
    have r2 := reaches_step desc 1 { s with index := s.index + k } _
      (search_idle { s with index := s.index + k } hs) e
    have r3 := search_skip_end desc (desc.cmd_num - k - 2)
      { s with cmd := some (s.index + k), index := s.index + k + 1 } hs
      (by simp only; omega)
      (fun j h1 h2 => hz j h2 (by simp only at h1; omega))
    have r := reaches_trans desc _ _ _ (reaches_trans desc _ _ _ r1 r2) r3
    convert r using 2 <;> simp only [hi, if_false, reduceCtorEq, Option.some.injEq] <;> omega

/-! ## Terminating the name -/

theorem parse_command_newline (s : cat_object W) (rest : List (Option Nat))
    (h : s.rx = some 10 :: rest) (hl : s.length ≠ 0) :
    parse_command s = (1, { s with rx := rest, current_char := 10, index := 0, cmd := none,
                                   state := CAT_STATE_SEARCH_COMMAND }) := by
  unfold parse_command
  rw [read_cmd_char_some s 10 rest h]
  simp [hl, to_upper, prepare_search_command]

theorem parse_command_question (s : cat_object W) (rest : List (Option Nat))
    (h : s.rx = some 63 :: rest) (hl : s.length ≠ 0) :
    parse_command s = (1, { s with rx := rest, current_char := 63,
                                   cmd_type := CAT_CMD_TYPE_READ,
                                   state := CAT_STATE_WAIT_ACKNOWLEDGE }) := by
  unfold parse_command
  rw [read_cmd_char_some s 63 rest h]
  simp [hl, to_upper]

theorem parse_command_equals (s : cat_object W) (rest : List (Option Nat))
    (h : s.rx = some 61 :: rest) (hl : s.length ≠ 0) :
    parse_command s = (1, { s with rx := rest, current_char := 61,
                                   cmd_type := CAT_CMD_TYPE_WRITE, index := 0, cmd := none,
                                   state := CAT_STATE_SEARCH_COMMAND }) := by
  unfold parse_command
  rw [read_cmd_char_some s 61 rest h]
  simp [hl, to_upper, prepare_search_command]

theorem wait_acknowledge_newline (s : cat_object W) (rest : List (Option Nat))
    (h : s.rx = some 10 :: rest) :
    wait_acknowledge s = (1, { s with rx := rest, current_char := 10, index := 0, cmd := none,
                                      state := CAT_STATE_SEARCH_COMMAND }) := by
  unfold wait_acknowledge
  rw [read_cmd_char_some s 10 rest h]
  simp [to_upper, prepare_search_command]

/-- Ending the name: the engine enters the resolver with cursor 0, no candidate and the
operation kind of the terminator. -/
theorem name_terminated (desc : cat_descriptor W) (s : cat_object W) (ty : cat_cmd_type)
    (rest : List (Option Nat)) (hs : s.state = CAT_STATE_PARSE_COMMAND_CHAR)
    (hl : s.length ≠ 0) (hty : s.cmd_type = CAT_CMD_TYPE_EXECUTE)
    (hrx : s.rx = (terminator ty).map some ++ rest) :
    ∃ cc, reaches desc s
      { s with rx := rest, current_char := cc, index := 0, cmd := none, cmd_type := ty,
               state := CAT_STATE_SEARCH_COMMAND } := by
  cases ty with
  | CAT_CMD_TYPE_EXECUTE =>
    refine ⟨10, ?_⟩
    have e := parse_command_newline s rest (by simpa [terminator] using hrx) hl
    have r := reaches_step desc 1 s _ (by simp [in_progress, idle, hs, hrx, terminator])
      (by rw [cat_service_parse_command desc s hs, e])
    convert r using 2
    exact hty.symm
  | CAT_CMD_TYPE_READ =>
    refine ⟨10, ?_⟩
    have e := parse_command_question s (some 10 :: rest) (by simpa [terminator] using hrx) hl
    have r1 := reaches_step desc 1 s _ (by simp [in_progress, idle, hs, hrx, terminator])
      (by rw [cat_service_parse_command desc s hs, e])
    have e2 := wait_acknowledge_newline
      { s with rx := some 10 :: rest, current_char := 63, cmd_type := CAT_CMD_TYPE_READ,
               state := CAT_STATE_WAIT_ACKNOWLEDGE } rest rfl
    have r2 := reaches_step desc 1
      { s with rx := some 10 :: rest, current_char := 63, cmd_type := CAT_CMD_TYPE_READ,
               state := CAT_STATE_WAIT_ACKNOWLEDGE } _ (by simp [in_progress, idle])
      (by rw [cat_service_wait desc _ rfl, e2])
    exact reaches_trans desc _ _ _ r1 r2
  | CAT_CMD_TYPE_WRITE =>
    refine ⟨61, ?_⟩
    have e := parse_command_equals s rest (by simpa [terminator] using hrx) hl
    exact reaches_step desc 1 s _ (by simp [in_progress, idle, hs, hrx, terminator])
      (by rw [cat_service_parse_command desc s hs, e])

/-- One resolver call inside the table: either the cursor moves on, or the resolver
decides. -/
theorem search_step (desc : cat_descriptor W) (s : cat_object W)
    (hs : s.state = CAT_STATE_SEARCH_COMMAND) (hi : s.index < desc.cmd_num)
    (hbuf : desc.cmd_num ≤ 4 * s.buf.length)
    (hc : ∀ k, s.cmd = some k → k < desc.cmd_num) :
    ∃ idx c st, cat_service desc s = some (1, { s with index := idx, cmd := c, state := st }) ∧
      (∀ k, c = some k → k < desc.cmd_num) ∧
      ((st = CAT_STATE_SEARCH_COMMAND ∧ idx = s.index + 1 ∧ s.index + 1 < desc.cmd_num) ∨
        st = CAT_STATE_COMMAND_NOT_FOUND ∨ (st = CAT_STATE_COMMAND_FOUND ∧ c ≠ none)) := by
  obtain ⟨v, hv⟩ := get_cmd_state_some s s.index (by omega)
  rw [cat_service_search desc s hs]
  unfold search_command
  rw [hv]
  simp only [CAT_CMD_STATE_NOT_MATCH, CAT_CMD_STATE_PARTIAL_MATCH, CAT_CMD_STATE_FULL_MATCH]
  have hnext : ∀ c : Option Nat, (∀ k, c = some k → k < desc.cmd_num) →
      ∃ idx c2 st, some (search_command_next desc { s with cmd := c })
          = some (1, { s with index := idx, cmd := c2, state := st }) ∧
        (∀ k, c2 = some k → k < desc.cmd_num) ∧
        ((st = CAT_STATE_SEARCH_COMMAND ∧ idx = s.index + 1 ∧ s.index + 1 < desc.cmd_num) ∨
          st = CAT_STATE_COMMAND_NOT_FOUND ∨ (st = CAT_STATE_COMMAND_FOUND ∧ c2 ≠ none)) := by
    intro c hcc
    by_cases hl : s.index + 1 < desc.cmd_num
    · refine ⟨s.index + 1, c, CAT_STATE_SEARCH_COMMAND, ?_, hcc, Or.inl ⟨rfl, rfl, hl⟩⟩
      rw [search_next_inside desc { s with cmd := c } hl]
      simp [hs]
    · rw [search_next_last desc { s with cmd := c } (by simp only; omega)]
      by_cases hn : c = none
      · exact ⟨s.index + 1, c, CAT_STATE_COMMAND_NOT_FOUND, by simp [hn], hcc, Or.inr (Or.inl rfl)⟩
      · exact ⟨s.index + 1, c, CAT_STATE_COMMAND_FOUND, by simp [hn], hcc,
          Or.inr (Or.inr ⟨rfl, hn⟩)⟩
  by_cases h0 : v = 0
  · simp only [h0, ne_eq, not_true_eq_false, if_false]
    exact hnext s.cmd hc
  · simp only [ne_eq, h0, not_false_eq_true, if_true]
    by_cases h1 : v = 1
    · simp only [h1, if_true]
      by_cases hn : s.cmd = none
      · simp only [hn, not_true_eq_false, if_false]
        exact hnext (some s.index) (fun k hk => by injection hk with hk; omega)
      · simp only [hn, not_false_eq_true, if_true]
        exact ⟨s.index, s.cmd, CAT_STATE_COMMAND_NOT_FOUND, rfl, hc, Or.inr (Or.inl rfl)⟩
    · simp only [h1, if_false]
      by_cases h2 : v = 2
      · simp only [h2, if_true]
        exact ⟨s.index, some s.index, CAT_STATE_COMMAND_FOUND, rfl,
          (fun k hk => by injection hk with hk; omega), Or.inr (Or.inr ⟨rfl, by simp⟩)⟩
      · simp only [h2, if_false]
        exact hnext s.cmd hc

/-- The resolver always comes to a decision: from any cursor inside the table it ends in
`CAT_STATE_COMMAND_FOUND` (with a candidate of the table) or in
`CAT_STATE_COMMAND_NOT_FOUND`, changing nothing but the cursor and the candidate. -/
theorem search_total (desc : cat_descriptor W) (d : Nat) :
    ∀ s : cat_object W, s.state = CAT_STATE_SEARCH_COMMAND →
      s.index + (d + 1) = desc.cmd_num → desc.cmd_num ≤ 4 * s.buf.length →
      (∀ k, s.cmd = some k → k < desc.cmd_num) →
      ∃ idx c st, (st = CAT_STATE_COMMAND_FOUND ∨ st = CAT_STATE_COMMAND_NOT_FOUND) ∧
        (st = CAT_STATE_COMMAND_FOUND → ∃ k, c = some k ∧ k < desc.cmd_num) ∧
        reaches desc s { s with index := idx, cmd := c, state := st } := by
  induction d with
  | zero =>
    intro s hs hidx hbuf hc
    obtain ⟨idx, c, st, e, hcc, hst⟩ := search_step desc s hs (by omega) hbuf hc
    have r := reaches_step desc 1 s _ (search_idle s hs) e
    rcases hst with ⟨_, _, hlt⟩ | hnf | ⟨hf, hne⟩
    · omega
    · exact ⟨idx, c, st, Or.inr hnf, (fun h => by rw [hnf] at h; cases h), r⟩
    · refine ⟨idx, c, st, Or.inl hf, fun _ => ?_, r⟩
      cases c with
      | none => exact absurd rfl hne
      | some k => exact ⟨k, rfl, hcc k rfl⟩
  | succ d ih =>
    intro s hs hidx hbuf hc
    obtain ⟨idx, c, st, e, hcc, hst⟩ := search_step desc s hs (by omega) hbuf hc
    have r := reaches_step desc 1 s _ (search_idle s hs) e
    rcases hst with ⟨hst, hidx2, hlt⟩ | hnf | ⟨hf, hne⟩
    · subst hst hidx2
      obtain ⟨idx2, c2, st2, h1, h2, r2⟩ := ih
        { s with index := s.index + 1, cmd := c, state := CAT_STATE_SEARCH_COMMAND }
        rfl (by simp only; omega) hbuf hcc
      exact ⟨idx2, c2, st2, h1, h2, reaches_trans desc _ _ _ r r2⟩
    · exact ⟨idx, c, st, Or.inr hnf, (fun h => by rw [hnf] at h; cases h), r⟩
    · refine ⟨idx, c, st, Or.inl hf, fun _ => ?_, r⟩
      cases c with
      | none => exact absurd rfl hne
      | some k => exact ⟨k, rfl, hcc k rfl⟩

/-! ## What a call does to the input schedule -/

theorem read_cmd_char_rx (s : cat_object W) : (read_cmd_char s).2.rx = s.rx.tail := by
  unfold read_cmd_char
  split <;> simp_all

theorem set_cmd_state_rx (s t : cat_object W) (i x : Nat) (h : set_cmd_state s i x = some t) :
    t.rx = s.rx := by
  rw [set_cmd_state_eq] at h
  cases hb : s.buf[i / 4]? with
  | none => rw [hb] at h; simp at h
  | some b => rw [hb] at h; simp at h; subst h; rfl

theorem error_state_rx (s : cat_object W) : (error_state s).2.rx = s.rx.tail := by
  rw [← read_cmd_char_rx s]
  unfold error_state
  simp only []
  split_ifs <;> simp [ack_error, reset_state, print_string]

theorem parse_prefix_rx (s : cat_object W) : ( parse_prefix s).2.rx = s.rx.tail := by
  rw [← read_cmd_char_rx s]
  unfold parse_prefix
  simp only []
  split_ifs
  · rfl
  all_goals (split <;> simp [ack_error, reset_state, print_string, prepare_parse_command])

theorem parse_command_rx (s : cat_object W) : (parse_command s).2.rx = s.rx.tail := by
  rw [← read_cmd_char_rx s]
  unfold parse_command
  simp only []
  split_ifs <;> simp [ack_ok, reset_state, print_string, prepare_search_command]

theorem wait_acknowledge_rx (s : cat_object W) : (wait_acknowledge s).2.rx = s.rx.tail := by
  rw [← read_cmd_char_rx s]
  unfold wait_acknowledge
  simp only []
  split_ifs <;> simp [prepare_search_command]

theorem update_command_slot_rx (c : cat_command W) (s u : cat_object W)
    (h : update_command_slot c s = some u) : u.rx = s.rx := by
  unfold update_command_slot at h
  simp only [] at h
  by_cases h1 : s.length > c.name.length
  · rw [if_pos h1] at h; exact set_cmd_state_rx _ _ _ _ h
  · rw [if_neg h1] at h
    by_cases h2 : s.length = 0
    · rw [if_pos h2] at h; cases h
    · rw [if_neg h2] at h
      cases hn : c.name[s.length - 1]? with
      | none => rw [hn] at h; cases h
      | some ch =>
        rw [hn] at h
        simp only [] at h
        by_cases h3 : to_upper ch ≠ s.current_char
        · rw [if_pos h3] at h; exact set_cmd_state_rx _ _ _ _ h
        · rw [if_neg h3] at h
          by_cases h4 : s.length = c.name.length
          · rw [if_pos h4] at h; exact set_cmd_state_rx _ _ _ _ h
          · rw [if_neg h4] at h; injection h with h; rw [← h]

theorem update_command_rx (desc : cat_descriptor W) (s t : cat_object W) (r : Nat)
    (h : update_command desc s = some (r, t)) : t.rx = s.rx := by
  unfold update_command at h
  split at h
  · cases h
  · rename_i st _
    have key : ∀ u : cat_object W,
        (if st ≠ CAT_CMD_STATE_NOT_MATCH then
          match desc.cmd[s.index]? with
          | none => none
          | some cmd => update_command_slot cmd s
        else some s) = some u → u.rx = s.rx := by
      intro u hu
      by_cases h0 : st ≠ CAT_CMD_STATE_NOT_MATCH
      · rw [if_pos h0] at hu
        split at hu
        · cases hu
        · exact update_command_slot_rx _ _ _ hu
      · rw [if_neg h0] at hu; injection hu with hu; rw [← hu]
    simp only [] at h
    split at h
    · cases h
    · rename_i u hu
      have := key u hu
      split_ifs at h <;> (injection h with h; injection h with _ h; rw [← h]; exact this)

theorem search_command_next_rx (desc : cat_descriptor W) (s : cat_object W) :
    (search_command_next desc s).2.rx = s.rx := by
  unfold search_command_next
  split_ifs <;> rfl

theorem search_command_rx (desc : cat_descriptor W) (s t : cat_object W) (r : Nat)
    (h : search_command desc s = some (r, t)) : t.rx = s.rx := by
  unfold search_command at h
  split at h
  · cases h
  · split_ifs at h <;> injection h with h
    · injection h with _ h; rw [← h]
    · have := search_command_next_rx desc { s with cmd := some s.index }
      rw [h] at this; exact this
    · injection h with _ h; rw [← h]
    · have := search_command_next_rx desc s
      rw [h] at this; exact this
    · have := search_command_next_rx desc s
      rw [h] at this; exact this

theorem command_found_rx (desc : cat_descriptor W) (s t : cat_object W) (r : Nat)
    (h : command_found desc s = some (r, t)) : t.rx = s.rx := by
  unfold command_found at h
  split at h
  · split at h
    · cases h
    · split at h
      · injection h with h; injection h with _ h; rw [← h]; rfl
      · simp only [] at h
        split_ifs at h <;> (injection h with h; injection h with _ h; rw [← h]; rfl)
  · split at h
    · cases h
    · split at h
      · injection h with h; injection h with _ h; rw [← h]; rfl
      · simp only [] at h
        split_ifs at h
        · injection h with h; injection h with _ h; rw [← h]; rfl
        · unfold print_binary at h
          split at h
          · cases h
          · rename_i u hu
            split_ifs at hu
            injection hu with hu
            injection h with h; injection h with _ h; rw [← h, ← hu]; rfl
  · injection h with h; injection h with _ h; rw [← h]

theorem parse_command_args_rx (desc : cat_descriptor W) (s t : cat_object W) (r : Nat)
    (h : parse_command_args desc s = some (r, t)) : t.rx = s.rx.tail := by
  rw [← read_cmd_char_rx s]
  unfold parse_command_args at h
  simp only [] at h
  split_ifs at h
  · injection h with h; injection h with _ h; rw [← h]
  · unfold parse_command_args_newline at h
    split at h
    · cases h
    · split_ifs at h
      split at h
      · injection h with h; injection h with _ h; rw [← h]; rfl
      · simp only [] at h
        split_ifs at h <;> (injection h with h; injection h with _ h; rw [← h]; rfl)
  · injection h with h; injection h with _ h; rw [← h]
  · injection h with h; injection h with _ h; rw [← h]
  · injection h with h; injection h with _ h; rw [← h]

/-- A call in a state that polls the transport removes the first event of the schedule;
a call in another state leaves the schedule alone. -/
theorem cat_service_rx (desc : cat_descriptor W) (s t : cat_object W) (r : Nat)
    (h : cat_service desc s = some (r, t)) :
    t.rx = if reads_input s.state then s.rx.tail else s.rx := by
  unfold cat_service at h
  split at h <;> rename_i hs <;> simp only [hs, reads_input, if_true, if_false, Bool.false_eq_true]
  · injection h with h; rw [← error_state_rx s, h]
  · injection h with h; rw [← parse_prefix_rx s, h]
  · injection h with h; rw [← parse_command_rx s, h]
  · exact update_command_rx desc s t r h
  · injection h with h; rw [← wait_acknowledge_rx s, h]
  · exact search_command_rx desc s t r h
  · exact command_found_rx desc s t r h
  · injection h with h; unfold command_not_found at h; injection h with _ h; rw [← h]; rfl
  · exact parse_command_args_rx desc s t r h

/-! ## Locating a state on the engine's path -/

theorem steps_add (desc : cat_descriptor W) (n m : Nat) (s : cat_object W) :
    steps desc (n + m) s = (steps desc n s).bind (steps desc m) := by
  induction n generalizing s with
  | zero => simp [steps]
  | succ n ih =>
    have : n + 1 + m = (n + m) + 1 := by omega
    rw [this]
    simp only [steps]
    cases cat_service desc s with
    | none => rfl
    | some r => exact ih r.2

theorem advances_before (desc : cat_descriptor W) (n : Nat) :
    ∀ (s t : cat_object W), advances desc n s t →
      ∀ m u, m < n → steps desc m s = some u → in_progress u := by
  induction n with
  | zero => intro s t _ m u hm; omega
  | succ n ih =>
    intro s t h m u hm hu
    obtain ⟨hp, r, hr, hrest⟩ := h
    cases m with
    | zero => simp only [steps] at hu; injection hu with hu; rw [← hu]; exact hp
    | succ m =>
      simp only [steps, hr] at hu
      exact ih r.2 t hrest m u (by omega) hu

/-- An idle engine stays as it is: the call returns 0 and changes nothing. -/
theorem idle_stable (desc : cat_descriptor W) (s : cat_object W) (h : idle s = true) :
    cat_service desc s = some (0, s) := by
  simp only [idle, Bool.and_eq_true, List.isEmpty_iff] at h
  obtain ⟨hrx, hst⟩ := h
  have hr : read_cmd_char s = (0, s) := by unfold read_cmd_char; rw [hrx]
  unfold cat_service
  cases hs : s.state <;> rw [hs] at hst <;> simp [reads_input] at hst <;>
    simp [error_state, parse_prefix, parse_command, wait_acknowledge, parse_command_args, hr]

theorem idle_steps (desc : cat_descriptor W) (s : cat_object W) (h : idle s = true) (n : Nat) :
    steps desc n s = some s := by
  induction n with
  | zero => rfl
  | succ n ih => simp only [steps, idle_stable desc s h]; exact ih

theorem steps_rx_le (desc : cat_descriptor W) (n : Nat) :
    ∀ (s t : cat_object W), steps desc n s = some t → t.rx.length ≤ s.rx.length := by
  induction n with
  | zero => intro s t h; simp only [steps] at h; injection h with h; rw [h]
  | succ n ih =>
    intro s t h
    simp only [steps] at h
    cases hc : cat_service desc s with
    | none => rw [hc] at h; cases h
    | some r =>
      rw [hc] at h
      have h1 := ih r.2 t h
      have h2 := cat_service_rx desc s r.2 r.1 hc
      have h3 : r.2.rx.length ≤ s.rx.length := by
        rw [h2]; split <;> simp
      omega

/-- The dispatcher hands over to a state that polls the transport, with the schedule
untouched. -/
theorem dispatch_state (desc : cat_descriptor W) (x y : cat_object W) (r : Nat)
    (hx : x.state = CAT_STATE_COMMAND_FOUND ∨ x.state = CAT_STATE_COMMAND_NOT_FOUND)
    (h : cat_service desc x = some (r, y)) :
    (y.state = CAT_STATE_PARSE_PREFIX ∨ y.state = CAT_STATE_PARSE_COMMAND_ARGS) ∧
      y.rx = x.rx := by
  have hrx := cat_service_rx desc x y r h
  have hnr : reads_input x.state = false := by
    rcases hx with hx | hx <;> rw [hx] <;> rfl
  rw [hnr] at hrx
  refine ⟨?_, by simpa using hrx⟩
  rcases hx with hx | hx
  · rw [cat_service_found desc x hx] at h
    unfold command_found at h
    split at h
    · split at h
      · cases h
      · split at h
        · injection h with h; injection h with _ h; rw [← h]; exact Or.inl rfl
        · simp only [] at h
          split_ifs at h <;> (injection h with h; injection h with _ h; rw [← h]; exact Or.inl rfl)
    · split at h
      · cases h
      · split at h
        · injection h with h; injection h with _ h; rw [← h]; exact Or.inl rfl
        · simp only [] at h
          split_ifs at h
          · injection h with h; injection h with _ h; rw [← h]; exact Or.inl rfl
          · split at h
            · cases h
            · injection h with h; injection h with _ h; rw [← h]; exact Or.inl rfl
    · injection h with h; injection h with _ h; rw [← h]; exact Or.inr rfl
  · rw [cat_service_not_found desc x hx] at h
    injection h with h
    unfold command_not_found at h
    injection h with _ h
    rw [← h]; exact Or.inl rfl

/-- After the dispatcher has run, no later state of the engine is a
`CAT_STATE_COMMAND_FOUND` with the same schedule still to come. -/
theorem after_dispatch (desc : cat_descriptor W) (x u : cat_object W) (j : Nat)
    (hx : x.state = CAT_STATE_COMMAND_FOUND ∨ x.state = CAT_STATE_COMMAND_NOT_FOUND)
    (hj : 0 < j) (h : steps desc j x = some u) (hu : u.state = CAT_STATE_COMMAND_FOUND) :
    u.rx ≠ x.rx := by
  obtain ⟨j, rfl⟩ : ∃ i, j = i + 1 := ⟨j - 1, by omega⟩
  simp only [steps] at h
  cases hc : cat_service desc x with
  | none => rw [hc] at h; cases h
  | some r =>
    rw [hc] at h
    simp only at h
    obtain ⟨hys, hyrx⟩ := dispatch_state desc x r.2 r.1 hx hc
    have hyread : reads_input r.2.state = true := by
      rcases hys with h1 | h1 <;> rw [h1] <;> rfl
    cases j with
    | zero =>
      simp only [steps] at h
      injection h with h
      rw [← h] at hu
      rcases hys with h1 | h1 <;> rw [h1] at hu <;> cases hu
    | succ j =>
      by_cases hempty : r.2.rx = []
      · have hidle : idle r.2 = true := by simp [idle, hempty, hyread]
        rw [idle_steps desc r.2 hidle] at h
        injection h with h
        rw [← h] at hu
        rcases hys with h1 | h1 <;> rw [h1] at hu <;> cases hu
      · simp only [steps] at h
        cases hc2 : cat_service desc r.2 with
        | none => rw [hc2] at h; cases h
        | some r2 =>
          rw [hc2] at h
          simp only at h
          have h2 := cat_service_rx desc r.2 r2.2 r2.1 hc2
          rw [hyread] at h2
          simp only [if_true] at h2
          have h3 := steps_rx_le desc j r2.2 u h
          intro hcontra
          have hlen : r.2.rx.tail.length < r.2.rx.length := by
            cases hr : r.2.rx with
            | nil => exact absurd hr hempty
            | cons a l => simp
          rw [hcontra, h2, ← hyrx] at h3
          omega

/-- Where the resolver's decision sits: if the engine advances from `s` to a decision
`x`, then any state reached from `s` that is a `CAT_STATE_COMMAND_FOUND` with the
schedule of `x` still to come is `x` itself. -/
theorem resolved_at (desc : cat_descriptor W) (s x u : cat_object W) (n m : Nat)
    (hadv : advances desc n s x)
    (hx : x.state = CAT_STATE_COMMAND_FOUND ∨ x.state = CAT_STATE_COMMAND_NOT_FOUND)
    (hm : steps desc m s = some u) (hu : u.state = CAT_STATE_COMMAND_FOUND)
    (hrx : u.rx = x.rx) : u = x := by
  rcases Nat.lt_trichotomy m n with hlt | heq | hgt
  · have := advances_before desc n s x hadv m u hlt hm
    exact absurd hu this.2.1
  · subst heq
    rw [steps_of_advances desc m s x hadv] at hm
    injection hm with hm
    exact hm.symm
  · obtain ⟨j, rfl⟩ : ∃ j, m = n + j := ⟨m - n, by omega⟩
    rw [steps_add, steps_of_advances desc n s x hadv] at hm
    simp only [Option.some_bind] at hm
    exact absurd hrx (after_dispatch desc x u j hx (by omega) hm hu)

/-! ## From the reset state to the resolver's decision -/

/-- Prefix, name and terminator: the engine enters the resolver with the match states of
the name in the buffer; nothing was emitted or called. -/
theorem to_resolver (desc : cat_descriptor W) (s : cat_object W) (a t : Nat) (w : List Nat)
    (ty : cat_cmd_type) (rest : List (Option Nat)) (hr : ready desc s)
    (hrx : s.rx = some a :: some t :: (w.map some ++ ((terminator ty).map some ++ rest)))
    (ha : to_upper a = 65) (ht : to_upper t = 84) (hw : w ≠ [])
    (hv : ∀ ch ∈ w, is_valid_cmd_name_char (to_upper ch) ≠ 0) :
    ∃ b cc, b.length = s.buf.length ∧ slots_are desc b (w.map to_upper) ∧
      reaches desc s
        { s with state := CAT_STATE_SEARCH_COMMAND,
                 prefix_state := CAT_PREFIX_STATE_WAIT_T,
                 current_char := cc, index := 0, length := w.length,
                 cmd_type := ty, cmd := none, buf := b, rx := rest } := by
  obtain ⟨b, cc, hb, hsl, hadv⟩ := name_phase desc s a t w _ hr hrx ha ht hv
  have hlen : w.length ≠ 0 := by simpa using hw
  obtain ⟨cc2, r2⟩ := name_terminated desc
    { s with state := CAT_STATE_PARSE_COMMAND_CHAR,
             prefix_state := CAT_PREFIX_STATE_WAIT_T,
             current_char := cc, index := 0, length := w.length,
             cmd_type := CAT_CMD_TYPE_EXECUTE, buf := b,
             rx := (terminator ty).map some ++ rest }
    ty rest rfl hlen rfl rfl
  exact ⟨b, cc2, hb, hsl, reaches_trans desc _ _ _ ⟨_, hadv⟩ r2⟩

/-- Prefix, name, terminator and resolution: the engine reaches a decision, found (with
a command of the table) or not found; nothing was emitted or called. -/
theorem to_decision (desc : cat_descriptor W) (s : cat_object W) (a t : Nat) (w : List Nat)
    (ty : cat_cmd_type) (rest : List (Option Nat)) (hr : ready desc s)
    (hrx : s.rx = some a :: some t :: (w.map some ++ ((terminator ty).map some ++ rest)))
    (ha : to_upper a = 65) (ht : to_upper t = 84) (hw : w ≠ [])
    (hv : ∀ ch ∈ w, is_valid_cmd_name_char (to_upper ch) ≠ 0) :
    ∃ b cc idx c st, b.length = s.buf.length ∧
      (st = CAT_STATE_COMMAND_FOUND ∨ st = CAT_STATE_COMMAND_NOT_FOUND) ∧
      (st = CAT_STATE_COMMAND_FOUND → ∃ k, c = some k ∧ k < desc.cmd_num) ∧
      reaches desc s
        { s with state := st,
                 prefix_state := CAT_PREFIX_STATE_WAIT_T,
                 current_char := cc, index := idx, length := w.length,
                 cmd_type := ty, cmd := c, buf := b, rx := rest } := by
  obtain ⟨b, cc, hb, _, r1⟩ := to_resolver desc s a t w ty rest hr hrx ha ht hw hv
  obtain ⟨_, _, hn, hbuf⟩ := hr
  obtain ⟨idx, c, st, h1, h2, r2⟩ := search_total desc (desc.cmd_num - 1)
    { s with state := CAT_STATE_SEARCH_COMMAND,
             prefix_state := CAT_PREFIX_STATE_WAIT_T,
             current_char := cc, index := 0, length := w.length,
             cmd_type := ty, cmd := none, buf := b, rx := rest }
    rfl (by simp only; omega) (by simp only; omega) (by simp)
  exact ⟨b, cc, idx, c, st, hb, h1, h2, reaches_trans desc _ _ _ r1 r2⟩

/-- The caller's loop over a path that advances to `x` and then takes one more call into
an idle state. -/
theorem run_after (desc : cat_descriptor W) (s x v : cat_object W) (r : Nat)
    (h : reaches desc s x) (hx : idle x = false) (hc : cat_service desc x = some (r, v))
    (hv : idle v = true) : ∃ N, ∀ fuel, N ≤ fuel → run desc fuel s = Outcome.done v := by
  obtain ⟨n, hn⟩ := h
  refine ⟨n + 1, fun fuel hf => ?_⟩
  obtain ⟨k, rfl⟩ := Nat.exists_eq_add_of_le hf
  have : n + 1 + k = n + (k + 1) := by omega
  rw [this, run_advances desc n (k + 1) s x hn]
  simp only [run, hx, hc]
  exact run_idle desc k v hv

theorem resolved_at_end (desc : cat_descriptor W) (s x u : cat_object W)
    (h : reaches desc s x)
    (hx : x.state = CAT_STATE_COMMAND_FOUND ∨ x.state = CAT_STATE_COMMAND_NOT_FOUND)
    (hxrx : x.rx = []) (m : Nat)
    (hm : steps desc m s = some u) (hu : u.state = CAT_STATE_COMMAND_FOUND) : u = x := by
  obtain ⟨n, hn⟩ := h
  have hle : u.rx.length ≤ x.rx.length := by
    rcases Nat.lt_or_ge m n with hlt | hge
    · have := advances_before desc n s x hn m u hlt hm
      exact absurd hu this.2.1
    · obtain ⟨j, rfl⟩ : ∃ j, m = n + j := ⟨m - n, by omega⟩
      rw [steps_add, steps_of_advances desc n s x hn] at hm
      exact steps_rx_le desc j x u hm
  have hurx : u.rx = x.rx := by
    rw [hxrx] at hle ⊢
    exact List.length_eq_zero.mp (by simpa using hle)
  exact resolved_at desc s x u n m hn hx hm hu hurx

/-! ## The dispatcher -/

theorem command_found_execute (desc : cat_descriptor W) (x : cat_object W) (k : Nat)
    (c : cat_command W) (hc : x.cmd = some k) (hk : desc.cmd[k]? = some c)
    (hty : x.cmd_type = CAT_CMD_TYPE_EXECUTE) :
    command_found desc x = some (1,
      match c.run with
      | none => ack_error x
      | some f =>
        if (f x.world).1 ≠ 0 then
          ack_error { x with world := (f x.world).2, calls := x.calls ++ [Call.run k] }
        else ack_ok { x with world := (f x.world).2, calls := x.calls ++ [Call.run k] }) := by
  unfold command_found cmd_deref
  rw [hty]
  simp only [hc, hk]
  cases c.run with
  | none => rfl
  | some f => simp only []; split <;> rfl

theorem command_found_read (desc : cat_descriptor W) (x : cat_object W) (k : Nat)
    (c : cat_command W) (hc : x.cmd = some k) (hk : desc.cmd[k]? = some c)
    (hty : x.cmd_type = CAT_CMD_TYPE_READ) :
    command_found desc x =
      match c.read with
      | none => some (1, ack_error x)
      | some f =>
        let r := f x.world x.buf x.buf.length
        let x1 := { x with world := r.2.2.2, buf := r.2.1,
                           calls := x.calls ++ [Call.read k x.buf x.buf.length] }
        if r.1 ≠ 0 then some (1, ack_error x1)
        else if r.2.2.1 ≤ r.2.1.length then
          some (1, ack_ok { x1 with tx := x.tx ++ [10] ++ c.name ++ [61]
                                            ++ r.2.1.take r.2.2.1 ++ [10] })
        else none := by
  unfold command_found cmd_deref
  rw [hty]
  simp only [hc, hk]
  cases c.read with
  | none => rfl
  | some f =>
    simp only []
    by_cases h0 : (f x.world x.buf x.buf.length).1 ≠ 0
    · rw [if_pos h0, if_pos h0]
    · rw [if_neg h0, if_neg h0]
      unfold print_binary print_string
      simp only []
      by_cases h1 : (f x.world x.buf x.buf.length).2.2.1 ≤ (f x.world x.buf x.buf.length).2.1.length
      · rw [if_pos h1, if_pos h1]
      · rw [if_neg h1, if_neg h1]

theorem command_found_write (desc : cat_descriptor W) (x : cat_object W)
    (hty : x.cmd_type = CAT_CMD_TYPE_WRITE) :
    command_found desc x
      = some (1, { x with length := 0, state := CAT_STATE_PARSE_COMMAND_ARGS }) := by
  unfold command_found
  rw [hty]

/-! ## Resolution of a typed name -/

theorem exists_least (P : Nat → Prop) (h : ∃ n, P n) : ∃ n, P n ∧ ∀ m, m < n → ¬ P m := by
  classical
  exact ⟨Nat.find h, Nat.find_spec h, fun m hm => Nat.find_min h hm⟩

theorem slot_full (desc : cat_descriptor W) (b p : List Nat) (j : Nat) (c : cat_command W)
    (hs : slots_are desc b (p.map to_upper)) (hc : desc.cmd[j]? = some c) (hp : p ≠ [])
    (h : is_name p c.name) : slot b j = some 2 := by
  rw [hs j c hc, match_state_full c.name _ (by simpa using hp) h]

theorem slot_of_abbrev (desc : cat_descriptor W) (b p : List Nat) (j : Nat) (c : cat_command W)
    (hs : slots_are desc b (p.map to_upper)) (hc : desc.cmd[j]? = some c)
    (h : is_abbreviation p c.name) : slot b j = some 1 := by
  obtain ⟨t, ht, h⟩ := h
  rw [hs j c hc, match_state_of_abbrev c.name _ t h ht]

theorem slot_none (desc : cat_descriptor W) (b p : List Nat) (j : Nat) (c : cat_command W)
    (hs : slots_are desc b (p.map to_upper)) (hc : desc.cmd[j]? = some c)
    (h1 : ¬ is_name p c.name) (h2 : ¬ is_abbreviation p c.name) : slot b j = some 0 := by
  rw [hs j c hc, match_state_none c.name _ ?_]
  intro t ht
  by_cases he : t = []
  · subst he; exact h1 (by simpa [is_name] using ht)
  · exact h2 ⟨t, he, ht⟩

theorem input_shape (s0 : cat_object W) (p : List Nat) (ty : cat_cmd_type)
    (rest : List (Option Nat))
    (hrx : s0.rx = (65 :: 84 :: p ++ terminator ty).map some ++ rest) :
    s0.rx = some 65 :: some 84 :: (p.map some ++ ((terminator ty).map some ++ rest)) := by
  rw [hrx]; simp

/-- The engine at the start of the resolution of the typed name `p`. -/
theorem at_resolver (desc : cat_descriptor W) (s0 : cat_object W) (p : List Nat)
    (ty : cat_cmd_type) (rest : List (Option Nat)) (hr : ready desc s0)
    (hrx : s0.rx = (65 :: 84 :: p ++ terminator ty).map some ++ rest)
    (hp : typed_name p) :
    ∃ x, reaches desc s0 x ∧ x.state = CAT_STATE_SEARCH_COMMAND ∧ x.index = 0 ∧
      x.cmd = none ∧ x.cmd_type = ty ∧ x.rx = rest ∧ x.tx = s0.tx ∧ x.calls = s0.calls ∧
      x.world = s0.world ∧ x.buf.length = s0.buf.length ∧ x.length = p.length ∧
      slots_are desc x.buf (p.map to_upper) := by
  obtain ⟨hne, hv⟩ := hp
  obtain ⟨b, cc, hb, hsl, r1⟩ := to_resolver desc s0 65 84 p ty rest hr
    (input_shape s0 p ty rest hrx) (by decide) (by decide) hne hv
  exact ⟨_, r1, rfl, rfl, rfl, rfl, rfl, rfl, rfl, rfl, hb, rfl, hsl⟩

theorem resolved_found (desc : cat_descriptor W) (s0 u : cat_object W) (name : List Nat)
    (ty : cat_cmd_type) (k m : Nat) (hr : ready desc s0)
    (hrx : s0.rx = (65 :: 84 :: name ++ terminator ty).map some)
    (hne : name ≠ []) (hv : ∀ ch ∈ name, is_valid_cmd_name_char (to_upper ch) ≠ 0)
    (hm : steps desc m s0 = some u) (hu : u.state = CAT_STATE_COMMAND_FOUND)
    (huc : u.cmd = some k) :
    reaches desc s0 u ∧ u.rx = [] ∧ u.tx = s0.tx ∧ u.calls = s0.calls ∧ u.world = s0.world ∧
      u.cmd_type = ty ∧ k < desc.cmd_num ∧ u.buf.length = s0.buf.length := by
  have hrx2 : s0.rx = some 65 :: some 84 ::
      (name.map some ++ ((terminator ty).map some ++ [])) := by
    rw [hrx]; simp
  obtain ⟨b, cc, idx, c, st, hb, hst, hfound, r⟩ :=
    to_decision desc s0 65 84 name ty [] hr hrx2 (by decide) (by decide) hne hv
  have hux := resolved_at_end desc s0 _ u r hst rfl m hm hu
  subst hux
  simp only at hu huc
  obtain ⟨k2, hk2, hlt⟩ := hfound hu
  rw [huc] at hk2
  injection hk2 with hk2
  subst hk2
  exact ⟨r, rfl, rfl, rfl, rfl, rfl, hlt, hb⟩

/-- The dispatcher on a resolved execute exchange whose input is used up. -/
theorem dispatch_execute (desc : cat_descriptor W) (s0 x : cat_object W) (k : Nat)
    (c : cat_command W) (r : reaches desc s0 x) (hx : x.state = CAT_STATE_COMMAND_FOUND)
    (hxc : x.cmd = some k) (hk : desc.cmd[k]? = some c)
    (hty : x.cmd_type = CAT_CMD_TYPE_EXECUTE) (hrx : x.rx = []) (htx : x.tx = s0.tx)
    (hcalls : x.calls = s0.calls) (hw : x.world = s0.world) :
    ∃ v, cat_service desc x = some (1, v) ∧
      (∃ N, ∀ fuel, N ≤ fuel → run desc fuel s0 = Outcome.done v) ∧
      v.state = CAT_STATE_PARSE_PREFIX ∧ v.prefix_state = CAT_PREFIX_STATE_WAIT_A ∧
      (match c.run with
        | none => v.calls = s0.calls ∧ v.tx = s0.tx ++ STR_ERROR
        | some f => v.calls = s0.calls ++ [Call.run k] ∧
            v.tx = s0.tx ++ (if (f s0.world).1 = 0 then STR_OK else STR_ERROR)) := by
  have hstep := command_found_execute desc x k c hxc hk hty
  rw [← cat_service_found desc x hx] at hstep
  have hnidle : idle x = false := by simp [idle, hx, reads_input]
  refine ⟨_, hstep, ?_, ?_⟩
  · refine run_after desc s0 x _ 1 r hnidle hstep ?_
    cases c.run with
    | none => simp [idle, ack_error, reset_state, print_string, hrx, reads_input]
    | some f =>
      simp only []
      split <;> simp [idle, ack_error, ack_ok, reset_state, print_string, hrx, reads_input]
  · cases c.run with
    | none => simp [ack_error, reset_state, print_string, htx, hcalls]
    | some f =>
      simp only [hw]
      by_cases h0 : (f s0.world).1 = 0
      · simp [h0, ack_ok, reset_state, print_string, htx, hcalls]
      · simp [h0, ack_error, reset_state, print_string, htx, hcalls]

/-! ## Argument collection and the error sink -/

theorem to_upper_eq_10 (ch : Nat) : to_upper ch = 10 ↔ ch = 10 := by
  unfold to_upper; split <;> omega

theorem to_upper_eq_13 (ch : Nat) : to_upper ch = 13 ↔ ch = 13 := by
  unfold to_upper; split <;> omega

theorem to_upper_lt (ch : Nat) (h : ch < 256) : to_upper ch < 256 := by
  unfold to_upper; split <;> omega

theorem stored_length (data : List Nat) : ∀ (buf : List Nat) (len : Nat),
    (stored buf len data).length = buf.length := by
  induction data with
  | nil => intro buf len; rfl
  | cons x xs ih => intro buf len; simp [stored, ih]

theorem stored_take (data : List Nat) : ∀ (buf : List Nat) (len : Nat),
    len + data.length ≤ buf.length →
    (stored buf len data).take (len + data.length)
      = buf.take len ++ data.map (fun x => x % 256) := by
  induction data with
  | nil => intro buf len _; simp [stored]
  | cons x xs ih =>
    intro buf len h
    simp only [List.length_cons] at h
    have e : len + (x :: xs).length = (len + 1) + xs.length := by
      simp only [List.length_cons]; omega
    rw [e]
    simp only [stored]
    rw [ih (buf.set len (x % 256)) (len + 1) (by simp; omega)]
    have : (buf.set len (x % 256)).take (len + 1) = buf.take len ++ [x % 256] := by
      rw [List.take_succ, List.set_take, List.set_eq_of_length_le (by simp),
        List.getElem?_set_self (by omega)]
      rfl
    rw [this]
    simp

/-- Argument collection stores one payload byte. -/
theorem args_store (desc : cat_descriptor W) (s : cat_object W) (ch : Nat)
    (rest : List (Option Nat)) (hs : s.state = CAT_STATE_PARSE_COMMAND_ARGS)
    (hrx : s.rx = some ch :: rest) (h10 : ch ≠ 10) (h13 : ch ≠ 13)
    (hl : s.length < s.buf.length) :
    cat_service desc s = some (1,
      { s with rx := rest, current_char := to_upper ch,
               buf := s.buf.set s.length (to_upper ch % 256), length := s.length + 1 }) := by
  rw [cat_service_args desc s hs]
  unfold parse_command_args
  rw [read_cmd_char_some s ch rest hrx]
  have a := (to_upper_eq_10 ch).not.mpr h10
  have b := (to_upper_eq_13 ch).not.mpr h13
  simp [a, b, hl]

/-- Argument collection skips a carriage return. -/
theorem args_skip (desc : cat_descriptor W) (s : cat_object W)
    (rest : List (Option Nat)) (hs : s.state = CAT_STATE_PARSE_COMMAND_ARGS)
    (hrx : s.rx = some 13 :: rest) :
    cat_service desc s = some (1, { s with rx := rest, current_char := 13 }) := by
  rw [cat_service_args desc s hs]
  unfold parse_command_args
  rw [read_cmd_char_some s 13 rest hrx]
  simp [to_upper]

/-- Argument collection gives up when the buffer is full. -/
theorem args_overflow (desc : cat_descriptor W) (s : cat_object W) (ch : Nat)
    (rest : List (Option Nat)) (hs : s.state = CAT_STATE_PARSE_COMMAND_ARGS)
    (hrx : s.rx = some ch :: rest) (h10 : ch ≠ 10) (h13 : ch ≠ 13)
    (hl : s.buf.length ≤ s.length) :
    cat_service desc s = some (1,
      { s with rx := rest, current_char := to_upper ch, state := CAT_STATE_ERROR }) := by
  rw [cat_service_args desc s hs]
  unfold parse_command_args
  rw [read_cmd_char_some s ch rest hrx]
  have a := (to_upper_eq_10 ch).not.mpr h10
  have b := (to_upper_eq_13 ch).not.mpr h13
  simp [a, b, hl]

theorem args_kept_cons (ch : Nat) (l : List Nat) :
    args_kept (ch :: l) = if ch = 13 then args_kept l else to_upper ch :: args_kept l := by
  unfold args_kept
  by_cases h : ch = 13
  · subst h; simp [to_upper]
  · have := (to_upper_eq_13 ch).not.mpr h
    simp [h, this]

/-- A payload that fits: after its bytes the buffer holds the kept bytes from the old
length on; nothing is emitted or called. -/
theorem args_collect (desc : cat_descriptor W) (rest : List (Option Nat))
    (payload : List Nat) :
    ∀ s : cat_object W, s.state = CAT_STATE_PARSE_COMMAND_ARGS →
      s.rx = payload.map some ++ some 10 :: rest → (∀ ch ∈ payload, ch ≠ 10) →
      s.length + (args_kept payload).length ≤ s.buf.length →
      ∃ cc, reaches desc s
        { s with rx := some 10 :: rest, current_char := cc,
                 buf := stored s.buf s.length (args_kept payload),
                 length := s.length + (args_kept payload).length } := by
  induction payload with
  | nil =>
    intro s hs hrx _ _
    refine ⟨s.current_char, ?_⟩
    have : ({ s with rx := some 10 :: rest, current_char := s.current_char,
                     buf := stored s.buf s.length (args_kept []),
                     length := s.length + (args_kept []).length } : cat_object W) = s := by
      cases s; simp_all [args_kept, stored]
    rw [this]
    exact reaches_refl desc s
  | cons ch l ih =>
    intro s hs hrx hnl hfit
    have hrx1 : s.rx = some ch :: (l.map some ++ some 10 :: rest) := by simpa using hrx
    have hp : in_progress s := by simp [in_progress, idle, hs, hrx1]
    rw [args_kept_cons] at hfit ⊢
    by_cases h13 : ch = 13
    · subst h13
      simp only [if_true] at hfit ⊢
      have r1 := reaches_step desc 1 s _ hp (args_skip desc s _ hs hrx1)
      obtain ⟨cc, r2⟩ := ih { s with rx := l.map some ++ some 10 :: rest, current_char := 13 }
        hs rfl (fun c hc => hnl c (by simp [hc])) hfit
      exact ⟨cc, reaches_trans desc _ _ _ r1 r2⟩
    · simp only [h13, if_false, List.length_cons] at hfit ⊢
      have r1 := reaches_step desc 1 s _ hp
        (args_store desc s ch _ hs hrx1 (hnl ch (by simp)) h13 (by omega))
      obtain ⟨cc, r2⟩ := ih
        { s with rx := l.map some ++ some 10 :: rest, current_char := to_upper ch,
                 buf := s.buf.set s.length (to_upper ch % 256), length := s.length + 1 }
        hs rfl (fun c hc => hnl c (by simp [hc])) (by simp only [List.length_set]; omega)
      refine ⟨cc, ?_⟩
      have r := reaches_trans desc _ _ _ r1 r2
      convert r using 2
      simp only [stored]
      omega

/-- The error sink discards bytes up to a newline, then acknowledges the error once and
resets. -/
theorem error_sink (desc : cat_descriptor W) (rest : List (Option Nat)) (l : List Nat) :
    ∀ s : cat_object W, s.state = CAT_STATE_ERROR →
      s.rx = l.map some ++ some 10 :: rest → (∀ ch ∈ l, ch ≠ 10) →
      reaches desc s
        { s with rx := rest, current_char := 10, state := CAT_STATE_PARSE_PREFIX,
                 prefix_state := CAT_PREFIX_STATE_WAIT_A, tx := s.tx ++ STR_ERROR } := by
  induction l with
  | nil =>
    intro s hs hrx _
    have hrx1 : s.rx = some 10 :: rest := by simpa using hrx
    refine reaches_step desc 1 s _ (by simp [in_progress, idle, hs, hrx1]) ?_
    rw [cat_service_error desc s hs]
    unfold error_state
    rw [read_cmd_char_some s 10 rest hrx1]
    simp [to_upper, ack_error, reset_state, print_string]
  | cons ch l ih =>
    intro s hs hrx hnl
    have hrx1 : s.rx = some ch :: (l.map some ++ some 10 :: rest) := by simpa using hrx
    have e : cat_service desc s = some (1,
        { s with rx := l.map some ++ some 10 :: rest, current_char := to_upper ch }) := by
      rw [cat_service_error desc s hs]
      unfold error_state
      rw [read_cmd_char_some s ch _ hrx1]
      have a := (to_upper_eq_10 ch).not.mpr (hnl ch (by simp))
      simp [a]
    have r1 := reaches_step desc 1 s _ (by simp [in_progress, idle, hs, hrx1]) e
    have r2 := ih { s with rx := l.map some ++ some 10 :: rest, current_char := to_upper ch }
      hs rfl (fun c hc => hnl c (by simp [hc]))
    exact reaches_trans desc _ _ _ r1 r2

/-- A payload that does not fit: the engine falls into the error sink, answers
`\nERROR\n` at the newline and calls nothing. -/
theorem args_too_long (desc : cat_descriptor W) (rest : List (Option Nat))
    (payload : List Nat) :
    ∀ s : cat_object W, s.state = CAT_STATE_PARSE_COMMAND_ARGS →
      s.rx = payload.map some ++ some 10 :: rest → (∀ ch ∈ payload, ch ≠ 10) →
      s.length ≤ s.buf.length →
      s.buf.length < s.length + (args_kept payload).length →
      ∃ b len, b.length = s.buf.length ∧ reaches desc s
        { s with rx := rest, current_char := 10, buf := b, length := len,
                 state := CAT_STATE_PARSE_PREFIX,
                 prefix_state := CAT_PREFIX_STATE_WAIT_A, tx := s.tx ++ STR_ERROR } := by
  induction payload with
  | nil => intro s _ _ _ hle hlt; simp [args_kept] at hlt; omega
  | cons ch l ih =>
    intro s hs hrx hnl hle hlt
    have hrx1 : s.rx = some ch :: (l.map some ++ some 10 :: rest) := by simpa using hrx
    have hp : in_progress s := by simp [in_progress, idle, hs, hrx1]
    rw [args_kept_cons] at hlt
    by_cases h13 : ch = 13
    · subst h13
      simp only [if_true] at hlt
      have r1 := reaches_step desc 1 s _ hp (args_skip desc s _ hs hrx1)
      obtain ⟨b, len, hb, r2⟩ := ih
        { s with rx := l.map some ++ some 10 :: rest, current_char := 13 }
        hs rfl (fun c hc => hnl c (by simp [hc])) hle hlt
      exact ⟨b, len, hb, reaches_trans desc _ _ _ r1 r2⟩
    · simp only [h13, if_false, List.length_cons] at hlt
      by_cases hfull : s.buf.length ≤ s.length
      · have r1 := reaches_step desc 1 s _ hp
          (args_overflow desc s ch _ hs hrx1 (hnl ch (by simp)) h13 hfull)
        have r2 := error_sink desc rest l
          { s with rx := l.map some ++ some 10 :: rest, current_char := to_upper ch,
                   state := CAT_STATE_ERROR }
          rfl rfl (fun c hc => hnl c (by simp [hc]))
        exact ⟨s.buf, s.length, rfl, reaches_trans desc _ _ _ r1 r2⟩
      · have r1 := reaches_step desc 1 s _ hp
          (args_store desc s ch _ hs hrx1 (hnl ch (by simp)) h13 (by omega))
        obtain ⟨b, len, hb, r2⟩ := ih
          { s with rx := l.map some ++ some 10 :: rest, current_char := to_upper ch,
                   buf := s.buf.set s.length (to_upper ch % 256), length := s.length + 1 }
          hs rfl (fun c hc => hnl c (by simp [hc]))
          (by simp only [List.length_set]; omega) (by simp only [List.length_set]; omega)
        exact ⟨b, len, by simpa using hb, reaches_trans desc _ _ _ r1 r2⟩

/-! ## Write exchanges -/

/-- The resolver's decision on a line that goes on after the terminator. -/
theorem resolved_found_at (desc : cat_descriptor W) (s0 u : cat_object W) (name : List Nat)
    (ty : cat_cmd_type) (rest : List (Option Nat)) (k m : Nat) (hr : ready desc s0)
    (hrx : s0.rx = (65 :: 84 :: name ++ terminator ty).map some ++ rest)
    (hname : typed_name name)
    (hm : steps desc m s0 = some u) (hu : u.state = CAT_STATE_COMMAND_FOUND)
    (huc : u.cmd = some k) (hurx : u.rx = rest) :
    reaches desc s0 u ∧ u.tx = s0.tx ∧ u.calls = s0.calls ∧ u.world = s0.world ∧
      u.cmd_type = ty ∧ k < desc.cmd_num ∧ u.buf.length = s0.buf.length := by
  obtain ⟨b, cc, idx, c, st, hb, hst, hfound, n, hn⟩ :=
    to_decision desc s0 65 84 name ty rest hr (input_shape s0 name ty rest hrx)
      (by decide) (by decide) hname.1 hname.2
  have hux := resolved_at desc s0 _ u n m hn hst hm hu hurx
  subst hux
  simp only at hu huc
  obtain ⟨k2, hk2, hlt⟩ := hfound hu
  rw [huc] at hk2
  injection hk2 with hk2
  subst hk2
  exact ⟨⟨n, hn⟩, rfl, rfl, rfl, rfl, hlt, hb⟩

/-- The caller's loop over a path that advances to the dispatcher, takes the dispatcher
call and advances again into an idle state. -/
theorem run_through (desc : cat_descriptor W) (s x a v : cat_object W) (r : Nat)
    (h1 : reaches desc s x) (hx : idle x = false) (hc : cat_service desc x = some (r, a))
    (h2 : reaches desc a v) (hv : idle v = true) :
    ∃ N, ∀ fuel, N ≤ fuel → run desc fuel s = Outcome.done v := by
  obtain ⟨n1, hn1⟩ := h1
  obtain ⟨n2, hn2⟩ := h2
  refine ⟨n1 + 1 + n2, fun fuel hf => ?_⟩
  obtain ⟨k, rfl⟩ := Nat.exists_eq_add_of_le hf
  have : n1 + 1 + n2 + k = n1 + ((n2 + k) + 1) := by omega
  rw [this, run_advances desc n1 _ s x hn1]
  simp only [run, hx, hc]
  rw [run_advances desc n2 k a v hn2]
  exact run_idle desc k v hv

/-- The newline that ends the arguments of a command without bound variable and with a
write callback. -/
theorem args_newline (desc : cat_descriptor W) (s : cat_object W) (k : Nat)
    (c : cat_command W) (f : W → List Nat → Nat → Int × W) (rest : List (Option Nat))
    (hs : s.state = CAT_STATE_PARSE_COMMAND_ARGS) (hrx : s.rx = some 10 :: rest)
    (hc : s.cmd = some k) (hk : desc.cmd[k]? = some c) (hvar : c.var = false)
    (hw : c.write = some f) :
    cat_service desc s = some (1,
      if (f s.world s.buf s.length).1 ≠ 0 then
        ack_error { s with rx := rest, current_char := 10, world := (f s.world s.buf s.length).2,
                           calls := s.calls ++ [Call.write k s.buf s.length] }
      else
        ack_ok { s with rx := rest, current_char := 10, world := (f s.world s.buf s.length).2,
                        calls := s.calls ++ [Call.write k s.buf s.length] }) := by
  rw [cat_service_args desc s hs]
  unfold parse_command_args
  rw [read_cmd_char_some s 10 rest hrx]
  simp only [to_upper, Nat.reduceLeDiff, false_and, if_false, one_ne_zero, if_true]
  unfold parse_command_args_newline cmd_deref
  simp only [hc, hk, hvar, hw, if_true]
  split <;> rfl

/-! ## The shape of a call's result -/

theorem set_cmd_state_shape (s u : cat_object W) (i x : Nat)
    (h : set_cmd_state s i x = some u) :
    ∃ b, b.length = s.buf.length ∧ u = { s with buf := b } := by
  rw [set_cmd_state_eq] at h
  cases hb : s.buf[i / 4]? with
  | none => rw [hb] at h; simp at h
  | some b =>
    rw [hb] at h
    simp only [Option.map_some', Option.some.injEq] at h
    exact ⟨_, by simp, h.symm⟩

theorem update_command_slot_shape (c : cat_command W) (s u : cat_object W)
    (h : update_command_slot c s = some u) :
    ∃ b, b.length = s.buf.length ∧ u = { s with buf := b } := by
  unfold update_command_slot at h
  simp only [] at h
  by_cases h1 : s.length > c.name.length
  · rw [if_pos h1] at h; exact set_cmd_state_shape _ _ _ _ h
  · rw [if_neg h1] at h
    by_cases h2 : s.length = 0
    · rw [if_pos h2] at h; cases h
    · rw [if_neg h2] at h
      cases hn : c.name[s.length - 1]? with
      | none => rw [hn] at h; cases h
      | some ch =>
        rw [hn] at h
        simp only [] at h
        by_cases h3 : to_upper ch ≠ s.current_char
        · rw [if_pos h3] at h; exact set_cmd_state_shape _ _ _ _ h
        · rw [if_neg h3] at h
          by_cases h4 : s.length = c.name.length
          · rw [if_pos h4] at h; exact set_cmd_state_shape _ _ _ _ h
          · rw [if_neg h4] at h; injection h with h; exact ⟨s.buf, rfl, h.symm⟩

/-- A matcher call changes the buffer (keeping its size) and moves the cursor on, or
wraps it and goes back to reading the name. -/
theorem update_command_shape (desc : cat_descriptor W) (s t : cat_object W) (r : Nat)
    (h : update_command desc s = some (r, t)) :
    ∃ b, b.length = s.buf.length ∧
      ((desc.cmd_num ≤ s.index + 1 ∧
          t = { s with buf := b, index := 0, state := CAT_STATE_PARSE_COMMAND_CHAR }) ∨
        (s.index + 1 < desc.cmd_num ∧ t = { s with buf := b, index := s.index + 1 })) := by
  unfold update_command at h
  split at h
  · cases h
  · rename_i st _
    have key : ∀ u : cat_object W,
        (if st ≠ CAT_CMD_STATE_NOT_MATCH then
          match desc.cmd[s.index]? with
          | none => none
          | some cmd => update_command_slot cmd s
        else some s) = some u → ∃ b, b.length = s.buf.length ∧ u = { s with buf := b } := by
      intro u hu
      by_cases h0 : st ≠ CAT_CMD_STATE_NOT_MATCH
      · rw [if_pos h0] at hu
        split at hu
        · cases hu
        · exact update_command_slot_shape _ _ _ hu
      · rw [if_neg h0] at hu; injection hu with hu; exact ⟨s.buf, rfl, hu.symm⟩
    simp only [] at h
    split at h
    · cases h
    · rename_i u hu
      obtain ⟨b, hb, rfl⟩ := key u hu
      refine ⟨b, hb, ?_⟩
      by_cases hge : s.index + 1 ≥ desc.cmd_num
      · simp only [hge, if_true] at h
        injection h with h; injection h with _ h
        exact Or.inl ⟨hge, h.symm⟩
      · simp only [hge, if_false] at h
        injection h with h; injection h with _ h
        exact Or.inr ⟨by omega, h.symm⟩

theorem search_command_next_shape (desc : cat_descriptor W) (s : cat_object W) :
    ∃ st, (search_command_next desc s).2 = { s with index := s.index + 1, state := st } ∧
      ((st = s.state ∧ s.index + 1 < desc.cmd_num) ∨
        (st = CAT_STATE_COMMAND_NOT_FOUND ∧ s.cmd = none ∧ desc.cmd_num ≤ s.index + 1) ∨
        (st = CAT_STATE_COMMAND_FOUND ∧ s.cmd ≠ none ∧ desc.cmd_num ≤ s.index + 1)) := by
  unfold search_command_next
  by_cases h : s.index + 1 ≥ desc.cmd_num
  · by_cases hc : s.cmd = none
    · exact ⟨CAT_STATE_COMMAND_NOT_FOUND, by simp [h, hc], Or.inr (Or.inl ⟨rfl, hc, h⟩)⟩
    · exact ⟨CAT_STATE_COMMAND_FOUND, by simp [h, hc], Or.inr (Or.inr ⟨rfl, hc, h⟩)⟩
  · exact ⟨s.state, by simp [h], Or.inl ⟨rfl, by omega⟩⟩

/-- A resolver call changes nothing but the cursor, the candidate and the state: it
moves on inside the table, or decides. -/
theorem search_command_shape (desc : cat_descriptor W) (s t : cat_object W) (r : Nat)
    (h : search_command desc s = some (r, t)) :
    ∃ idx c st, t = { s with index := idx, cmd := c, state := st } ∧
      (c = s.cmd ∨ c = some s.index) ∧
      ((st = s.state ∧ idx = s.index + 1 ∧ s.index + 1 < desc.cmd_num) ∨
        st = CAT_STATE_COMMAND_NOT_FOUND ∨ (st = CAT_STATE_COMMAND_FOUND ∧ c ≠ none)) := by
  have next : ∀ x : cat_object W, x = { s with cmd := x.cmd } →
      (x.cmd = s.cmd ∨ x.cmd = some s.index) →
      some (search_command_next desc x) = some (r, t) →
      ∃ idx c st, t = { s with index := idx, cmd := c, state := st } ∧
        (c = s.cmd ∨ c = some s.index) ∧
        ((st = s.state ∧ idx = s.index + 1 ∧ s.index + 1 < desc.cmd_num) ∨
          st = CAT_STATE_COMMAND_NOT_FOUND ∨ (st = CAT_STATE_COMMAND_FOUND ∧ c ≠ none)) := by
    intro x hx hxc hn
    injection hn with hn
    obtain ⟨st, e, hst⟩ := search_command_next_shape desc x
    rw [hn] at e
    simp only at e
    have hxi : x.index = s.index := by rw [hx]
    have hxs : x.state = s.state := by rw [hx]
    refine ⟨s.index + 1, x.cmd, st, ?_, hxc, ?_⟩
    · rw [e, hx]
    · rcases hst with ⟨h1, h2⟩ | ⟨h1, _, _⟩ | ⟨h1, h2, _⟩
      · exact Or.inl ⟨by rw [h1, hxs], rfl, by omega⟩
      · exact Or.inr (Or.inl h1)
      · exact Or.inr (Or.inr ⟨h1, h2⟩)
  unfold search_command at h
  split at h
  · cases h
  · split_ifs at h with h0 h1 hc h2
    · injection h with h; injection h with _ h
      exact ⟨s.index, s.cmd, CAT_STATE_COMMAND_NOT_FOUND, h.symm, Or.inl rfl, Or.inr (Or.inl rfl)⟩
    · exact next { s with cmd := some s.index } rfl (Or.inr rfl) h
    · injection h with h; injection h with _ h
      exact ⟨s.index, some s.index, CAT_STATE_COMMAND_FOUND, h.symm, Or.inr rfl,
        Or.inr (Or.inr ⟨rfl, by simp⟩)⟩
    · exact next s rfl (Or.inl rfl) h
    · exact next s rfl (Or.inl rfl) h

theorem cmd_deref_some (desc : cat_descriptor W) (s : cat_object W) (k : Nat)
    (c : cat_command W) (h : cmd_deref desc s = some (k, c)) :
    s.cmd = some k ∧ desc.cmd[k]? = some c := by
  unfold cmd_deref at h
  cases hc : s.cmd with
  | none => rw [hc] at h; cases h
  | some k2 =>
    rw [hc] at h
    simp only [] at h
    cases hd : desc.cmd[k2]? with
    | none => rw [hd] at h; cases h
    | some c2 =>
      rw [hd] at h
      injection h with h
      injection h with e1 e2
      subst e1 e2
      exact ⟨rfl, hd⟩

/-- A dispatcher call either acknowledges and resets (the buffer unchanged, or as a read
callback left it), or, for a write, starts argument collection. -/
theorem command_found_shape (desc : cat_descriptor W) (s t : cat_object W) (r : Nat)
    (h : command_found desc s = some (r, t)) :
    (t.state = CAT_STATE_PARSE_PREFIX ∧ t.prefix_state = CAT_PREFIX_STATE_WAIT_A ∧
      (t.buf = s.buf ∨ ∃ (k : Nat) (c : cat_command W)
        (f : W → List Nat → Nat → Int × List Nat × Nat × W),
        desc.cmd[k]? = some c ∧ c.read = some f ∧
        t.buf = (f s.world s.buf s.buf.length).2.1)) ∨
    t = { s with length := 0, state := CAT_STATE_PARSE_COMMAND_ARGS } := by
  unfold command_found at h
  cases hty : s.cmd_type with
  | CAT_CMD_TYPE_EXECUTE =>
    rw [hty] at h
    simp only [] at h
    cases hd : cmd_deref desc s with
    | none => rw [hd] at h; cases h
    | some kc =>
      obtain ⟨k, c⟩ := kc
      rw [hd] at h
      simp only [] at h
      cases hrun : c.run with
      | none =>
        rw [hrun] at h
        injection h with h; injection h with _ h; rw [← h]
        exact Or.inl ⟨rfl, rfl, Or.inl rfl⟩
      | some f =>
        rw [hrun] at h
        simp only [] at h
        split_ifs at h <;>
          (injection h with h; injection h with _ h; rw [← h]
           exact Or.inl ⟨rfl, rfl, Or.inl rfl⟩)
  | CAT_CMD_TYPE_READ =>
    rw [hty] at h
    simp only [] at h
    cases hd : cmd_deref desc s with
    | none => rw [hd] at h; cases h
    | some kc =>
      obtain ⟨k, c⟩ := kc
      obtain ⟨_, hk⟩ := cmd_deref_some desc s k c hd
      rw [hd] at h
      simp only [] at h
      cases hread : c.read with
      | none =>
        rw [hread] at h
        injection h with h; injection h with _ h; rw [← h]
        exact Or.inl ⟨rfl, rfl, Or.inl rfl⟩
      | some f =>
        rw [hread] at h
        simp only [] at h
        split_ifs at h
        · injection h with h; injection h with _ h; rw [← h]
          exact Or.inl ⟨rfl, rfl, Or.inr ⟨k, c, f, hk, hread, rfl⟩⟩
        · unfold print_binary at h
          split at h
          · cases h
          · rename_i u hu
            split_ifs at hu
            injection hu with hu
            injection h with h; injection h with _ h; rw [← h, ← hu]
            exact Or.inl ⟨rfl, rfl, Or.inr ⟨k, c, f, hk, hread, rfl⟩⟩
  | CAT_CMD_TYPE_WRITE =>
    rw [hty] at h
    simp only [] at h
    injection h with h; injection h with _ h
    exact Or.inr h.symm

/-- An argument-collection call keeps the buffer's size and the resolved command; it
stays, falls into the error sink, or acknowledges and resets. -/
theorem parse_command_args_shape (desc : cat_descriptor W) (s t : cat_object W) (r : Nat)
    (h : parse_command_args desc s = some (r, t)) :
    t.buf.length = s.buf.length ∧ t.cmd = s.cmd ∧
      (t.state = s.state ∨ t.state = CAT_STATE_ERROR ∨
        (t.state = CAT_STATE_PARSE_PREFIX ∧ t.prefix_state = CAT_PREFIX_STATE_WAIT_A)) := by
  have hr : (read_cmd_char s).2.buf = s.buf ∧ (read_cmd_char s).2.cmd = s.cmd ∧
      (read_cmd_char s).2.state = s.state := by
    unfold read_cmd_char; split <;> simp
  obtain ⟨hr1, hr2, hr3⟩ := hr
  unfold parse_command_args at h
  simp only [] at h
  split_ifs at h
  · injection h with h; injection h with _ h; rw [← h]
    exact ⟨by rw [hr1], hr2, Or.inl hr3⟩
  · unfold parse_command_args_newline at h
    split at h
    · cases h
    · split_ifs at h
      split at h
      · injection h with h; injection h with _ h; rw [← h]
        exact ⟨by simp [ack_error, reset_state, print_string, hr1],
          by simp [ack_error, reset_state, print_string, hr2], Or.inr (Or.inr ⟨rfl, rfl⟩)⟩
      · simp only [] at h
        split_ifs at h <;>
          (injection h with h; injection h with _ h; rw [← h]
           exact ⟨by simp [ack_error, ack_ok, reset_state, print_string, hr1],
             by simp [ack_error, ack_ok, reset_state, print_string, hr2],
             Or.inr (Or.inr ⟨rfl, rfl⟩)⟩)
  · injection h with h; injection h with _ h; rw [← h]
    exact ⟨by rw [hr1], hr2, Or.inl hr3⟩
  · injection h with h; injection h with _ h; rw [← h]
    exact ⟨by rw [hr1], hr2, Or.inr (Or.inl rfl)⟩
  · injection h with h; injection h with _ h; rw [← h]
    exact ⟨by simp [hr1], hr2, Or.inl hr3⟩

/-! ## The bounds are kept by every call -/

theorem read_cmd_char_frame (s : cat_object W) :
    ∃ rx cc, (read_cmd_char s).2 = { s with rx := rx, current_char := cc } := by
  unfold read_cmd_char
  split
  · exact ⟨s.rx, s.current_char, rfl⟩
  · rename_i rest _; exact ⟨rest, s.current_char, rfl⟩
  · rename_i ch rest _; exact ⟨rest, to_upper ch, rfl⟩

theorem safe_of_ready (desc : cat_descriptor W) (s : cat_object W) (h : ready desc s) :
    safe_state desc s := by
  obtain ⟨h1, _, h3, h4⟩ := h
  simp [safe_state, h1, h3, h4]

theorem safe_error_state (desc : cat_descriptor W) (s : cat_object W)
    (h : safe_state desc s) (hs : s.state = CAT_STATE_ERROR) :
    safe_state desc (error_state s).2 := by
  obtain ⟨rx, cc, e⟩ := read_cmd_char_frame s
  obtain ⟨h1, h2, _⟩ := h
  unfold error_state
  simp only [e]
  split_ifs <;> simp [safe_state, hs, h1, h2, ack_error, reset_state, print_string]

theorem safe_parse_prefix (desc : cat_descriptor W) (s : cat_object W)
    (h : safe_state desc s) (hs : s.state = CAT_STATE_PARSE_PREFIX) :
    safe_state desc ( parse_prefix s).2 := by
  obtain ⟨rx, cc, e⟩ := read_cmd_char_frame s
  obtain ⟨h1, h2, _⟩ := h
  unfold parse_prefix
  simp only [e]
  split_ifs
  · simp [safe_state, hs, h1, h2]
  all_goals
    split <;> simp [safe_state, hs, h1, h2, ack_error, reset_state, print_string,
      prepare_parse_command]

theorem safe_parse_command (desc : cat_descriptor W) (s : cat_object W)
    (h : safe_state desc s) (hs : s.state = CAT_STATE_PARSE_COMMAND_CHAR) :
    safe_state desc (parse_command s).2 := by
  obtain ⟨rx, cc, e⟩ := read_cmd_char_frame s
  obtain ⟨h1, h2, h3⟩ := h
  rw [hs] at h3
  simp only at h3
  unfold parse_command
  simp only [e]
  split_ifs <;>
    simp [safe_state, hs, h1, h2, h3, ack_ok, reset_state, print_string,
      prepare_search_command]

theorem safe_wait_acknowledge (desc : cat_descriptor W) (s : cat_object W)
    (h : safe_state desc s) (hs : s.state = CAT_STATE_WAIT_ACKNOWLEDGE) :
    safe_state desc (wait_acknowledge s).2 := by
  obtain ⟨rx, cc, e⟩ := read_cmd_char_frame s
  obtain ⟨h1, h2, _⟩ := h
  unfold wait_acknowledge
  simp only [e]
  split_ifs <;> simp [safe_state, hs, h1, h2, prepare_search_command]

/-- Every defined call keeps the bounds, provided the read callbacks keep the size of the
buffer. -/
theorem safe_step (desc : cat_descriptor W) (s t : cat_object W) (r : Nat)
    (hc : read_contract desc) (h : safe_state desc s)
    (hst : cat_service desc s = some (r, t)) : safe_state desc t := by
  have h' := h
  obtain ⟨h1, h2, h3⟩ := h
  cases hs : s.state with
  | CAT_STATE_ERROR =>
    rw [cat_service_error desc s hs] at hst
    injection hst with hst
    have := safe_error_state desc s h' hs
    rw [hst] at this; exact this
  | CAT_STATE_PARSE_PREFIX =>
    rw [cat_service_prefix_state desc s hs] at hst
    injection hst with hst
    have := safe_parse_prefix desc s h' hs
    rw [hst] at this; exact this
  | CAT_STATE_PARSE_COMMAND_CHAR =>
    rw [cat_service_parse_command desc s hs] at hst
    injection hst with hst
    have := safe_parse_command desc s h' hs
    rw [hst] at this; exact this
  | CAT_STATE_UPDATE_COMMAND_STATE =>
    rw [cat_service_update desc s hs] at hst
    rw [hs] at h3
    simp only at h3
    obtain ⟨b, hb, ht | ht⟩ := update_command_shape desc s t r hst
    · rw [ht.2]; simp [safe_state, h1, hb, h2]
    · rw [ht.2]; simp [safe_state, hs, h1, hb, h2, ht.1, h3.2]
  | CAT_STATE_WAIT_ACKNOWLEDGE =>
    rw [cat_service_wait desc s hs] at hst
    injection hst with hst
    have := safe_wait_acknowledge desc s h' hs
    rw [hst] at this; exact this
  | CAT_STATE_SEARCH_COMMAND =>
    rw [cat_service_search desc s hs] at hst
    rw [hs] at h3
    simp only at h3
    obtain ⟨idx, c, st, ht, hcc, hshape⟩ := search_command_shape desc s t r hst
    have hcv : ∀ k, c = some k → k < desc.cmd_num := by
      intro k hk
      rcases hcc with e | e
      · exact h3.2 k (by rw [← e]; exact hk)
      · rw [e] at hk; injection hk with hk; omega
    rw [ht]
    rcases hshape with ⟨e1, e2, e3⟩ | e | ⟨e1, e2⟩
    · rw [e1, hs, e2]
      simp only [safe_state, h1, h2, true_and]
      exact ⟨e3, hcv⟩
    · rw [e]; simp [safe_state, h1, h2]
    · rw [e1]
      simp only [safe_state, h1, h2, true_and]
      cases c with
      | none => exact absurd rfl e2
      | some k => exact ⟨k, rfl, hcv k rfl⟩
  | CAT_STATE_COMMAND_FOUND =>
    rw [cat_service_found desc s hs] at hst
    rw [hs] at h3
    simp only at h3
    rcases command_found_shape desc s t r hst with ⟨e1, _, e3⟩ | e
    · have hlen : t.buf.length = s.buf.length := by
        rcases e3 with e3 | ⟨k, c, f, hk, hf, e3⟩
        · rw [e3]
        · rw [e3]
          exact (hc c (List.getElem?_mem hk) f hf s.world s.buf s.buf.length).1
      simp [safe_state, e1, h1, hlen, h2]
    · rw [e]; simp only [safe_state, h1, h2, true_and]; exact h3
  | CAT_STATE_COMMAND_NOT_FOUND =>
    rw [cat_service_not_found desc s hs] at hst
    injection hst with hst
    unfold command_not_found at hst
    injection hst with _ hst
    rw [← hst]
    simp [safe_state, ack_error, reset_state, print_string, h1, h2]
  | CAT_STATE_PARSE_COMMAND_ARGS =>
    rw [cat_service_args desc s hs] at hst
    rw [hs] at h3
    simp only at h3
    obtain ⟨e1, e2, e3⟩ := parse_command_args_shape desc s t r hst
    rcases e3 with e3 | e3 | ⟨e3, _⟩
    · rw [hs] at e3
      simp only [safe_state, e3, h1, e1, h2, true_and, e2]; exact h3
    · simp [safe_state, e3, h1, e1, h2]
    · simp [safe_state, e3, h1, e1, h2]

theorem safe_steps (desc : cat_descriptor W) (hc : read_contract desc) (n : Nat) :
    ∀ s t : cat_object W, safe_state desc s → steps desc n s = some t → safe_state desc t := by
  induction n with
  | zero => intro s t h hs; simp only [steps] at hs; injection hs with hs; rw [← hs]; exact h
  | succ n ih =>
    intro s t h hs
    simp only [steps] at hs
    cases hcs : cat_service desc s with
    | none => rw [hcs] at hs; cases hs
    | some p =>
      rw [hcs] at hs
      exact ih p.2 t (safe_step desc s p.2 p.1 hc h hcs) hs

/-! ## Every call is defined inside the bounds -/

/-- Inside the bounds, with read callbacks that honour their contract and no bound
variable in the table, a call of `cat_service` is defined. -/
theorem defined_step (desc : cat_descriptor W) (s : cat_object W)
    (hc : read_contract desc) (hv : no_bound_variable desc) (h : safe_state desc s) :
    ∃ r t, cat_service desc s = some (r, t) := by
  obtain ⟨h1, h2, h3⟩ := h
  cases hs : s.state with
  | CAT_STATE_ERROR => exact ⟨_, _, cat_service_error desc s hs⟩
  | CAT_STATE_PARSE_PREFIX => exact ⟨_, _, cat_service_prefix_state desc s hs⟩
  | CAT_STATE_PARSE_COMMAND_CHAR => exact ⟨_, _, cat_service_parse_command desc s hs⟩
  | CAT_STATE_WAIT_ACKNOWLEDGE => exact ⟨_, _, cat_service_wait desc s hs⟩
  | CAT_STATE_COMMAND_NOT_FOUND => exact ⟨_, _, cat_service_not_found desc s hs⟩
  | CAT_STATE_UPDATE_COMMAND_STATE =>
    rw [hs] at h3
    simp only at h3
    have hlt : s.index < desc.cmd.length := h3.1
    obtain ⟨b, st, _, _, _, e⟩ := update_command_spec desc s desc.cmd[s.index]
      (List.getElem?_eq_getElem hlt) h3.2 (by omega)
    rw [cat_service_update desc s hs]
    exact ⟨_, _, e⟩
  | CAT_STATE_SEARCH_COMMAND =>
    rw [hs] at h3
    simp only at h3
    obtain ⟨idx, c, st, e, _, _⟩ := search_step desc s hs h3.1 h2 h3.2
    exact ⟨_, _, e⟩
  | CAT_STATE_COMMAND_FOUND =>
    rw [hs] at h3
    simp only at h3
    obtain ⟨k, hk, hlt⟩ := h3
    have hklt : k < desc.cmd.length := hlt
    have hkc : desc.cmd[k]? = some desc.cmd[k] := List.getElem?_eq_getElem hklt
    rw [cat_service_found desc s hs]
    cases hty : s.cmd_type with
    | CAT_CMD_TYPE_EXECUTE => exact ⟨_, _, command_found_execute desc s k _ hk hkc hty⟩
    | CAT_CMD_TYPE_WRITE => exact ⟨_, _, command_found_write desc s hty⟩
    | CAT_CMD_TYPE_READ =>
      rw [command_found_read desc s k _ hk hkc hty]
      cases hread : desc.cmd[k].read with
      | none => exact ⟨_, _, rfl⟩
      | some f =>
        simp only []
        obtain ⟨c1, c2⟩ := hc desc.cmd[k] (List.getElem?_mem hkc) f hread s.world s.buf
          s.buf.length
        by_cases h0 : (f s.world s.buf s.buf.length).1 ≠ 0
        · rw [if_pos h0]; exact ⟨_, _, rfl⟩
        · rw [if_neg h0, if_pos (by omega)]; exact ⟨_, _, rfl⟩
  | CAT_STATE_PARSE_COMMAND_ARGS =>
    rw [hs] at h3
    simp only at h3
    obtain ⟨k, hk, hlt⟩ := h3
    have hklt : k < desc.cmd.length := hlt
    have hkc : desc.cmd[k]? = some desc.cmd[k] := List.getElem?_eq_getElem hklt
    rw [cat_service_args desc s hs]
    obtain ⟨rx, cc, e⟩ := read_cmd_char_frame s
    unfold parse_command_args
    simp only []
    split_ifs
    · exact ⟨_, _, rfl⟩
    · unfold parse_command_args_newline cmd_deref
      rw [e]
      simp only [hk, hkc, hv desc.cmd[k] (List.getElem?_mem hkc), if_true]
      cases desc.cmd[k].write with
      | none => exact ⟨_, _, rfl⟩
      | some f => simp only []; split_ifs <;> exact ⟨_, _, rfl⟩
    · exact ⟨_, _, rfl⟩
    · exact ⟨_, _, rfl⟩
    · exact ⟨_, _, rfl⟩

/-! ## Polling without data -/

theorem read_cmd_char_ret (s : cat_object W) :
    (read_cmd_char s).1 = if no_data s.rx then 0 else 1 := by
  unfold read_cmd_char no_data
  split <;> simp_all

theorem read_cmd_char_no_data (s : cat_object W) (h : no_data s.rx = true) :
    read_cmd_char s = (0, { s with rx := s.rx.tail }) := by
  unfold read_cmd_char
  unfold no_data at h
  split
  · rename_i h1; cases s; simp_all
  · rename_i h1; simp [h1]
  · rename_i h1; rw [h1] at h; simp at h

theorem read_cmd_char_01 (s : cat_object W) :
    (read_cmd_char s).1 = 0 ∨ (read_cmd_char s).1 = 1 := by
  unfold read_cmd_char
  split <;> simp

theorem error_state_ret (s : cat_object W) : (error_state s).1 = (read_cmd_char s).1 := by
  rcases read_cmd_char_01 s with h0 | h1
  · simp only [error_state, h0, if_true]
  · have hne : ¬ (read_cmd_char s).1 = 0 := by omega
    unfold error_state
    simp only [hne, if_false]
    rw [h1]
    split_ifs <;> rfl

theorem parse_prefix_ret (s : cat_object W) : ( parse_prefix s).1 = (read_cmd_char s).1 := by
  rcases read_cmd_char_01 s with h0 | h1
  · simp only [ parse_prefix, h0, if_true]
  · have hne : ¬ (read_cmd_char s).1 = 0 := by omega
    unfold parse_prefix
    simp only [hne, if_false]
    rw [h1]
    split <;> split_ifs <;> rfl

theorem parse_command_ret (s : cat_object W) : (parse_command s).1 = (read_cmd_char s).1 := by
  rcases read_cmd_char_01 s with h0 | h1
  · simp only [parse_command, h0, if_true]
  · have hne : ¬ (read_cmd_char s).1 = 0 := by omega
    unfold parse_command
    simp only [hne, if_false]
    rw [h1]
    split_ifs <;> rfl

theorem wait_acknowledge_ret (s : cat_object W) :
    (wait_acknowledge s).1 = (read_cmd_char s).1 := by
  rcases read_cmd_char_01 s with h0 | h1
  · simp only [wait_acknowledge, h0, if_true]
  · have hne : ¬ (read_cmd_char s).1 = 0 := by omega
    unfold wait_acknowledge
    simp only [hne, if_false]
    rw [h1]
    split_ifs <;> rfl

theorem update_command_ret (desc : cat_descriptor W) (s t : cat_object W) (r : Nat)
    (h : update_command desc s = some (r, t)) : r = 1 := by
  unfold update_command at h
  split at h
  · cases h
  · simp only [] at h
    split at h
    · cases h
    · split_ifs at h <;> (injection h with h; injection h with h _; exact h.symm)

theorem search_command_ret (desc : cat_descriptor W) (s t : cat_object W) (r : Nat)
    (h : search_command desc s = some (r, t)) : r = 1 := by
  have hn : ∀ x : cat_object W, (search_command_next desc x).1 = 1 := by
    intro x; unfold search_command_next; split_ifs <;> rfl
  unfold search_command at h
  split at h
  · cases h
  · split_ifs at h <;> injection h with h
    · injection h with h _; exact h.symm
    · have := hn { s with cmd := some s.index }; rw [h] at this; exact this
    · injection h with h _; exact h.symm
    · have := hn s; rw [h] at this; exact this
    · have := hn s; rw [h] at this; exact this

theorem command_found_ret (desc : cat_descriptor W) (s t : cat_object W) (r : Nat)
    (h : command_found desc s = some (r, t)) : r = 1 := by
  unfold command_found at h
  split at h
  · split at h
    · cases h
    · split at h
      · injection h with h; injection h with h _; exact h.symm
      · simp only [] at h
        split_ifs at h <;> (injection h with h; injection h with h _; exact h.symm)
  · split at h
    · cases h
    · split at h
      · injection h with h; injection h with h _; exact h.symm
      · simp only [] at h
        split_ifs at h
        · injection h with h; injection h with h _; exact h.symm
        · split at h
          · cases h
          · injection h with h; injection h with h _; exact h.symm
  · injection h with h; injection h with h _; exact h.symm

theorem parse_command_args_ret (desc : cat_descriptor W) (s t : cat_object W) (r : Nat)
    (h : parse_command_args desc s = some (r, t)) : r = (read_cmd_char s).1 := by
  unfold parse_command_args at h
  simp only [] at h
  rcases read_cmd_char_01 s with h0 | h1
  · rw [if_pos h0] at h
    injection h with h; injection h with h _; rw [h0]; exact h.symm
  · have hne : ¬ (read_cmd_char s).1 = 0 := by omega
    rw [if_neg hne] at h
    rw [h1]
    split_ifs at h
    · unfold parse_command_args_newline at h
      split at h
      · cases h
      · split_ifs at h
        split at h
        · injection h with h; injection h with h _; exact h.symm
        · simp only [] at h
          split_ifs at h <;> (injection h with h; injection h with h _; exact h.symm)
    all_goals (injection h with h; injection h with h _; exact h.symm)

/-- The return value of a call: 0 exactly when the state polls the transport and the
transport has no byte. -/
theorem cat_service_ret (desc : cat_descriptor W) (s t : cat_object W) (r : Nat)
    (h : cat_service desc s = some (r, t)) :
    r = if reads_input s.state = true ∧ no_data s.rx = true then 0 else 1 := by
  have h01 := read_cmd_char_ret s
  unfold cat_service at h
  split at h <;> rename_i hs <;>
    simp only [hs, reads_input, true_and, false_and, if_false, Bool.false_eq_true]
  · injection h with h
    have := error_state_ret s; rw [h] at this; simp only at this; rw [this, h01]
  · injection h with h
    have := parse_prefix_ret s; rw [h] at this; simp only at this; rw [this, h01]
  · injection h with h
    have := parse_command_ret s; rw [h] at this; simp only at this; rw [this, h01]
  · exact update_command_ret desc s t r h
  · injection h with h
    have := wait_acknowledge_ret s; rw [h] at this; simp only at this; rw [this, h01]
  · exact search_command_ret desc s t r h
  · exact command_found_ret desc s t r h
  · injection h with h; unfold command_not_found at h; injection h with h _; exact h.symm
  · rw [parse_command_args_ret desc s t r h, h01]

/-- A call with no byte available, in a state that polls the transport: it returns 0
and changes nothing but the schedule. -/
theorem cat_service_no_data (desc : cat_descriptor W) (s : cat_object W)
    (hs : reads_input s.state = true) (hn : no_data s.rx = true) :
    cat_service desc s = some (0, { s with rx := s.rx.tail }) := by
  have hr := read_cmd_char_no_data s hn
  unfold cat_service
  cases hst : s.state <;> rw [hst] at hs <;> simp [reads_input] at hs <;>
    simp [error_state, parse_prefix, parse_command, wait_acknowledge, parse_command_args, hr,
      hst]

/-! ## Recovery on newlines -/

theorem recovers_now (desc : cat_descriptor W) (s : cat_object W) (m : Nat)
    (h1 : s.state = CAT_STATE_PARSE_PREFIX) (h2 : s.prefix_state = CAT_PREFIX_STATE_WAIT_A) :
    recovers desc s m :=
  ⟨0, s, Nat.zero_le _, rfl, h1, h2⟩

theorem recovers_step (desc : cat_descriptor W) (s t : cat_object W) (r m m2 : Nat)
    (h : cat_service desc s = some (r, t)) (ht : recovers desc t m) (hm : m + 1 ≤ m2) :
    recovers desc s m2 := by
  obtain ⟨j, v, hj, hs, h1, h2⟩ := ht
  refine ⟨j + 1, v, by omega, ?_, h1, h2⟩
  simp only [steps, h]
  exact hs

theorem step_of_safe (desc : cat_descriptor W) (s : cat_object W)
    (hc : read_contract desc) (hv : no_bound_variable desc) (h : safe_state desc s) :
    ∃ r t, cat_service desc s = some (r, t) ∧ safe_state desc t ∧
      t.rx = if reads_input s.state then s.rx.tail else s.rx := by
  obtain ⟨r, t, e⟩ := defined_step desc s hc hv h
  exact ⟨r, t, e, safe_step desc s t r hc h e, cat_service_rx desc s t r e⟩

theorem rec_error (desc : cat_descriptor W) (s : cat_object W) (rest : List (Option Nat))
    (hs : s.state = CAT_STATE_ERROR) (hrx : s.rx = some 10 :: rest) : recovers desc s 1 := by
  have e : cat_service desc s = some (1, ack_error { s with rx := rest, current_char := 10 }) := by
    rw [cat_service_error desc s hs]
    unfold error_state
    rw [read_cmd_char_some s 10 rest hrx]
    simp [to_upper]
  exact recovers_step desc s _ 1 0 1 e (recovers_now desc _ 0 rfl rfl) (le_refl _)

theorem rec_not_found (desc : cat_descriptor W) (s : cat_object W)
    (hs : s.state = CAT_STATE_COMMAND_NOT_FOUND) : recovers desc s 1 :=
  recovers_step desc s (ack_error s) 1 0 1 (cat_service_not_found desc s hs)
    (recovers_now desc _ 0 rfl rfl) (le_refl _)

theorem rec_args (desc : cat_descriptor W) (s : cat_object W) (rest : List (Option Nat))
    (hc : read_contract desc) (hv : no_bound_variable desc) (h : safe_state desc s)
    (hs : s.state = CAT_STATE_PARSE_COMMAND_ARGS) (hrx : s.rx = some 10 :: rest) :
    recovers desc s 1 := by
  obtain ⟨r, t, e⟩ := defined_step desc s hc hv h
  refine recovers_step desc s t r 0 1 e ?_ (le_refl _)
  rw [cat_service_args desc s hs] at e
  unfold parse_command_args at e
  rw [read_cmd_char_some s 10 rest hrx] at e
  simp only [to_upper, Nat.reduceLeDiff, false_and, if_false, one_ne_zero, if_true] at e
  unfold parse_command_args_newline at e
  split at e
  · cases e
  · split_ifs at e
    split at e
    · injection e with e; injection e with _ e; rw [← e]
      exact recovers_now desc _ 0 rfl rfl
    · simp only [] at e
      split_ifs at e <;>
        (injection e with e; injection e with _ e; rw [← e]
         exact recovers_now desc _ 0 rfl rfl)

theorem rec_found (desc : cat_descriptor W) (s : cat_object W) (rest : List (Option Nat))
    (hc : read_contract desc) (hv : no_bound_variable desc) (h : safe_state desc s)
    (hs : s.state = CAT_STATE_COMMAND_FOUND) (hrx : s.rx = some 10 :: rest) :
    recovers desc s 2 := by
  obtain ⟨r, t, e, hsafe, _⟩ := step_of_safe desc s hc hv h
  have e2 := e
  rw [cat_service_found desc s hs] at e2
  rcases command_found_shape desc s t r e2 with ⟨h1, h2, _⟩ | ht
  · exact recovers_step desc s t r 0 2 e (recovers_now desc _ 0 h1 h2) (by omega)
  · refine recovers_step desc s t r 1 2 e ?_ (le_refl _)
    exact rec_args desc t rest hc hv hsafe (by rw [ht]) (by rw [ht]; exact hrx)

theorem rec_search (desc : cat_descriptor W) (hc : read_contract desc)
    (hv : no_bound_variable desc) (rest : List (Option Nat)) (d : Nat) :
    ∀ s : cat_object W, safe_state desc s → s.state = CAT_STATE_SEARCH_COMMAND →
      s.rx = some 10 :: rest → s.index + (d + 1) = desc.cmd_num →
      recovers desc s (d + 3) := by
  induction d with
  | zero =>
    intro s h hs hrx hidx
    obtain ⟨r, t, e, hsafe, htrx⟩ := step_of_safe desc s hc hv h
    have e2 := e
    rw [cat_service_search desc s hs] at e2
    obtain ⟨idx, c, st, ht, _, hshape⟩ := search_command_shape desc s t r e2
    have hrx2 : t.rx = some 10 :: rest := by rw [ht]; exact hrx
    rcases hshape with ⟨_, _, hlt⟩ | hnf | ⟨hf, _⟩
    · omega
    · exact recovers_step desc s t r 1 3 e
        (rec_not_found desc t (by rw [ht]; exact hnf)) (by omega)
    · exact recovers_step desc s t r 2 3 e
        (rec_found desc t rest hc hv hsafe (by rw [ht]; exact hf) hrx2) (by omega)
  | succ d ih =>
    intro s h hs hrx hidx
    obtain ⟨r, t, e, hsafe, htrx⟩ := step_of_safe desc s hc hv h
    have e2 := e
    rw [cat_service_search desc s hs] at e2
    obtain ⟨idx, c, st, ht, _, hshape⟩ := search_command_shape desc s t r e2
    have hrx2 : t.rx = some 10 :: rest := by rw [ht]; exact hrx
    rcases hshape with ⟨h1, h2, _⟩ | hnf | ⟨hf, _⟩
    · refine recovers_step desc s t r (d + 3) (d + 1 + 3) e ?_ (by omega)
      exact ih t hsafe (by rw [ht]; simp only; rw [h1, hs]) hrx2
        (by rw [ht]; simp only; omega)
    · exact recovers_step desc s t r 1 _ e
        (rec_not_found desc t (by rw [ht]; exact hnf)) (by omega)
    · exact recovers_step desc s t r 2 _ e
        (rec_found desc t rest hc hv hsafe (by rw [ht]; exact hf) hrx2) (by omega)

theorem rec_search_start (desc : cat_descriptor W) (hc : read_contract desc)
    (hv : no_bound_variable desc) (rest : List (Option Nat)) (s : cat_object W)
    (h : safe_state desc s) (hs : s.state = CAT_STATE_SEARCH_COMMAND)
    (hrx : s.rx = some 10 :: rest) : recovers desc s (desc.cmd_num + 2) := by
  have h3 := h.2.2
  rw [hs] at h3
  simp only at h3
  obtain ⟨j, v, hj, hst, h1, h2⟩ := rec_search desc hc hv rest (desc.cmd_num - s.index - 1) s h hs
    hrx (by omega)
  exact ⟨j, v, by omega, hst, h1, h2⟩

theorem rec_wait (desc : cat_descriptor W) (hc : read_contract desc)
    (hv : no_bound_variable desc) (rest : List (Option Nat)) (s : cat_object W)
    (h : safe_state desc s) (hs : s.state = CAT_STATE_WAIT_ACKNOWLEDGE)
    (hrx : s.rx = some 10 :: some 10 :: rest) : recovers desc s (desc.cmd_num + 3) := by
  obtain ⟨r, t, e, hsafe, _⟩ := step_of_safe desc s hc hv h
  have e2 := e
  rw [cat_service_wait desc s hs, wait_acknowledge_newline s _ hrx] at e2
  injection e2 with e2; injection e2 with _ e2
  exact recovers_step desc s t r _ _ e
    (rec_search_start desc hc hv rest t hsafe (by rw [← e2]) (by rw [← e2])) (le_refl _)

theorem rec_parse (desc : cat_descriptor W) (hc : read_contract desc)
    (hv : no_bound_variable desc) (rest : List (Option Nat)) (s : cat_object W)
    (h : safe_state desc s) (hs : s.state = CAT_STATE_PARSE_COMMAND_CHAR)
    (hrx : s.rx = some 10 :: some 10 :: rest) : recovers desc s (desc.cmd_num + 3) := by
  obtain ⟨r, t, e, hsafe, _⟩ := step_of_safe desc s hc hv h
  have e2 := e
  rw [cat_service_parse_command desc s hs] at e2
  by_cases hl : s.length = 0
  · have : parse_command s = (1, ack_ok { s with rx := some 10 :: rest, current_char := 10 }) := by
      unfold parse_command
      rw [read_cmd_char_some s 10 _ hrx]
      simp [to_upper, hl]
    rw [this] at e2
    injection e2 with e2; injection e2 with _ e2
    exact recovers_step desc s t r 0 _ e (recovers_now desc _ 0 (by rw [← e2]; rfl)
      (by rw [← e2]; rfl)) (by omega)
  · rw [parse_command_newline s _ hrx hl] at e2
    injection e2 with e2; injection e2 with _ e2
    exact recovers_step desc s t r _ _ e
      (rec_search_start desc hc hv rest t hsafe (by rw [← e2]) (by rw [← e2])) (le_refl _)

theorem rec_update (desc : cat_descriptor W) (hc : read_contract desc)
    (hv : no_bound_variable desc) (rest : List (Option Nat)) (d : Nat) :
    ∀ s : cat_object W, safe_state desc s → s.state = CAT_STATE_UPDATE_COMMAND_STATE →
      s.rx = some 10 :: some 10 :: rest → s.index + (d + 1) = desc.cmd_num →
      recovers desc s (d + 1 + (desc.cmd_num + 3)) := by
  induction d with
  | zero =>
    intro s h hs hrx hidx
    obtain ⟨r, t, e, hsafe, _⟩ := step_of_safe desc s hc hv h
    have e2 := e
    rw [cat_service_update desc s hs] at e2
    obtain ⟨b, _, ⟨_, ht⟩ | ⟨hlt, _⟩⟩ := update_command_shape desc s t r e2
    · exact recovers_step desc s t r _ _ e
        (rec_parse desc hc hv rest t hsafe (by rw [ht]) (by rw [ht]; exact hrx)) (by omega)
    · omega
  | succ d ih =>
    intro s h hs hrx hidx
    obtain ⟨r, t, e, hsafe, _⟩ := step_of_safe desc s hc hv h
    have e2 := e
    rw [cat_service_update desc s hs] at e2
    obtain ⟨b, _, ⟨_, ht⟩ | ⟨hlt, ht⟩⟩ := update_command_shape desc s t r e2
    · exact recovers_step desc s t r _ _ e
        (rec_parse desc hc hv rest t hsafe (by rw [ht]) (by rw [ht]; exact hrx)) (by omega)
    · exact recovers_step desc s t r _ _ e
        (ih t hsafe (by rw [ht]; exact hs) (by rw [ht]; exact hrx)
          (by rw [ht]; simp only; omega)) (by omega)

/-- From any state inside the bounds, two newlines on the transport bring the engine
back to the reset state within `2 * cmd_num + 3` calls. -/
theorem rec_any (desc : cat_descriptor W) (hc : read_contract desc)
    (hv : no_bound_variable desc) (rest : List (Option Nat)) (s : cat_object W)
    (h : safe_state desc s) (hrx : s.rx = some 10 :: some 10 :: rest) :
    recovers desc s (2 * desc.cmd_num + 3) := by
  have mono : ∀ m, recovers desc s m → m ≤ 2 * desc.cmd_num + 3 →
      recovers desc s (2 * desc.cmd_num + 3) := by
    intro m ⟨j, v, hj, hst, h1, h2⟩ hm
    exact ⟨j, v, by omega, hst, h1, h2⟩
  have hn := h.1
  cases hs : s.state with
  | CAT_STATE_ERROR => exact mono 1 (rec_error desc s _ hs hrx) (by omega)
  | CAT_STATE_PARSE_PREFIX =>
    cases hp : s.prefix_state with
    | CAT_PREFIX_STATE_WAIT_A => exact recovers_now desc s _ hs hp
    | CAT_PREFIX_STATE_WAIT_T =>
      have e : cat_service desc s
          = some (1, ack_error { s with rx := some 10 :: rest, current_char := 10 }) := by
        rw [cat_service_prefix_state desc s hs]
        unfold parse_prefix
        rw [read_cmd_char_some s 10 _ hrx]
        simp [to_upper, hp]
      exact mono 1 (recovers_step desc s _ 1 0 1 e (recovers_now desc _ 0 rfl rfl) (le_refl _))
        (by omega)
  | CAT_STATE_PARSE_COMMAND_CHAR => exact mono _ (rec_parse desc hc hv rest s h hs hrx) (by omega)
  | CAT_STATE_UPDATE_COMMAND_STATE =>
    have h3 := h.2.2
    rw [hs] at h3
    simp only at h3
    exact mono _ (rec_update desc hc hv rest (desc.cmd_num - s.index - 1) s h hs hrx
      (by omega)) (by omega)
  | CAT_STATE_WAIT_ACKNOWLEDGE => exact mono _ (rec_wait desc hc hv rest s h hs hrx) (by omega)
  | CAT_STATE_SEARCH_COMMAND =>
    exact mono _ (rec_search_start desc hc hv _ s h hs hrx) (by omega)
  | CAT_STATE_COMMAND_FOUND => exact mono 2 (rec_found desc s _ hc hv h hs hrx) (by omega)
  | CAT_STATE_COMMAND_NOT_FOUND => exact mono 1 (rec_not_found desc s hs) (by omega)
  | CAT_STATE_PARSE_COMMAND_ARGS => exact mono 1 (rec_args desc s _ hc hv h hs hrx) (by omega)

/-! ## The cost of a name -/

theorem matcher_calls_add (desc : cat_descriptor W) (n m : Nat) :
    ∀ s t : cat_object W, steps desc n s = some t →
      matcher_calls desc (n + m) s = matcher_calls desc n s + matcher_calls desc m t := by
  induction n with
  | zero =>
    intro s t h
    simp only [steps] at h
    injection h with h
    subst h
    simp [matcher_calls]
  | succ n ih =>
    intro s t h
    have e : n + 1 + m = (n + m) + 1 := by omega
    rw [e]
    simp only [steps] at h
    simp only [matcher_calls]
    cases hc : cat_service desc s with
    | none => rw [hc] at h; cases h
    | some r =>
      rw [hc] at h
      simp only []
      rw [ih r.2 t h]
      omega

theorem matcher_calls_step (desc : cat_descriptor W) (n r : Nat) (s t : cat_object W)
    (h : cat_service desc s = some (r, t)) :
    matcher_calls desc (n + 1) s
      = (if s.state = CAT_STATE_UPDATE_COMMAND_STATE then 1 else 0)
        + matcher_calls desc n t := by
  simp only [matcher_calls, h]

theorem update_command_slot_frame (c : cat_command W) (s u : cat_object W)
    (h : update_command_slot c s = some u) :
    ∀ j, j ≠ s.index → get_cmd_state u j = get_cmd_state s j := by
  intro j hj
  have hset : ∀ x, set_cmd_state s s.index x = some u →
      get_cmd_state u j = get_cmd_state s j := by
    intro x hx
    rw [get_set_cmd_state s u s.index x j hx, if_neg hj]
  unfold update_command_slot at h
  simp only [] at h
  by_cases h1 : s.length > c.name.length
  · rw [if_pos h1] at h; exact hset _ h
  · rw [if_neg h1] at h
    by_cases h2 : s.length = 0
    · rw [if_pos h2] at h; cases h
    · rw [if_neg h2] at h
      cases hn : c.name[s.length - 1]? with
      | none => rw [hn] at h; cases h
      | some ch =>
        rw [hn] at h
        simp only [] at h
        by_cases h3 : to_upper ch ≠ s.current_char
        · rw [if_pos h3] at h; exact hset _ h
        · rw [if_neg h3] at h
          by_cases h4 : s.length = c.name.length
          · rw [if_pos h4] at h; exact hset _ h
          · rw [if_neg h4] at h; injection h with h; rw [← h]

/-- A matcher call touches no slot but the one under the cursor. -/
theorem update_command_frame (desc : cat_descriptor W) (s t : cat_object W) (r : Nat)
    (h : update_command desc s = some (r, t)) :
    ∀ j, j ≠ s.index → get_cmd_state t j = get_cmd_state s j := by
  intro j hj
  unfold update_command at h
  split at h
  · cases h
  · rename_i st _
    have key : ∀ u : cat_object W,
        (if st ≠ CAT_CMD_STATE_NOT_MATCH then
          match desc.cmd[s.index]? with
          | none => none
          | some cmd => update_command_slot cmd s
        else some s) = some u → get_cmd_state u j = get_cmd_state s j := by
      intro u hu
      by_cases h0 : st ≠ CAT_CMD_STATE_NOT_MATCH
      · rw [if_pos h0] at hu
        split at hu
        · cases hu
        · exact update_command_slot_frame _ _ _ hu j hj
      · rw [if_neg h0] at hu; injection hu with hu; rw [← hu]
    simp only [] at h
    split at h
    · cases h
    · rename_i u hu
      rw [← key u hu]
      by_cases hge : u.index + 1 ≥ desc.cmd_num
      · simp only [hge, if_true] at h
        injection h with h; injection h with _ h
        rw [← h]; rfl
      · simp only [hge, if_false] at h
        injection h with h; injection h with _ h
        rw [← h]; rfl

/-- The matcher pass, call by call: from cursor `index` the next `d + 1` calls are
matcher calls on the slots `index`, `index + 1`, ... in order, and the last one returns
to `CAT_STATE_PARSE_COMMAND_CHAR` with the cursor at 0. -/
theorem matcher_run (desc : cat_descriptor W) (d : Nat) :
    ∀ s : cat_object W, s.state = CAT_STATE_UPDATE_COMMAND_STATE → 1 ≤ s.length →
      desc.cmd_num ≤ 4 * s.buf.length → s.index + (d + 1) = desc.cmd_num →
      (∀ j, j ≤ d → ∃ v, steps desc j s = some v ∧
        v.state = CAT_STATE_UPDATE_COMMAND_STATE ∧ v.index = s.index + j ∧ v.rx = s.rx) ∧
      (∃ v, steps desc (d + 1) s = some v ∧ v.state = CAT_STATE_PARSE_COMMAND_CHAR ∧
        v.index = 0 ∧ v.rx = s.rx ∧ v.length = s.length ∧ v.buf.length = s.buf.length) ∧
      matcher_calls desc (d + 1) s = d + 1 := by
  induction d with
  | zero =>
    intro s hs hl hb hi
    have hlt : s.index < desc.cmd.length := by
      have : s.index < desc.cmd_num := by omega
      exact this
    obtain ⟨b, st, hbl, _, _, e⟩ := update_command_spec desc s desc.cmd[s.index]
      (List.getElem?_eq_getElem hlt) hl (by omega)
    rw [if_pos (by omega)] at e
    have e2 : cat_service desc s = some (1,
        { s with buf := b, index := 0, state := CAT_STATE_PARSE_COMMAND_CHAR }) := by
      rw [cat_service_update desc s hs, e]
    refine ⟨?_, ?_, ?_⟩
    · intro j hj
      have : j = 0 := by omega
      subst this
      exact ⟨s, rfl, hs, rfl, rfl⟩
    · exact ⟨{ s with buf := b, index := 0, state := CAT_STATE_PARSE_COMMAND_CHAR },
        by simp only [steps, e2], rfl, rfl, rfl, rfl, hbl⟩
    · rw [matcher_calls_step desc _ _ s _ e2, if_pos hs]
      simp [matcher_calls]
  | succ d ih =>
    intro s hs hl hb hi
    have hlt : s.index < desc.cmd.length := by
      have : s.index < desc.cmd_num := by omega
      exact this
    obtain ⟨b, st, hbl, _, _, e⟩ := update_command_spec desc s desc.cmd[s.index]
      (List.getElem?_eq_getElem hlt) hl (by omega)
    rw [if_neg (by omega)] at e
    have e2 : cat_service desc s = some (1, { s with buf := b, index := s.index + 1 }) := by
      rw [cat_service_update desc s hs, e]
    obtain ⟨ih1, ⟨v, hv, hv1, hv2, hv3, hv4, hv5⟩, ih3⟩ :=
      ih { s with buf := b, index := s.index + 1 } hs hl (by simp only; omega)
        (by simp only; omega)
    refine ⟨?_, ?_, ?_⟩
    · intro j hj
      cases j with
      | zero => exact ⟨s, rfl, hs, rfl, rfl⟩
      | succ j =>
        obtain ⟨v, hv, hv1, hv2, hv3⟩ := ih1 j (by omega)
        refine ⟨v, by simp only [steps, e2]; exact hv, hv1, ?_, hv3⟩
        rw [hv2]; simp only; omega
    · exact ⟨v, by simp only [steps, e2]; exact hv, hv1, hv2, hv3, hv4, by rw [hv5]; exact hbl⟩
    · rw [matcher_calls_step desc _ _ s _ e2, if_pos hs, ih3]
      omega

/-- One name character: a reading call and then `cmd_num` matcher calls, slot by slot. -/
theorem char_cost (desc : cat_descriptor W) (s : cat_object W) (ch : Nat)
    (rest : List (Option Nat)) (hs : s.state = CAT_STATE_PARSE_COMMAND_CHAR)
    (hi : s.index = 0) (hn : 0 < desc.cmd_num) (hb : desc.cmd_num ≤ 4 * s.buf.length)
    (hrx : s.rx = some ch :: rest) (hv : is_valid_cmd_name_char (to_upper ch) ≠ 0) :
    (∀ j, j < desc.cmd_num → ∃ v, steps desc (1 + j) s = some v ∧
      v.state = CAT_STATE_UPDATE_COMMAND_STATE ∧ v.index = j ∧ v.rx = rest) ∧
    (∃ v, steps desc (desc.cmd_num + 1) s = some v ∧ v.state = CAT_STATE_PARSE_COMMAND_CHAR ∧
      v.index = 0 ∧ v.rx = rest ∧ v.length = s.length + 1 ∧ v.buf.length = s.buf.length) ∧
    matcher_calls desc (desc.cmd_num + 1) s = desc.cmd_num := by
  have e : cat_service desc s = some (1,
      { s with rx := rest, current_char := to_upper ch,
               length := s.length + 1, state := CAT_STATE_UPDATE_COMMAND_STATE }) := by
    rw [cat_service_parse_command desc s hs, parse_command_valid s ch rest hrx hv]
  obtain ⟨d, hd⟩ : ∃ d, desc.cmd_num = d + 1 := ⟨desc.cmd_num - 1, by omega⟩
  obtain ⟨m1, ⟨v, hv0, hv1, hv2, hv3, hv4, hv5⟩, m3⟩ := matcher_run desc d
    { s with rx := rest, current_char := to_upper ch,
             length := s.length + 1, state := CAT_STATE_UPDATE_COMMAND_STATE }
    rfl (by simp) hb (by simp only [hi]; omega)
  refine ⟨?_, ?_, ?_⟩
  · intro j hj
    obtain ⟨v, hv, hv1, hv2, hv3⟩ := m1 j (by omega)
    have e1 : 1 + j = j + 1 := by omega
    refine ⟨v, by rw [e1]; simp only [steps, e]; exact hv, hv1, ?_, hv3⟩
    rw [hv2]; simp only [hi]; omega
  · refine ⟨v, ?_, hv1, hv2, hv3, hv4, hv5⟩
    rw [hd]; simp only [steps, e]; exact hv0
  · rw [hd, matcher_calls_step desc _ _ s _ e, if_neg (by rw [hs]; simp), m3]
    omega

/-- A name of `L` valid characters over `N` commands: call number `k * (N + 1)` reads the
`k`-th character, the `N` calls after it are matcher calls on the slots `0 .. N - 1` in
order, and of the `L * (N + 1)` calls exactly `L * N` are matcher calls. -/
theorem name_cost (desc : cat_descriptor W) (rest : List (Option Nat)) (w : List Nat) :
    ∀ s : cat_object W, s.state = CAT_STATE_PARSE_COMMAND_CHAR → s.index = 0 →
      0 < desc.cmd_num → desc.cmd_num ≤ 4 * s.buf.length → s.rx = w.map some ++ rest →
      (∀ ch ∈ w, is_valid_cmd_name_char (to_upper ch) ≠ 0) →
      (∀ k, k < w.length →
        (∃ v, steps desc (k * (desc.cmd_num + 1)) s = some v ∧
          v.state = CAT_STATE_PARSE_COMMAND_CHAR ∧ v.index = 0 ∧
          v.rx = (w.drop k).map some ++ rest) ∧
        ∀ j, j < desc.cmd_num →
          ∃ v, steps desc (k * (desc.cmd_num + 1) + 1 + j) s = some v ∧
            v.state = CAT_STATE_UPDATE_COMMAND_STATE ∧ v.index = j ∧
            v.rx = (w.drop (k + 1)).map some ++ rest) ∧
      (∃ v, steps desc (w.length * (desc.cmd_num + 1)) s = some v ∧
        v.state = CAT_STATE_PARSE_COMMAND_CHAR ∧ v.index = 0 ∧ v.rx = rest ∧
        v.length = s.length + w.length ∧ v.buf.length = s.buf.length) ∧
      matcher_calls desc (w.length * (desc.cmd_num + 1)) s = w.length * desc.cmd_num := by
  induction w with
  | nil =>
    intro s hs hi hn hb hrx hv
    refine ⟨fun k hk => absurd hk (by simp), ?_, ?_⟩
    · exact ⟨s, by simp [steps], hs, hi, by simpa using hrx, by simp, rfl⟩
    · simp [matcher_calls]
  | cons ch w ih =>
    intro s hs hi hn hb hrx hv
    have hrx1 : s.rx = some ch :: (w.map some ++ rest) := by simpa using hrx
    obtain ⟨c1, ⟨v1, hv0, hv1, hv2, hv3, hv4, hv5⟩, c3⟩ :=
      char_cost desc s ch _ hs hi hn hb hrx1 (hv ch (by simp))
    obtain ⟨i1, ⟨v2, hw0, hw1, hw2, hw3, hw4, hw5⟩, i3⟩ :=
      ih v1 hv1 hv2 hn (by rw [hv5]; exact hb) hv3 (fun c hc => hv c (by simp [hc]))
    have shift : ∀ x, steps desc ((desc.cmd_num + 1) + x) s = steps desc x v1 := by
      intro x
      rw [steps_add, hv0]; rfl
    refine ⟨?_, ?_, ?_⟩
    · intro k hk
      cases k with
      | zero =>
        refine ⟨⟨s, by simp [steps], hs, hi, by simpa using hrx⟩, ?_⟩
        intro j hj
        obtain ⟨v, h1, h2, h3, h4⟩ := c1 j hj
        exact ⟨v, by simpa using h1, h2, h3, by simpa using h4⟩
      | succ k =>
        have hk2 : k < w.length := by simpa using hk
        obtain ⟨⟨v, h1, h2, h3, h4⟩, hj⟩ := i1 k hk2
        refine ⟨⟨v, ?_, h2, h3, by simpa using h4⟩, ?_⟩
        · rw [← h1, ← shift]; congr 1; ring
        · intro j hjn
          obtain ⟨v, g1, g2, g3, g4⟩ := hj j hjn
          refine ⟨v, ?_, g2, g3, by simpa using g4⟩
          rw [← g1, ← shift]; congr 1; ring
    · refine ⟨v2, ?_, hw1, hw2, hw3, ?_, by rw [hw5, hv5]⟩
      · rw [← hw0, ← shift]; congr 1; simp only [List.length_cons]; ring
      · rw [hw4, hv4]; simp only [List.length_cons]; omega
    · have e : (ch :: w).length * (desc.cmd_num + 1)
          = (desc.cmd_num + 1) + w.length * (desc.cmd_num + 1) := by
        simp only [List.length_cons]; ring
      rw [e, matcher_calls_add desc _ _ s v1 hv0, c3, i3]
      simp only [List.length_cons]; ring

/-! ## The drive ends, and polls without data do not matter -/

theorem phase_le (desc : cat_descriptor W) (s : cat_object W) :
    phase desc s ≤ desc.cmd_num + 2 := by
  unfold phase
  split <;> omega

theorem phase_reads (desc : cat_descriptor W) (s : cat_object W) :
    reads_input s.state = false → 1 ≤ phase desc s := by
  unfold phase
  cases s.state <;> simp [reads_input]

/-- Every call made while the engine is not idle brings the drive closer to its end. -/
theorem calls_bound_step (desc : cat_descriptor W) (s t : cat_object W) (r : Nat)
    (h : cat_service desc s = some (r, t)) (hi : idle s = false) :
    calls_bound desc t < calls_bound desc s := by
  have hrx := cat_service_rx desc s t r h
  unfold calls_bound
  by_cases hr : reads_input s.state = true
  · rw [if_pos hr] at hrx
    have hne : s.rx ≠ [] := by
      intro he
      simp [idle, he, hr] at hi
    have hl : t.rx.length + 1 = s.rx.length := by
      rw [hrx]
      cases hq : s.rx with
      | nil => exact absurd hq hne
      | cons a q => simp
    have := phase_le desc t
    rw [← hl]
    nlinarith
  · rw [if_neg hr] at hrx
    rw [hrx]
    have hlt : phase desc t < phase desc s := by
      cases hs : s.state with
      | CAT_STATE_ERROR => rw [hs] at hr; simp [reads_input] at hr
      | CAT_STATE_PARSE_PREFIX => rw [hs] at hr; simp [reads_input] at hr
      | CAT_STATE_PARSE_COMMAND_CHAR => rw [hs] at hr; simp [reads_input] at hr
      | CAT_STATE_WAIT_ACKNOWLEDGE => rw [hs] at hr; simp [reads_input] at hr
      | CAT_STATE_PARSE_COMMAND_ARGS => rw [hs] at hr; simp [reads_input] at hr
      | CAT_STATE_UPDATE_COMMAND_STATE =>
        rw [cat_service_update desc s hs] at h
        obtain ⟨b, _, ⟨_, ht⟩ | ⟨hlt, ht⟩⟩ := update_command_shape desc s t r h
        · rw [ht]; simp [phase, hs]
        · rw [ht]; simp only [phase, hs]; omega
      | CAT_STATE_SEARCH_COMMAND =>
        rw [cat_service_search desc s hs] at h
        obtain ⟨idx, c, st, ht, _, hshape⟩ := search_command_shape desc s t r h
        rcases hshape with ⟨h1, h2, h3⟩ | hnf | ⟨hf, _⟩
        · rw [ht]; simp only [phase, hs, h1, h2]; omega
        · rw [ht]; simp only [phase, hs, hnf]; omega
        · rw [ht]; simp only [phase, hs, hf]; omega
      | CAT_STATE_COMMAND_FOUND =>
        rw [cat_service_found desc s hs] at h
        rcases command_found_shape desc s t r h with ⟨h1, _, _⟩ | ht
        · simp [phase, hs, h1]
        · rw [ht]; simp [phase, hs]
      | CAT_STATE_COMMAND_NOT_FOUND =>
        rw [cat_service_not_found desc s hs] at h
        injection h with h; injection h with _ h
        rw [← h]; simp [phase, hs, ack_error, reset_state, print_string]
    omega

/-- With as much fuel as `calls_bound` the drive does not run out of fuel. -/
theorem run_total (desc : cat_descriptor W) (n : Nat) :
    ∀ s : cat_object W, calls_bound desc s ≤ n → run desc n s ≠ Outcome.out_of_fuel := by
  induction n with
  | zero =>
    intro s hb
    have hi : idle s = true := by
      have h0 : calls_bound desc s = 0 := by omega
      unfold calls_bound at h0
      have h1 : s.rx.length * (desc.cmd_num + 3) = 0 := by omega
      have h2 : phase desc s = 0 := by omega
      have h3 : s.rx = [] := by
        rcases Nat.mul_eq_zero.mp h1 with h | h
        · exact List.length_eq_zero.mp h
        · omega
      have h4 : reads_input s.state = true := by
        cases hr : reads_input s.state with
        | true => rfl
        | false => have := phase_reads desc s hr; omega
      simp [idle, h3, h4]
    simp [run, hi]
  | succ n ih =>
    intro s hb
    simp only [run]
    cases hi : idle s with
    | true => simp
    | false =>
      simp only [Bool.false_eq_true, if_false]
      cases hc : cat_service desc s with
      | none => simp
      | some p =>
        simp only []
        have := calls_bound_step desc s p.2 p.1 hc hi
        exact ih p.2 (by omega)

/-! ## The handlers look at the transport only through `read_cmd_char` -/

theorem with_rx_self (s : cat_object W) : with_rx s s.rx = s := by
  cases s; rfl

theorem with_rx_with_rx (s : cat_object W) (q q2 : List (Option Nat)) :
    with_rx (with_rx s q) q2 = with_rx s q2 := rfl

theorem set_cmd_state_with_rx (s : cat_object W) (q : List (Option Nat)) (i x : Nat) :
    set_cmd_state (with_rx s q) i x = (set_cmd_state s i x).map (fun u => with_rx u q) := by
  unfold set_cmd_state
  simp only [with_rx]
  cases s.buf[i >>> 2]? <;> rfl

theorem update_command_slot_with_rx (c : cat_command W) (s : cat_object W)
    (q : List (Option Nat)) :
    update_command_slot c (with_rx s q)
      = (update_command_slot c s).map (fun u => with_rx u q) := by
  unfold update_command_slot
  have e1 : (with_rx s q).length = s.length := rfl
  have e2 : (with_rx s q).index = s.index := rfl
  have e3 : (with_rx s q).current_char = s.current_char := rfl
  simp only [e1, e2, e3, set_cmd_state_with_rx]
  by_cases h1 : s.length > c.name.length
  · rw [if_pos h1, if_pos h1]
  · rw [if_neg h1, if_neg h1]
    by_cases h2 : s.length = 0
    · rw [if_pos h2, if_pos h2]; rfl
    · rw [if_neg h2, if_neg h2]
      cases c.name[s.length - 1]? with
      | none => rfl
      | some ch =>
        simp only []
        split_ifs <;> rfl

theorem update_command_with_rx (desc : cat_descriptor W) (s : cat_object W)
    (q : List (Option Nat)) :
    update_command desc (with_rx s q)
      = (update_command desc s).map (fun p => (p.1, with_rx p.2 q)) := by
  unfold update_command
  have e0 : get_cmd_state (with_rx s q) (with_rx s q).index = get_cmd_state s s.index := rfl
  have e2 : (with_rx s q).index = s.index := rfl
  rw [e0]
  cases get_cmd_state s s.index with
  | none => rfl
  | some st =>
    simp only [e2]
    by_cases h0 : st ≠ CAT_CMD_STATE_NOT_MATCH
    · simp only [if_pos h0]
      cases desc.cmd[s.index]? with
      | none => rfl
      | some c =>
        simp only [update_command_slot_with_rx]
        cases update_command_slot c s with
        | none => rfl
        | some u =>
          simp only [Option.map_some']
          have e3 : (with_rx u q).index = u.index := rfl
          rw [e3]
          split_ifs <;> rfl
    · simp only [if_neg h0]
      rw [e2]
      split_ifs <;> rfl

theorem search_command_next_with_rx (desc : cat_descriptor W) (s : cat_object W)
    (q : List (Option Nat)) :
    search_command_next desc (with_rx s q)
      = ((search_command_next desc s).1, with_rx (search_command_next desc s).2 q) := by
  unfold search_command_next
  have e2 : (with_rx s q).index = s.index := rfl
  have e3 : (with_rx s q).cmd = s.cmd := rfl
  rw [e2, e3]
  split_ifs <;> rfl

theorem search_command_with_rx (desc : cat_descriptor W) (s : cat_object W)
    (q : List (Option Nat)) :
    search_command desc (with_rx s q)
      = (search_command desc s).map (fun p => (p.1, with_rx p.2 q)) := by
  unfold search_command
  have e0 : get_cmd_state (with_rx s q) (with_rx s q).index = get_cmd_state s s.index := rfl
  have e2 : (with_rx s q).index = s.index := rfl
  have e3 : (with_rx s q).cmd = s.cmd := rfl
  rw [e0]
  cases get_cmd_state s s.index with
  | none => rfl
  | some st =>
    simp only [e2, e3]
    split_ifs <;>
      first
      | rfl
      | exact congrArg some (search_command_next_with_rx desc s q)
      | exact congrArg some (search_command_next_with_rx desc { s with cmd := some s.index } q)

theorem cmd_deref_with_rx (desc : cat_descriptor W) (s : cat_object W)
    (q : List (Option Nat)) : cmd_deref desc (with_rx s q) = cmd_deref desc s := rfl

theorem print_binary_with_rx (s : cat_object W) (q : List (Option Nat)) (data : List Nat)
    (n : Nat) :
    print_binary (with_rx s q) data n = (print_binary s data n).map (fun u => with_rx u q) := by
  unfold print_binary
  split_ifs <;> rfl

theorem command_found_with_rx (desc : cat_descriptor W) (s : cat_object W)
    (q : List (Option Nat)) :
    command_found desc (with_rx s q)
      = (command_found desc s).map (fun p => (p.1, with_rx p.2 q)) := by
  unfold command_found
  have e1 : (with_rx s q).cmd_type = s.cmd_type := rfl
  rw [e1, cmd_deref_with_rx]
  cases s.cmd_type with
  | CAT_CMD_TYPE_EXECUTE =>
    simp only []
    cases cmd_deref desc s with
    | none => rfl
    | some kc =>
      obtain ⟨k, c⟩ := kc
      simp only []
      cases c.run with
      | none => rfl
      | some f =>
        simp only []
        have e2 : (with_rx s q).world = s.world := rfl
        rw [e2]
        split_ifs <;> rfl
  | CAT_CMD_TYPE_READ =>
    simp only []
    cases cmd_deref desc s with
    | none => rfl
    | some kc =>
      obtain ⟨k, c⟩ := kc
      simp only []
      cases c.read with
      | none => rfl
      | some f =>
        simp only []
        have e2 : (with_rx s q).world = s.world := rfl
        have e3 : (with_rx s q).buf = s.buf := rfl
        rw [e2, e3]
        split_ifs
        · rfl
        · simp only [print_binary, print_string, with_rx]
          split_ifs <;> rfl
  | CAT_CMD_TYPE_WRITE => rfl

theorem error_state_with_rx (s : cat_object W) (b : Nat) (q q0 : List (Option Nat)) :
    error_state (with_rx s (some b :: q))
      = ((error_state (with_rx s (some b :: q0))).1,
          with_rx (error_state (with_rx s (some b :: q0))).2 q) := by
  unfold error_state
  rw [read_cmd_char_some (with_rx s (some b :: q)) b q rfl,
    read_cmd_char_some (with_rx s (some b :: q0)) b q0 rfl]
  simp only [with_rx]
  split_ifs <;> rfl

theorem parse_prefix_with_rx (s : cat_object W) (b : Nat) (q q0 : List (Option Nat)) :
    parse_prefix (with_rx s (some b :: q))
      = (( parse_prefix (with_rx s (some b :: q0))).1,
          with_rx ( parse_prefix (with_rx s (some b :: q0))).2 q) := by
  unfold parse_prefix
  rw [read_cmd_char_some (with_rx s (some b :: q)) b q rfl,
    read_cmd_char_some (with_rx s (some b :: q0)) b q0 rfl]
  simp only [with_rx]
  cases s.prefix_state <;> simp only [] <;> split_ifs <;> rfl

theorem parse_command_with_rx (s : cat_object W) (b : Nat) (q q0 : List (Option Nat)) :
    parse_command (with_rx s (some b :: q))
      = ((parse_command (with_rx s (some b :: q0))).1,
          with_rx (parse_command (with_rx s (some b :: q0))).2 q) := by
  unfold parse_command
  rw [read_cmd_char_some (with_rx s (some b :: q)) b q rfl,
    read_cmd_char_some (with_rx s (some b :: q0)) b q0 rfl]
  simp only [with_rx]
  split_ifs <;> rfl

theorem wait_acknowledge_with_rx (s : cat_object W) (b : Nat) (q q0 : List (Option Nat)) :
    wait_acknowledge (with_rx s (some b :: q))
      = ((wait_acknowledge (with_rx s (some b :: q0))).1,
          with_rx (wait_acknowledge (with_rx s (some b :: q0))).2 q) := by
  unfold wait_acknowledge
  rw [read_cmd_char_some (with_rx s (some b :: q)) b q rfl,
    read_cmd_char_some (with_rx s (some b :: q0)) b q0 rfl]
  simp only [with_rx]
  split_ifs <;> rfl

theorem parse_command_args_newline_with_rx (desc : cat_descriptor W) (s : cat_object W)
    (q : List (Option Nat)) :
    parse_command_args_newline desc (with_rx s q)
      = (parse_command_args_newline desc s).map (fun p => (p.1, with_rx p.2 q)) := by
  unfold parse_command_args_newline
  rw [cmd_deref_with_rx]
  cases cmd_deref desc s with
  | none => rfl
  | some kc =>
    obtain ⟨k, c⟩ := kc
    simp only []
    by_cases hv : c.var = false
    · rw [if_pos hv, if_pos hv]
      cases c.write with
      | none => rfl
      | some f =>
        simp only []
        have e2 : (with_rx s q).world = s.world := rfl
        have e3 : (with_rx s q).buf = s.buf := rfl
        have e4 : (with_rx s q).length = s.length := rfl
        rw [e2, e3, e4]
        split_ifs <;> rfl
    · rw [if_neg hv, if_neg hv]; rfl

theorem parse_command_args_with_rx (desc : cat_descriptor W) (s : cat_object W) (b : Nat)
    (q q0 : List (Option Nat)) :
    parse_command_args desc (with_rx s (some b :: q))
      = (parse_command_args desc (with_rx s (some b :: q0))).map
          (fun p => (p.1, with_rx p.2 q)) := by
  unfold parse_command_args
  rw [read_cmd_char_some (with_rx s (some b :: q)) b q rfl,
    read_cmd_char_some (with_rx s (some b :: q0)) b q0 rfl]
  have e : ({ with_rx s (some b :: q) with rx := q, current_char := to_upper b } : cat_object W)
      = with_rx { with_rx s (some b :: q0) with rx := q0, current_char := to_upper b } q := rfl
  simp only [e]
  by_cases h1 : to_upper b = 10
  · simp only [with_rx, h1, one_ne_zero, if_false, if_true]
    exact parse_command_args_newline_with_rx desc
      { with_rx s (some b :: q0) with rx := q0, current_char := 10 } q
  · simp only [with_rx, h1, one_ne_zero, if_false]
    split_ifs <;> rfl

/-- A call in a state that does not poll the transport does the same whatever the
schedule is, and leaves the schedule alone. -/
theorem cat_service_silent (desc : cat_descriptor W) (s : cat_object W)
    (q : List (Option Nat)) (h : reads_input s.state = false) :
    cat_service desc (with_rx s q)
      = (cat_service desc s).map (fun p => (p.1, with_rx p.2 q)) := by
  cases hs : s.state with
  | CAT_STATE_ERROR => rw [hs] at h; simp [reads_input] at h
  | CAT_STATE_PARSE_PREFIX => rw [hs] at h; simp [reads_input] at h
  | CAT_STATE_PARSE_COMMAND_CHAR => rw [hs] at h; simp [reads_input] at h
  | CAT_STATE_WAIT_ACKNOWLEDGE => rw [hs] at h; simp [reads_input] at h
  | CAT_STATE_PARSE_COMMAND_ARGS => rw [hs] at h; simp [reads_input] at h
  | CAT_STATE_UPDATE_COMMAND_STATE =>
    rw [cat_service_update desc s hs, cat_service_update desc (with_rx s q) hs]
    exact update_command_with_rx desc s q
  | CAT_STATE_SEARCH_COMMAND =>
    rw [cat_service_search desc s hs, cat_service_search desc (with_rx s q) hs]
    exact search_command_with_rx desc s q
  | CAT_STATE_COMMAND_FOUND =>
    rw [cat_service_found desc s hs, cat_service_found desc (with_rx s q) hs]
    exact command_found_with_rx desc s q
  | CAT_STATE_COMMAND_NOT_FOUND =>
    rw [cat_service_not_found desc s hs, cat_service_not_found desc (with_rx s q) hs]
    rfl

/-- A call that takes the byte `b` off the transport does the same whatever follows `b` in
the schedule. -/
theorem cat_service_byte (desc : cat_descriptor W) (s : cat_object W) (b : Nat)
    (q q0 : List (Option Nat)) (h : reads_input s.state = true) :
    cat_service desc (with_rx s (some b :: q))
      = (cat_service desc (with_rx s (some b :: q0))).map
          (fun p => (p.1, with_rx p.2 q)) := by
  cases hs : s.state with
  | CAT_STATE_UPDATE_COMMAND_STATE => rw [hs] at h; simp [reads_input] at h
  | CAT_STATE_SEARCH_COMMAND => rw [hs] at h; simp [reads_input] at h
  | CAT_STATE_COMMAND_FOUND => rw [hs] at h; simp [reads_input] at h
  | CAT_STATE_COMMAND_NOT_FOUND => rw [hs] at h; simp [reads_input] at h
  | CAT_STATE_ERROR =>
    rw [cat_service_error desc (with_rx s (some b :: q)) hs,
      cat_service_error desc (with_rx s (some b :: q0)) hs, error_state_with_rx s b q q0]
    rfl
  | CAT_STATE_PARSE_PREFIX =>
    rw [cat_service_prefix_state desc (with_rx s (some b :: q)) hs,
      cat_service_prefix_state desc (with_rx s (some b :: q0)) hs,
      parse_prefix_with_rx s b q q0]
    rfl
  | CAT_STATE_PARSE_COMMAND_CHAR =>
    rw [cat_service_parse_command desc (with_rx s (some b :: q)) hs,
      cat_service_parse_command desc (with_rx s (some b :: q0)) hs,
      parse_command_with_rx s b q q0]
    rfl
  | CAT_STATE_WAIT_ACKNOWLEDGE =>
    rw [cat_service_wait desc (with_rx s (some b :: q)) hs,
      cat_service_wait desc (with_rx s (some b :: q0)) hs,
      wait_acknowledge_with_rx s b q q0]
    rfl
  | CAT_STATE_PARSE_COMMAND_ARGS =>
    rw [cat_service_args desc (with_rx s (some b :: q)) hs,
      cat_service_args desc (with_rx s (some b :: q0)) hs]
    exact parse_command_args_with_rx desc s b q q0

theorem run_mono (desc : cat_descriptor W) (n : Nat) :
    ∀ (s : cat_object W) (m : Nat), run desc n s ≠ Outcome.out_of_fuel → n ≤ m →
      run desc m s = run desc n s := by
  induction n with
  | zero =>
    intro s m h _
    have hi : idle s = true := by
      cases hi : idle s with
      | true => rfl
      | false => simp [run, hi] at h
    rw [run_idle desc m s hi, run_idle desc 0 s hi]
  | succ n ih =>
    intro s m h hm
    obtain ⟨m, rfl⟩ : ∃ k, m = k + 1 := ⟨m - 1, by omega⟩
    simp only [run] at h ⊢
    cases hi : idle s with
    | true => simp
    | false =>
      simp only [hi, Bool.false_eq_true, if_false] at h ⊢
      cases hc : cat_service desc s with
      | none => rfl
      | some p =>
        rw [hc] at h
        exact ih p.2 m h (by omega)

/-- With at least `calls_bound` fuel the drive gives the result it gives with exactly
`calls_bound` fuel. -/
theorem run_enough (desc : cat_descriptor W) (s : cat_object W) (f : Nat)
    (h : calls_bound desc s ≤ f) : run desc f s = run desc (calls_bound desc s) s :=
  run_mono desc _ s f (run_total desc _ s (le_refl _)) h

theorem calls_bound_pos (desc : cat_descriptor W) (s : cat_object W) (hi : idle s = false) :
    1 ≤ calls_bound desc s := by
  unfold calls_bound
  cases hr : reads_input s.state with
  | false => have := phase_reads desc s hr; omega
  | true =>
    have hne : s.rx ≠ [] := by
      intro he
      simp [idle, he, hr] at hi
    have : 1 ≤ s.rx.length := by
      cases hq : s.rx with
      | nil => exact absurd hq hne
      | cons a q => simp
    nlinarith

theorem run_bound_step (desc : cat_descriptor W) (s t : cat_object W) (r : Nat)
    (hi : idle s = false) (h : cat_service desc s = some (r, t)) :
    run desc (calls_bound desc s) s = run desc (calls_bound desc t) t := by
  have h1 := calls_bound_step desc s t r h hi
  obtain ⟨k, hk⟩ : ∃ k, calls_bound desc s = k + 1 := ⟨calls_bound desc s - 1, by omega⟩
  rw [hk]
  simp only [run, hi, Bool.false_eq_true, if_false, h]
  exact run_enough desc t k (by omega)

theorem run_bound_undefined (desc : cat_descriptor W) (s : cat_object W)
    (hi : idle s = false) (h : cat_service desc s = none) :
    run desc (calls_bound desc s) s = Outcome.undefined := by
  have h1 := calls_bound_pos desc s hi
  obtain ⟨k, hk⟩ : ∃ k, calls_bound desc s = k + 1 := ⟨calls_bound desc s - 1, by omega⟩
  rw [hk]
  simp only [run, hi, Bool.false_eq_true, if_false, h]

theorem idle_silent (s : cat_object W) (h : reads_input s.state = false) : idle s = false := by
  simp [idle, h]

theorem idle_cons (s : cat_object W) (a : Option Nat) (q : List (Option Nat))
    (h : s.rx = a :: q) : idle s = false := by
  simp [idle, h]

/-- Two schedules that carry the same bytes give the same drive. -/
theorem run_same_bytes (desc : cat_descriptor W) (n : Nat) :
    ∀ s1 s2 : cat_object W, calls_bound desc s1 + calls_bound desc s2 ≤ n →
      s2 = with_rx s1 s2.rx → bytes s1.rx = bytes s2.rx →
      run desc (calls_bound desc s1) s1 = run desc (calls_bound desc s2) s2 := by
  induction n with
  | zero =>
    intro s1 s2 hn hrel hb
    have i1 : idle s1 = true := by
      cases hi : idle s1 with
      | true => rfl
      | false => have := calls_bound_pos desc s1 hi; omega
    have i2 : idle s2 = true := by
      cases hi : idle s2 with
      | true => rfl
      | false => have := calls_bound_pos desc s2 hi; omega
    have e1 : s1.rx = [] := by
      simp only [idle, Bool.and_eq_true, List.isEmpty_iff] at i1; exact i1.1
    have e2 : s2.rx = [] := by
      simp only [idle, Bool.and_eq_true, List.isEmpty_iff] at i2; exact i2.1
    have : s2 = s1 := by rw [hrel, e2, ← e1]; exact with_rx_self s1
    rw [this]
  | succ n ih =>
    intro s1 s2 hn hrel hb
    have hstate : s2.state = s1.state := by rw [hrel]; rfl
    cases hr : reads_input s1.state with
    | false =>
      have i1 := idle_silent s1 hr
      have i2 := idle_silent s2 (by rw [hstate]; exact hr)
      have hc2 : cat_service desc s2
          = (cat_service desc s1).map (fun p => (p.1, with_rx p.2 s2.rx)) := by
        rw [← cat_service_silent desc s1 s2.rx hr, ← hrel]
      cases hc : cat_service desc s1 with
      | none =>
        rw [hc] at hc2
        rw [run_bound_undefined desc s1 i1 hc, run_bound_undefined desc s2 i2 hc2]
      | some p =>
        rw [hc] at hc2
        simp only [Option.map_some'] at hc2
        have d1 := calls_bound_step desc s1 p.2 p.1 hc i1
        have d2 := calls_bound_step desc s2 _ _ hc2 i2
        rw [run_bound_step desc s1 p.2 p.1 i1 hc, run_bound_step desc s2 _ _ i2 hc2]
        have hrx1 := cat_service_rx desc s1 p.2 p.1 hc
        rw [hr] at hrx1
        simp only [Bool.false_eq_true, if_false] at hrx1
        exact ih p.2 (with_rx p.2 s2.rx) (by omega) rfl (by rw [hrx1]; exact hb)
    | true =>
      have hr2 : reads_input s2.state = true := by rw [hstate]; exact hr
      cases hq1 : s1.rx with
      | nil =>
        cases hq2 : s2.rx with
        | nil =>
          have : s2 = s1 := by rw [hrel, hq2, ← hq1]; exact with_rx_self s1
          rw [this]
        | cons a2 q2 =>
          cases a2 with
          | some b => rw [hq1, hq2] at hb; simp [bytes] at hb
          | none =>
            have i2 := idle_cons s2 _ _ hq2
            have hc2 := cat_service_no_data desc s2 hr2 (by rw [hq2]; rfl)
            have d2 := calls_bound_step desc s2 _ _ hc2 i2
            rw [run_bound_step desc s2 _ _ i2 hc2]
            refine ih s1 _ (by omega) ?_ ?_
            · rw [hq2]
              show with_rx s2 q2 = with_rx s1 q2
              rw [hrel]; rfl
            · rw [hb, hq2]; simp [bytes]
      | cons a1 q1 =>
        have i1 := idle_cons s1 _ _ hq1
        cases a1 with
        | none =>
          have hc1 := cat_service_no_data desc s1 hr (by rw [hq1]; rfl)
          have d1 := calls_bound_step desc s1 _ _ hc1 i1
          rw [run_bound_step desc s1 _ _ i1 hc1]
          refine ih _ s2 (by omega) ?_ ?_
          · show s2 = with_rx (with_rx s1 s1.rx.tail) s2.rx
            rw [with_rx_with_rx]; exact hrel
          · rw [← hb, hq1]; simp [bytes]
        | some b1 =>
          cases hq2 : s2.rx with
          | nil => rw [hq1, hq2] at hb; simp [bytes] at hb
          | cons a2 q2 =>
            have i2 := idle_cons s2 _ _ hq2
            cases a2 with
            | none =>
              have hc2 := cat_service_no_data desc s2 hr2 (by rw [hq2]; rfl)
              have d2 := calls_bound_step desc s2 _ _ hc2 i2
              rw [run_bound_step desc s2 _ _ i2 hc2]
              refine ih s1 _ (by omega) ?_ ?_
              · rw [hq2]
                show with_rx s2 q2 = with_rx s1 q2
                rw [hrel]; rfl
              · rw [hb, hq2]; simp [bytes]
            | some b2 =>
              rw [hq1, hq2] at hb
              have hb0 : b1 :: bytes q1 = b2 :: bytes q2 := hb
              injection hb0 with hb1 hb2
              subst hb1
              have e1 : s1 = with_rx s1 (some b1 :: q1) := by
                rw [← hq1]; exact (with_rx_self s1).symm
              have e2 : s2 = with_rx s1 (some b1 :: q2) := by rw [← hq2]; exact hrel
              have hc2 : cat_service desc s2
                  = (cat_service desc s1).map (fun p => (p.1, with_rx p.2 q2)) := by
                rw [e2]
                conv_rhs => rw [e1]
                exact cat_service_byte desc s1 b1 q2 q1 hr
              cases hc : cat_service desc s1 with
              | none =>
                rw [hc] at hc2
                rw [run_bound_undefined desc s1 i1 hc, run_bound_undefined desc s2 i2 hc2]
              | some p =>
                rw [hc] at hc2
                simp only [Option.map_some'] at hc2
                have d1 := calls_bound_step desc s1 p.2 p.1 hc i1
                have d2 := calls_bound_step desc s2 _ _ hc2 i2
                rw [run_bound_step desc s1 p.2 p.1 i1 hc, run_bound_step desc s2 _ _ i2 hc2]
                have hrx1 := cat_service_rx desc s1 p.2 p.1 hc
                rw [hr, hq1] at hrx1
                simp only [if_true, List.tail_cons] at hrx1
                exact ih p.2 (with_rx p.2 q2) (by omega) rfl (by rw [hrx1]; exact hb2)

/-! ## Scratch fields do not leak from one exchange into the next -/

theorem forget_prefix_state (desc : cat_descriptor W) (s : cat_object W)
    (hs : s.state = CAT_STATE_PARSE_PREFIX) :
    (cat_service desc (forget_scratch s)).map (fun p => (p.1, forget_scratch p.2))
      = (cat_service desc s).map (fun p => (p.1, forget_scratch p.2)) := by
  cases s with
  | mk st ps cc idx len ty cmd buf rx tx calls world =>
    simp only at hs
    subst hs
    cases rx with
    | nil => simp [forget_scratch, cat_service, parse_prefix, read_cmd_char]
    | cons a q =>
      cases a with
      | none => simp [forget_scratch, cat_service, parse_prefix, read_cmd_char]
      | some b =>
        cases ps <;>
          simp only [forget_scratch, cat_service, parse_prefix, read_cmd_char, Option.map_some',
            one_ne_zero, if_false] <;>
          split_ifs <;>
          simp [forget_scratch, ack_error, reset_state, print_string, prepare_parse_command]

theorem forget_error (desc : cat_descriptor W) (s : cat_object W)
    (hs : s.state = CAT_STATE_ERROR) :
    (cat_service desc (forget_scratch s)).map (fun p => (p.1, forget_scratch p.2))
      = (cat_service desc s).map (fun p => (p.1, forget_scratch p.2)) := by
  cases s with
  | mk st ps cc idx len ty cmd buf rx tx calls world =>
    simp only at hs
    subst hs
    cases rx with
    | nil => simp [forget_scratch, cat_service, error_state, read_cmd_char]
    | cons a q =>
      cases a with
      | none => simp [forget_scratch, cat_service, error_state, read_cmd_char]
      | some b =>
        simp only [forget_scratch, cat_service, error_state, read_cmd_char, Option.map_some',
            one_ne_zero, if_false]
        split_ifs <;>
          simp [forget_scratch, ack_error, reset_state, print_string]

theorem forget_parse_command (desc : cat_descriptor W) (s : cat_object W)
    (hs : s.state = CAT_STATE_PARSE_COMMAND_CHAR) :
    (cat_service desc (forget_scratch s)).map (fun p => (p.1, forget_scratch p.2))
      = (cat_service desc s).map (fun p => (p.1, forget_scratch p.2)) := by
  cases s with
  | mk st ps cc idx len ty cmd buf rx tx calls world =>
    simp only at hs
    subst hs
    cases rx with
    | nil => simp [forget_scratch, cat_service, parse_command, read_cmd_char]
    | cons a q =>
      cases a with
      | none => simp [forget_scratch, cat_service, parse_command, read_cmd_char]
      | some b =>
        simp only [forget_scratch, cat_service, parse_command, read_cmd_char, Option.map_some',
            one_ne_zero, if_false]
        split_ifs <;>
          simp [forget_scratch, ack_ok, reset_state, print_string, prepare_search_command]

theorem forget_wait (desc : cat_descriptor W) (s : cat_object W)
    (hs : s.state = CAT_STATE_WAIT_ACKNOWLEDGE) :
    (cat_service desc (forget_scratch s)).map (fun p => (p.1, forget_scratch p.2))
      = (cat_service desc s).map (fun p => (p.1, forget_scratch p.2)) := by
  cases s with
  | mk st ps cc idx len ty cmd buf rx tx calls world =>
    simp only at hs
    subst hs
    cases rx with
    | nil => simp [forget_scratch, cat_service, wait_acknowledge, read_cmd_char]
    | cons a q =>
      cases a with
      | none => simp [forget_scratch, cat_service, wait_acknowledge, read_cmd_char]
      | some b =>
        simp only [forget_scratch, cat_service, wait_acknowledge, read_cmd_char,
            Option.map_some', one_ne_zero, if_false]
        split_ifs <;>
          simp [forget_scratch, prepare_search_command]

theorem set_cmd_state_with_cmd (s : cat_object W) (c : Option Nat) (i x : Nat) :
    set_cmd_state (with_cmd s c) i x = (set_cmd_state s i x).map (fun u => with_cmd u c) := by
  unfold set_cmd_state
  simp only [with_cmd]
  cases s.buf[i >>> 2]? <;> rfl

theorem update_command_slot_with_cmd (d : cat_command W) (s : cat_object W)
    (c : Option Nat) :
    update_command_slot d (with_cmd s c)
      = (update_command_slot d s).map (fun u => with_cmd u c) := by
  unfold update_command_slot
  have e1 : (with_cmd s c).length = s.length := rfl
  have e2 : (with_cmd s c).index = s.index := rfl
  have e3 : (with_cmd s c).current_char = s.current_char := rfl
  simp only [e1, e2, e3, set_cmd_state_with_cmd]
  by_cases h1 : s.length > d.name.length
  · rw [if_pos h1, if_pos h1]
  · rw [if_neg h1, if_neg h1]
    by_cases h2 : s.length = 0
    · rw [if_pos h2, if_pos h2]; rfl
    · rw [if_neg h2, if_neg h2]
      cases d.name[s.length - 1]? with
      | none => rfl
      | some ch =>
        simp only []
        split_ifs <;> rfl

theorem update_command_with_cmd (desc : cat_descriptor W) (s : cat_object W)
    (c : Option Nat) :
    update_command desc (with_cmd s c)
      = (update_command desc s).map (fun p => (p.1, with_cmd p.2 c)) := by
  unfold update_command
  have e0 : get_cmd_state (with_cmd s c) (with_cmd s c).index = get_cmd_state s s.index := rfl
  have e2 : (with_cmd s c).index = s.index := rfl
  rw [e0]
  cases get_cmd_state s s.index with
  | none => rfl
  | some st =>
    simp only [e2]
    by_cases h0 : st ≠ CAT_CMD_STATE_NOT_MATCH
    · simp only [if_pos h0]
      cases desc.cmd[s.index]? with
      | none => rfl
      | some d =>
        simp only [update_command_slot_with_cmd]
        cases update_command_slot d s with
        | none => rfl
        | some u =>
          simp only [Option.map_some']
          have e3 : (with_cmd u c).index = u.index := rfl
          rw [e3]
          split_ifs <;> rfl
    · simp only [if_neg h0]
      rw [e2]
      split_ifs <;> rfl

theorem forget_update (desc : cat_descriptor W) (s : cat_object W)
    (hs : s.state = CAT_STATE_UPDATE_COMMAND_STATE) :
    (cat_service desc (forget_scratch s)).map (fun p => (p.1, forget_scratch p.2))
      = (cat_service desc s).map (fun p => (p.1, forget_scratch p.2)) := by
  have e : forget_scratch s = with_cmd s none := by
    cases s
    simp only at hs
    subst hs
    rfl
  rw [e, cat_service_update desc s hs, cat_service_update desc (with_cmd s none) hs,
    update_command_with_cmd]
  cases h : update_command desc s with
  | none => rfl
  | some p =>
    obtain ⟨r, t⟩ := p
    simp only [Option.map_some', Option.some.injEq, Prod.mk.injEq, true_and]
    obtain ⟨b, _, ⟨_, ht⟩ | ⟨_, ht⟩⟩ := update_command_shape desc s t r h
    · rw [ht]; rfl
    · rw [ht]
      cases s
      simp only at hs
      subst hs
      rfl

/-- A call does the same, up to scratch fields, on a record and on the record with its
scratch fields erased. -/
theorem forget_step (desc : cat_descriptor W) (s : cat_object W) :
    (cat_service desc (forget_scratch s)).map (fun p => (p.1, forget_scratch p.2))
      = (cat_service desc s).map (fun p => (p.1, forget_scratch p.2)) := by
  cases hs : s.state with
  | CAT_STATE_ERROR => exact forget_error desc s hs
  | CAT_STATE_PARSE_PREFIX => exact forget_prefix_state desc s hs
  | CAT_STATE_PARSE_COMMAND_CHAR => exact forget_parse_command desc s hs
  | CAT_STATE_UPDATE_COMMAND_STATE => exact forget_update desc s hs
  | CAT_STATE_WAIT_ACKNOWLEDGE => exact forget_wait desc s hs
  | CAT_STATE_SEARCH_COMMAND =>
    have e : forget_scratch s = s := by unfold forget_scratch; rw [hs]
    rw [e]
  | CAT_STATE_COMMAND_FOUND =>
    have e : forget_scratch s = s := by unfold forget_scratch; rw [hs]
    rw [e]
  | CAT_STATE_COMMAND_NOT_FOUND =>
    have e : forget_scratch s = s := by unfold forget_scratch; rw [hs]
    rw [e]
  | CAT_STATE_PARSE_COMMAND_ARGS =>
    have e : forget_scratch s = s := by unfold forget_scratch; rw [hs]
    rw [e]

theorem forget_idle (s : cat_object W) : idle (forget_scratch s) = idle s := by
  unfold forget_scratch idle
  cases hs : s.state <;> simp [hs]

theorem forget_forget (s : cat_object W) : forget_scratch (forget_scratch s) = forget_scratch s := by
  unfold forget_scratch
  cases hs : s.state <;> simp [hs]

/-- Two records that agree up to scratch fields give drives that agree up to scratch
fields, call by call. -/
theorem run_forget (desc : cat_descriptor W) (n : Nat) :
    ∀ s1 s2 : cat_object W, forget_scratch s1 = forget_scratch s2 →
      (run desc n s1).forget = (run desc n s2).forget := by
  induction n with
  | zero =>
    intro s1 s2 h
    have hi : idle s1 = idle s2 := by rw [← forget_idle s1, h, forget_idle]
    simp only [run, hi]
    cases idle s2 with
    | true => simp only [if_true, Outcome.forget, h]
    | false => rfl
  | succ n ih =>
    intro s1 s2 h
    have hi : idle s1 = idle s2 := by rw [← forget_idle s1, h, forget_idle]
    simp only [run, hi]
    cases idle s2 with
    | true => simp only [if_true, Outcome.forget, h]
    | false =>
      simp only [Bool.false_eq_true, if_false]
      have hstep : (cat_service desc s1).map (fun p => (p.1, forget_scratch p.2))
          = (cat_service desc s2).map (fun p => (p.1, forget_scratch p.2)) := by
        rw [← forget_step desc s1, ← forget_step desc s2, h]
      cases h1 : cat_service desc s1 with
      | none =>
        rw [h1] at hstep
        cases h2 : cat_service desc s2 with
        | none => rfl
        | some p2 => rw [h2] at hstep; simp at hstep
      | some p1 =>
        rw [h1] at hstep
        cases h2 : cat_service desc s2 with
        | none => rw [h2] at hstep; simp at hstep
        | some p2 =>
          rw [h2] at hstep
          simp only [Option.map_some', Option.some.injEq, Prod.mk.injEq] at hstep
          exact ih p1.2 p2.2 hstep.2

/-! ## Case is folded before anything is looked at -/

theorem set_cmd_state_with_tx (s : cat_object W) (q : List Nat) (i x : Nat) :
    set_cmd_state (with_tx s q) i x = (set_cmd_state s i x).map (fun u => with_tx u q) := by
  unfold set_cmd_state
  simp only [with_tx]
  cases s.buf[i >>> 2]? <;> rfl

theorem update_command_slot_with_tx (c : cat_command W) (s : cat_object W)
    (q : List Nat) :
    update_command_slot c (with_tx s q)
      = (update_command_slot c s).map (fun u => with_tx u q) := by
  unfold update_command_slot
  have e1 : (with_tx s q).length = s.length := rfl
  have e2 : (with_tx s q).index = s.index := rfl
  have e3 : (with_tx s q).current_char = s.current_char := rfl
  simp only [e1, e2, e3, set_cmd_state_with_tx]
  by_cases h1 : s.length > c.name.length
  · rw [if_pos h1, if_pos h1]
  · rw [if_neg h1, if_neg h1]
    by_cases h2 : s.length = 0
    · rw [if_pos h2, if_pos h2]; rfl
    · rw [if_neg h2, if_neg h2]
      cases c.name[s.length - 1]? with
      | none => rfl
      | some ch =>
        simp only []
        split_ifs <;> rfl

theorem update_command_with_tx (desc : cat_descriptor W) (s : cat_object W)
    (q : List Nat) :
    update_command desc (with_tx s q)
      = (update_command desc s).map (fun p => (p.1, with_tx p.2 q)) := by
  unfold update_command
  have e0 : get_cmd_state (with_tx s q) (with_tx s q).index = get_cmd_state s s.index := rfl
  have e2 : (with_tx s q).index = s.index := rfl
  rw [e0]
  cases get_cmd_state s s.index with
  | none => rfl
  | some st =>
    simp only [e2]
    by_cases h0 : st ≠ CAT_CMD_STATE_NOT_MATCH
    · simp only [if_pos h0]
      cases desc.cmd[s.index]? with
      | none => rfl
      | some c =>
        simp only [update_command_slot_with_tx]
        cases update_command_slot c s with
        | none => rfl
        | some u =>
          simp only [Option.map_some']
          have e3 : (with_tx u q).index = u.index := rfl
          rw [e3]
          split_ifs <;> rfl
    · simp only [if_neg h0]
      rw [e2]
      split_ifs <;> rfl

theorem search_command_next_with_tx (desc : cat_descriptor W) (s : cat_object W)
    (q : List Nat) :
    search_command_next desc (with_tx s q)
      = ((search_command_next desc s).1, with_tx (search_command_next desc s).2 q) := by
  unfold search_command_next
  have e2 : (with_tx s q).index = s.index := rfl
  have e3 : (with_tx s q).cmd = s.cmd := rfl
  rw [e2, e3]
  split_ifs <;> rfl

theorem search_command_with_tx (desc : cat_descriptor W) (s : cat_object W)
    (q : List Nat) :
    search_command desc (with_tx s q)
      = (search_command desc s).map (fun p => (p.1, with_tx p.2 q)) := by
  unfold search_command
  have e0 : get_cmd_state (with_tx s q) (with_tx s q).index = get_cmd_state s s.index := rfl
  have e2 : (with_tx s q).index = s.index := rfl
  have e3 : (with_tx s q).cmd = s.cmd := rfl
  rw [e0]
  cases get_cmd_state s s.index with
  | none => rfl
  | some st =>
    simp only [e2, e3]
    split_ifs <;>
      first
      | rfl
      | exact congrArg some (search_command_next_with_tx desc s q)
      | exact congrArg some (search_command_next_with_tx desc { s with cmd := some s.index } q)

theorem to_upper_idem (ch : Nat) : to_upper (to_upper ch) = to_upper ch := by
  unfold to_upper
  split_ifs <;> omega

theorem map_upper_idem (l : List Nat) : (l.map to_upper).map to_upper = l.map to_upper := by
  rw [List.map_map]
  apply List.map_congr_left
  intro a _
  exact to_upper_idem a

theorem rx_upper_idem (q : List (Option Nat)) :
    (q.map (Option.map to_upper)).map (Option.map to_upper) = q.map (Option.map to_upper) := by
  rw [List.map_map]
  apply List.map_congr_left
  intro a _
  cases a with
  | none => rfl
  | some b => simp [to_upper_idem]

theorem upper_names_num (desc : cat_descriptor W) :
    (upper_names desc).cmd_num = desc.cmd_num := by
  simp [upper_names, cat_descriptor.cmd_num]

theorem upper_names_get (desc : cat_descriptor W) (i : Nat) :
    (upper_names desc).cmd[i]? = (desc.cmd[i]?).map upper_name := by
  simp [upper_names]

theorem update_command_slot_upper (c : cat_command W) (s : cat_object W) :
    update_command_slot (upper_name c) s = update_command_slot c s := by
  unfold update_command_slot
  have e1 : (upper_name c).name.length = c.name.length := by simp [upper_name]
  have e2 : (upper_name c).name[s.length - 1]? = (c.name[s.length - 1]?).map to_upper := by
    simp [upper_name]
  simp only [e1, e2]
  by_cases h1 : s.length > c.name.length
  · rw [if_pos h1, if_pos h1]
  · rw [if_neg h1, if_neg h1]
    by_cases h2 : s.length = 0
    · rw [if_pos h2, if_pos h2]
    · rw [if_neg h2, if_neg h2]
      cases c.name[s.length - 1]? with
      | none => rfl
      | some ch => simp only [Option.map_some', to_upper_idem]

theorem update_command_upper (desc : cat_descriptor W) (s : cat_object W) :
    update_command (upper_names desc) s = update_command desc s := by
  unfold update_command
  rw [upper_names_num, upper_names_get]
  cases get_cmd_state s s.index with
  | none => rfl
  | some st =>
    simp only []
    cases desc.cmd[s.index]? with
    | none => rfl
    | some c => simp only [Option.map_some', update_command_slot_upper]

theorem search_command_upper (desc : cat_descriptor W) (s : cat_object W) :
    search_command (upper_names desc) s = search_command desc s := by
  unfold search_command search_command_next
  rw [upper_names_num]

theorem cmd_deref_upper (desc : cat_descriptor W) (s : cat_object W) :
    cmd_deref (upper_names desc) s
      = (cmd_deref desc s).map (fun p => (p.1, upper_name p.2)) := by
  unfold cmd_deref
  cases s.cmd with
  | none => rfl
  | some k =>
    simp only [upper_names_get]
    cases desc.cmd[k]? <;> rfl

theorem fold_case_eq (s : cat_object W) :
    fold_case s = with_rx (with_tx s (s.tx.map to_upper)) (s.rx.map (Option.map to_upper)) :=
  rfl

theorem fold_update (desc : cat_descriptor W) (s : cat_object W)
    (hs : s.state = CAT_STATE_UPDATE_COMMAND_STATE) :
    (cat_service (upper_names desc) (fold_case s)).map (fun p => (p.1, fold_case p.2))
      = (cat_service desc s).map (fun p => (p.1, fold_case p.2)) := by
  rw [cat_service_update desc s hs, cat_service_update (upper_names desc) (fold_case s) hs,
    update_command_upper, fold_case_eq, update_command_with_rx, update_command_with_tx]
  cases h : update_command desc s with
  | none => rfl
  | some p =>
    obtain ⟨r, t⟩ := p
    simp only [Option.map_some', Option.some.injEq, Prod.mk.injEq, true_and]
    obtain ⟨b, _, ⟨_, ht⟩ | ⟨_, ht⟩⟩ := update_command_shape desc s t r h
    · rw [ht]; simp only [fold_case, with_rx, with_tx, map_upper_idem, rx_upper_idem]
    · rw [ht]; simp only [fold_case, with_rx, with_tx, map_upper_idem, rx_upper_idem]

theorem fold_search (desc : cat_descriptor W) (s : cat_object W)
    (hs : s.state = CAT_STATE_SEARCH_COMMAND) :
    (cat_service (upper_names desc) (fold_case s)).map (fun p => (p.1, fold_case p.2))
      = (cat_service desc s).map (fun p => (p.1, fold_case p.2)) := by
  rw [cat_service_search desc s hs, cat_service_search (upper_names desc) (fold_case s) hs,
    search_command_upper, fold_case_eq, search_command_with_rx, search_command_with_tx]
  cases h : search_command desc s with
  | none => rfl
  | some p =>
    obtain ⟨r, t⟩ := p
    simp only [Option.map_some', Option.some.injEq, Prod.mk.injEq, true_and]
    obtain ⟨idx, c, st, ht, _⟩ := search_command_shape desc s t r h
    rw [ht]; simp only [fold_case, with_rx, with_tx, map_upper_idem, rx_upper_idem]

theorem upper_str_error : STR_ERROR.map to_upper = STR_ERROR := by decide

theorem upper_str_ok : STR_OK.map to_upper = STR_OK := by decide

theorem upper_nl : [10].map to_upper = [10] := by decide

theorem upper_eq : [61].map to_upper = [61] := by decide

theorem fold_error (desc : cat_descriptor W) (s : cat_object W)
    (hs : s.state = CAT_STATE_ERROR) :
    (cat_service (upper_names desc) (fold_case s)).map (fun p => (p.1, fold_case p.2))
      = (cat_service desc s).map (fun p => (p.1, fold_case p.2)) := by
  cases s with
  | mk st ps cc idx len ty cmd buf rx tx calls world =>
    simp only at hs
    subst hs
    cases rx with
    | nil => simp only [fold_case, cat_service, error_state, read_cmd_char, List.map_nil, List.map_cons,
          Option.map_none', Option.map_some', ↓reduceIte, map_upper_idem, rx_upper_idem]
    | cons a q =>
      cases a with
      | none =>
        simp only [fold_case, cat_service, error_state, read_cmd_char, List.map_nil, List.map_cons,
          Option.map_none', Option.map_some', ↓reduceIte, map_upper_idem, rx_upper_idem]
      | some b =>
        simp only [fold_case, cat_service, error_state, read_cmd_char, List.map_cons,
          Option.map_some', one_ne_zero, if_false, to_upper_idem]
        split_ifs <;>
          simp only [fold_case, ack_error, reset_state, print_string, map_upper_idem,
            rx_upper_idem, List.map_append, upper_str_error]

theorem fold_prefix_state (desc : cat_descriptor W) (s : cat_object W)
    (hs : s.state = CAT_STATE_PARSE_PREFIX) :
    (cat_service (upper_names desc) (fold_case s)).map (fun p => (p.1, fold_case p.2))
      = (cat_service desc s).map (fun p => (p.1, fold_case p.2)) := by
  cases s with
  | mk st ps cc idx len ty cmd buf rx tx calls world =>
    simp only at hs
    subst hs
    cases rx with
    | nil => simp only [fold_case, cat_service, parse_prefix, read_cmd_char, List.map_nil, List.map_cons,
          Option.map_none', Option.map_some', ↓reduceIte, map_upper_idem, rx_upper_idem]
    | cons a q =>
      cases a with
      | none =>
        simp only [fold_case, cat_service, parse_prefix, read_cmd_char, List.map_nil, List.map_cons,
          Option.map_none', Option.map_some', ↓reduceIte, map_upper_idem, rx_upper_idem]
      | some b =>
        cases ps <;>
          simp only [fold_case, cat_service, parse_prefix, read_cmd_char, List.map_cons,
            Option.map_some', one_ne_zero, if_false, to_upper_idem] <;>
          split_ifs <;>
          simp only [fold_case, ack_error, reset_state, print_string, map_upper_idem,
            rx_upper_idem, List.map_append, upper_str_error, prepare_parse_command]

theorem fold_parse_command (desc : cat_descriptor W) (s : cat_object W)
    (hs : s.state = CAT_STATE_PARSE_COMMAND_CHAR) :
    (cat_service (upper_names desc) (fold_case s)).map (fun p => (p.1, fold_case p.2))
      = (cat_service desc s).map (fun p => (p.1, fold_case p.2)) := by
  cases s with
  | mk st ps cc idx len ty cmd buf rx tx calls world =>
    simp only at hs
    subst hs
    cases rx with
    | nil => simp only [fold_case, cat_service, parse_command, read_cmd_char, List.map_nil, List.map_cons,
          Option.map_none', Option.map_some', ↓reduceIte, map_upper_idem, rx_upper_idem]
    | cons a q =>
      cases a with
      | none =>
        simp only [fold_case, cat_service, parse_command, read_cmd_char, List.map_nil, List.map_cons,
          Option.map_none', Option.map_some', ↓reduceIte, map_upper_idem, rx_upper_idem]
      | some b =>
        simp only [fold_case, cat_service, parse_command, read_cmd_char, List.map_cons,
          Option.map_some', one_ne_zero, if_false, to_upper_idem]
        split_ifs <;>
          simp only [fold_case, ack_ok, reset_state, print_string, map_upper_idem,
            rx_upper_idem, List.map_append, upper_str_ok, prepare_search_command]

theorem fold_wait (desc : cat_descriptor W) (s : cat_object W)
    (hs : s.state = CAT_STATE_WAIT_ACKNOWLEDGE) :
    (cat_service (upper_names desc) (fold_case s)).map (fun p => (p.1, fold_case p.2))
      = (cat_service desc s).map (fun p => (p.1, fold_case p.2)) := by
  cases s with
  | mk st ps cc idx len ty cmd buf rx tx calls world =>
    simp only at hs
    subst hs
    cases rx with
    | nil => simp only [fold_case, cat_service, wait_acknowledge, read_cmd_char, List.map_nil, List.map_cons,
          Option.map_none', Option.map_some', ↓reduceIte, map_upper_idem, rx_upper_idem]
    | cons a q =>
      cases a with
      | none =>
        simp only [fold_case, cat_service, wait_acknowledge, read_cmd_char, List.map_nil, List.map_cons,
          Option.map_none', Option.map_some', ↓reduceIte, map_upper_idem, rx_upper_idem]
      | some b =>
        simp only [fold_case, cat_service, wait_acknowledge, read_cmd_char, List.map_cons,
          Option.map_some', one_ne_zero, if_false, to_upper_idem]
        split_ifs <;>
          simp only [fold_case, map_upper_idem, rx_upper_idem, prepare_search_command]

theorem fold_not_found (desc : cat_descriptor W) (s : cat_object W)
    (hs : s.state = CAT_STATE_COMMAND_NOT_FOUND) :
    (cat_service (upper_names desc) (fold_case s)).map (fun p => (p.1, fold_case p.2))
      = (cat_service desc s).map (fun p => (p.1, fold_case p.2)) := by
  rw [cat_service_not_found desc s hs,
    cat_service_not_found (upper_names desc) (fold_case s) hs]
  simp only [Option.map_some', command_not_found, fold_case, ack_error, reset_state,
    print_string, map_upper_idem, rx_upper_idem, List.map_append, upper_str_error]

theorem fold_found (desc : cat_descriptor W) (s : cat_object W)
    (hs : s.state = CAT_STATE_COMMAND_FOUND) :
    (cat_service (upper_names desc) (fold_case s)).map (fun p => (p.1, fold_case p.2))
      = (cat_service desc s).map (fun p => (p.1, fold_case p.2)) := by
  rw [cat_service_found desc s hs, cat_service_found (upper_names desc) (fold_case s) hs]
  unfold command_found
  have e1 : (fold_case s).cmd_type = s.cmd_type := rfl
  have e2 : cmd_deref (upper_names desc) (fold_case s)
      = (cmd_deref desc s).map (fun p => (p.1, upper_name p.2)) := cmd_deref_upper desc s
  have e3 : (fold_case s).world = s.world := rfl
  have e4 : (fold_case s).buf = s.buf := rfl
  rw [e1, e2]
  cases s.cmd_type with
  | CAT_CMD_TYPE_EXECUTE =>
    simp only []
    cases cmd_deref desc s with
    | none => rfl
    | some kc =>
      obtain ⟨k, c⟩ := kc
      simp only [Option.map_some', upper_name]
      cases c.run with
      | none =>
        simp only [Option.map_some', fold_case, ack_error, reset_state, print_string,
          map_upper_idem, rx_upper_idem, List.map_append, upper_str_error]
      | some f =>
        simp only [e3]
        split_ifs <;>
          simp only [Option.map_some', fold_case, ack_error, ack_ok, reset_state,
            print_string, map_upper_idem, rx_upper_idem, List.map_append, upper_str_error,
            upper_str_ok]
  | CAT_CMD_TYPE_READ =>
    simp only []
    cases cmd_deref desc s with
    | none => rfl
    | some kc =>
      obtain ⟨k, c⟩ := kc
      simp only [Option.map_some', upper_name]
      cases c.read with
      | none =>
        simp only [Option.map_some', fold_case, ack_error, reset_state, print_string,
          map_upper_idem, rx_upper_idem, List.map_append, upper_str_error]
      | some f =>
        simp only [e3, e4]
        split_ifs
        · simp only [Option.map_some', fold_case, ack_error, reset_state,
            print_string, map_upper_idem, rx_upper_idem, List.map_append, upper_str_error]
        · simp only [print_binary, print_string]
          split_ifs <;>
            simp only [Option.map_some', Option.map_none', fold_case, ack_ok, reset_state,
              print_string, map_upper_idem, rx_upper_idem, List.map_append, upper_str_ok,
              upper_nl, upper_eq]
  | CAT_CMD_TYPE_WRITE =>
    simp only [Option.map_some', fold_case, map_upper_idem, rx_upper_idem]

theorem fold_args (desc : cat_descriptor W) (s : cat_object W)
    (hs : s.state = CAT_STATE_PARSE_COMMAND_ARGS) :
    (cat_service (upper_names desc) (fold_case s)).map (fun p => (p.1, fold_case p.2))
      = (cat_service desc s).map (fun p => (p.1, fold_case p.2)) := by
  rw [cat_service_args desc s hs, cat_service_args (upper_names desc) (fold_case s) hs]
  cases s with
  | mk st ps cc idx len ty cmd buf rx tx calls world =>
    cases rx with
    | nil =>
      simp only [fold_case, parse_command_args, read_cmd_char, List.map_nil, ↓reduceIte,
        Option.map_some', map_upper_idem]
    | cons a q =>
      cases a with
      | none =>
        simp only [fold_case, parse_command_args, read_cmd_char, List.map_cons,
          Option.map_none', ↓reduceIte, Option.map_some', map_upper_idem, rx_upper_idem]
      | some b =>
        simp only [fold_case, parse_command_args, read_cmd_char, List.map_cons,
          Option.map_some', one_ne_zero, if_false, to_upper_idem]
        by_cases h1 : to_upper b = 10
        · simp only [h1, if_true]
          unfold parse_command_args_newline
          rw [cmd_deref_upper]
          have e : cmd_deref desc
              { state := st, prefix_state := ps, current_char := 10, index := idx,
                length := len, cmd_type := ty, cmd := cmd, buf := buf,
                rx := List.map (Option.map to_upper) q, tx := List.map to_upper tx,
                calls := calls, world := world }
              = cmd_deref desc
              { state := st, prefix_state := ps, current_char := 10, index := idx,
                length := len, cmd_type := ty, cmd := cmd, buf := buf,
                rx := q, tx := tx, calls := calls, world := world } := rfl
          rw [e]
          cases cmd_deref desc
              { state := st, prefix_state := ps, current_char := 10, index := idx,
                length := len, cmd_type := ty, cmd := cmd, buf := buf,
                rx := q, tx := tx, calls := calls, world := world } with
          | none => rfl
          | some kc =>
            obtain ⟨k, c⟩ := kc
            simp only [Option.map_some', upper_name]
            by_cases hv : c.var = false
            · simp only [hv, if_true]
              cases c.write with
              | none =>
                simp only [Option.map_some', fold_case, ack_error, reset_state, print_string,
                  map_upper_idem, rx_upper_idem, List.map_append, upper_str_error]
              | some f =>
                simp only []
                split_ifs <;>
                  simp only [Option.map_some', fold_case, ack_error, ack_ok, reset_state,
                    print_string, map_upper_idem, rx_upper_idem, List.map_append,
                    upper_str_error, upper_str_ok]
            · have hv2 : c.var = true := by
                cases h : c.var with
                | true => rfl
                | false => exact absurd h hv
              simp only [hv2, Bool.true_eq_false, if_false, Option.map_none']
        · simp only [h1, if_false]
          split_ifs <;>
            simp only [Option.map_some', fold_case, map_upper_idem, rx_upper_idem]

/-- A call does the same, up to the case of letters on the transport, on a table and a
record and on the table with upper-cased names and the record with upper-cased
transport. -/
theorem fold_step (desc : cat_descriptor W) (s : cat_object W) :
    (cat_service (upper_names desc) (fold_case s)).map (fun p => (p.1, fold_case p.2))
      = (cat_service desc s).map (fun p => (p.1, fold_case p.2)) := by
  cases hs : s.state with
  | CAT_STATE_ERROR => exact fold_error desc s hs
  | CAT_STATE_PARSE_PREFIX => exact fold_prefix_state desc s hs
  | CAT_STATE_PARSE_COMMAND_CHAR => exact fold_parse_command desc s hs
  | CAT_STATE_UPDATE_COMMAND_STATE => exact fold_update desc s hs
  | CAT_STATE_WAIT_ACKNOWLEDGE => exact fold_wait desc s hs
  | CAT_STATE_SEARCH_COMMAND => exact fold_search desc s hs
  | CAT_STATE_COMMAND_FOUND => exact fold_found desc s hs
  | CAT_STATE_COMMAND_NOT_FOUND => exact fold_not_found desc s hs
  | CAT_STATE_PARSE_COMMAND_ARGS => exact fold_args desc s hs

theorem fold_idle (s : cat_object W) : idle (fold_case s) = idle s := by
  unfold fold_case idle
  cases s.rx <;> rfl

/-- Two configurations that agree up to the case of letters (in the registered names, in
the bytes to be read, in the bytes written) step to configurations that agree up to the
case of letters. -/
theorem fold_pair (desc1 desc2 : cat_descriptor W) (s1 s2 : cat_object W)
    (hd : upper_names desc1 = upper_names desc2) (hs : fold_case s1 = fold_case s2) :
    (cat_service desc1 s1).map (fun p => (p.1, fold_case p.2))
      = (cat_service desc2 s2).map (fun p => (p.1, fold_case p.2)) := by
  rw [← fold_step desc1 s1, ← fold_step desc2 s2, hd, hs]

theorem steps_fold (desc1 desc2 : cat_descriptor W)
    (hd : upper_names desc1 = upper_names desc2) (n : Nat) :
    ∀ s1 s2 : cat_object W, fold_case s1 = fold_case s2 →
      (steps desc1 n s1).map fold_case = (steps desc2 n s2).map fold_case := by
  induction n with
  | zero => intro s1 s2 h; simp only [steps, Option.map_some', h]
  | succ n ih =>
    intro s1 s2 h
    have hstep := fold_pair desc1 desc2 s1 s2 hd h
    simp only [steps]
    cases h1 : cat_service desc1 s1 with
    | none =>
      rw [h1] at hstep
      cases h2 : cat_service desc2 s2 with
      | none => rfl
      | some p2 => rw [h2] at hstep; simp at hstep
    | some p1 =>
      rw [h1] at hstep
      cases h2 : cat_service desc2 s2 with
      | none => rw [h2] at hstep; simp at hstep
      | some p2 =>
        rw [h2] at hstep
        simp only [Option.map_some', Option.some.injEq, Prod.mk.injEq] at hstep
        exact ih p1.2 p2.2 hstep.2

theorem run_fold (desc1 desc2 : cat_descriptor W)
    (hd : upper_names desc1 = upper_names desc2) (n : Nat) :
    ∀ s1 s2 : cat_object W, fold_case s1 = fold_case s2 →
      (run desc1 n s1).fold_case = (run desc2 n s2).fold_case := by
  induction n with
  | zero =>
    intro s1 s2 h
    have hi : idle s1 = idle s2 := by rw [← fold_idle s1, h, fold_idle]
    simp only [run, hi]
    cases idle s2 with
    | true => simp only [if_true, Outcome.fold_case, h]
    | false => rfl
  | succ n ih =>
    intro s1 s2 h
    have hi : idle s1 = idle s2 := by rw [← fold_idle s1, h, fold_idle]
    simp only [run, hi]
    cases idle s2 with
    | true => simp only [if_true, Outcome.fold_case, h]
    | false =>
      simp only [Bool.false_eq_true, if_false]
      have hstep := fold_pair desc1 desc2 s1 s2 hd h
      cases h1 : cat_service desc1 s1 with
      | none =>
        rw [h1] at hstep
        cases h2 : cat_service desc2 s2 with
        | none => rfl
        | some p2 => rw [h2] at hstep; simp at hstep
      | some p1 =>
        rw [h1] at hstep
        cases h2 : cat_service desc2 s2 with
        | none => rw [h2] at hstep; simp at hstep
        | some p2 =>
          rw [h2] at hstep
          simp only [Option.map_some', Option.some.injEq, Prod.mk.injEq] at hstep
          exact ih p1.2 p2.2 hstep.2

/-- A call that takes a byte off the transport sees the byte upper-cased only. -/
theorem cat_service_byte_case (desc : cat_descriptor W) (s : cat_object W) (b : Nat)
    (q : List (Option Nat)) (h : reads_input s.state = true) :
    cat_service desc (with_rx s (some (to_upper b) :: q))
      = cat_service desc (with_rx s (some b :: q)) := by
  have e := read_cmd_char_some (with_rx s (some (to_upper b) :: q)) (to_upper b) q rfl
  have e2 := read_cmd_char_some (with_rx s (some b :: q)) b q rfl
  rw [to_upper_idem] at e
  have e3 : read_cmd_char (with_rx s (some (to_upper b) :: q))
      = read_cmd_char (with_rx s (some b :: q)) := by rw [e, e2]; rfl
  cases hs : s.state with
  | CAT_STATE_UPDATE_COMMAND_STATE => rw [hs] at h; simp [reads_input] at h
  | CAT_STATE_SEARCH_COMMAND => rw [hs] at h; simp [reads_input] at h
  | CAT_STATE_COMMAND_FOUND => rw [hs] at h; simp [reads_input] at h
  | CAT_STATE_COMMAND_NOT_FOUND => rw [hs] at h; simp [reads_input] at h
  | CAT_STATE_ERROR =>
    rw [cat_service_error desc (with_rx s (some (to_upper b) :: q)) hs,
      cat_service_error desc (with_rx s (some b :: q)) hs]
    unfold error_state
    rw [e3]
  | CAT_STATE_PARSE_PREFIX =>
    rw [cat_service_prefix_state desc (with_rx s (some (to_upper b) :: q)) hs,
      cat_service_prefix_state desc (with_rx s (some b :: q)) hs]
    unfold parse_prefix
    rw [e3]
  | CAT_STATE_PARSE_COMMAND_CHAR =>
    rw [cat_service_parse_command desc (with_rx s (some (to_upper b) :: q)) hs,
      cat_service_parse_command desc (with_rx s (some b :: q)) hs]
    unfold parse_command
    rw [e3]
  | CAT_STATE_WAIT_ACKNOWLEDGE =>
    rw [cat_service_wait desc (with_rx s (some (to_upper b) :: q)) hs,
      cat_service_wait desc (with_rx s (some b :: q)) hs]
    unfold wait_acknowledge
    rw [e3]
  | CAT_STATE_PARSE_COMMAND_ARGS =>
    rw [cat_service_args desc (with_rx s (some (to_upper b) :: q)) hs,
      cat_service_args desc (with_rx s (some b :: q)) hs]
    unfold parse_command_args
    rw [e3]

theorem upper_rx_with_rx (t : cat_object W) (q : List (Option Nat)) :
    upper_rx (with_rx t (q.map (Option.map to_upper)))
      = with_rx t (q.map (Option.map to_upper)) := by
  unfold upper_rx
  show with_rx t ((q.map (Option.map to_upper)).map (Option.map to_upper)) = _
  rw [rx_upper_idem]

/-- A call does the same, up to the case of the bytes still to be read, on a record and on
the record with those bytes upper-cased. -/
theorem upper_rx_step (desc : cat_descriptor W) (s : cat_object W) :
    (cat_service desc (upper_rx s)).map (fun p => (p.1, upper_rx p.2))
      = (cat_service desc s).map (fun p => (p.1, upper_rx p.2)) := by
  cases hr : reads_input s.state with
  | false =>
    unfold upper_rx
    rw [cat_service_silent desc s _ hr]
    cases h : cat_service desc s with
    | none => rfl
    | some p =>
      have hrx := cat_service_rx desc s p.2 p.1 h
      rw [hr] at hrx
      simp only [Bool.false_eq_true, if_false] at hrx
      simp only [Option.map_some', Option.some.injEq, Prod.mk.injEq, true_and]
      rw [← hrx]
      exact upper_rx_with_rx p.2 p.2.rx
  | true =>
    cases hq : s.rx with
    | nil =>
      have : upper_rx s = s := by
        unfold upper_rx; rw [hq]; simp only [List.map_nil]; rw [← hq]; exact with_rx_self s
      rw [this]
    | cons a q =>
      have es : s = with_rx s (a :: q) := by rw [← hq]; exact (with_rx_self s).symm
      cases a with
      | none =>
        have eu : upper_rx s = with_rx s (none :: q.map (Option.map to_upper)) := by
          unfold upper_rx; rw [hq]; rfl
        have n1 := cat_service_no_data desc
          (with_rx s (none :: q.map (Option.map to_upper))) hr rfl
        have n2 := cat_service_no_data desc s hr (by rw [hq]; rfl)
        rw [eu, n1, n2]
        simp only [Option.map_some', Option.some.injEq, Prod.mk.injEq, true_and]
        rw [hq]
        exact upper_rx_with_rx s q
      | some b =>
        have eu : upper_rx s
            = with_rx s (some (to_upper b) :: q.map (Option.map to_upper)) := by
          unfold upper_rx; rw [hq]; rfl
        rw [eu, cat_service_byte_case desc s b _ hr, cat_service_byte desc s b _ q hr, ← es]
        cases h : cat_service desc s with
        | none => rfl
        | some p =>
          have hrx := cat_service_rx desc s p.2 p.1 h
          rw [hr, hq] at hrx
          simp only [if_true, List.tail_cons] at hrx
          simp only [Option.map_some', Option.some.injEq, Prod.mk.injEq, true_and]
          rw [← hrx]
          exact upper_rx_with_rx p.2 p.2.rx

theorem upper_rx_idle (s : cat_object W) : idle (upper_rx s) = idle s := by
  unfold upper_rx idle with_rx
  cases s.rx <;> rfl

theorem upper_rx_pair (desc : cat_descriptor W) (s1 s2 : cat_object W)
    (hs : upper_rx s1 = upper_rx s2) :
    (cat_service desc s1).map (fun p => (p.1, upper_rx p.2))
      = (cat_service desc s2).map (fun p => (p.1, upper_rx p.2)) := by
  rw [← upper_rx_step desc s1, ← upper_rx_step desc s2, hs]

theorem steps_upper_rx (desc : cat_descriptor W) (n : Nat) :
    ∀ s1 s2 : cat_object W, upper_rx s1 = upper_rx s2 →
      (steps desc n s1).map upper_rx = (steps desc n s2).map upper_rx := by
  induction n with
  | zero => intro s1 s2 h; simp only [steps, Option.map_some', h]
  | succ n ih =>
    intro s1 s2 h
    have hstep := upper_rx_pair desc s1 s2 h
    simp only [steps]
    cases h1 : cat_service desc s1 with
    | none =>
      rw [h1] at hstep
      cases h2 : cat_service desc s2 with
      | none => rfl
      | some p2 => rw [h2] at hstep; simp at hstep
    | some p1 =>
      rw [h1] at hstep
      cases h2 : cat_service desc s2 with
      | none => rw [h2] at hstep; simp at hstep
      | some p2 =>
        rw [h2] at hstep
        simp only [Option.map_some', Option.some.injEq, Prod.mk.injEq] at hstep
        exact ih p1.2 p2.2 hstep.2

theorem upper_rx_idle_eq (v1 v2 : cat_object W) (h : upper_rx v1 = upper_rx v2)
    (h1 : idle v1 = true) (h2 : idle v2 = true) : v1 = v2 := by
  have e1 : v1.rx = [] := by
    simp only [idle, Bool.and_eq_true, List.isEmpty_iff] at h1; exact h1.1
  have e2 : v2.rx = [] := by
    simp only [idle, Bool.and_eq_true, List.isEmpty_iff] at h2; exact h2.1
  have u1 : upper_rx v1 = v1 := by
    unfold upper_rx; rw [e1]; simp only [List.map_nil]; rw [← e1]; exact with_rx_self v1
  have u2 : upper_rx v2 = v2 := by
    unfold upper_rx; rw [e2]; simp only [List.map_nil]; rw [← e2]; exact with_rx_self v2
  rw [← u1, ← u2, h]

/-- Inputs that agree up to the case of letters give the same drive. -/
theorem run_upper_rx (desc : cat_descriptor W) (n : Nat) :
    ∀ s1 s2 : cat_object W, upper_rx s1 = upper_rx s2 → run desc n s1 = run desc n s2 := by
  induction n with
  | zero =>
    intro s1 s2 h
    have hi : idle s1 = idle s2 := by rw [← upper_rx_idle s1, h, upper_rx_idle]
    simp only [run]
    cases h2 : idle s2 with
    | true =>
      rw [h2] at hi
      simp only [hi, h2, if_true, upper_rx_idle_eq s1 s2 h hi h2]
    | false => rw [h2] at hi; simp only [hi, h2, Bool.false_eq_true, if_false]
  | succ n ih =>
    intro s1 s2 h
    have hi : idle s1 = idle s2 := by rw [← upper_rx_idle s1, h, upper_rx_idle]
    simp only [run]
    cases h2 : idle s2 with
    | true =>
      rw [h2] at hi
      simp only [hi, h2, if_true, upper_rx_idle_eq s1 s2 h hi h2]
    | false =>
      rw [h2] at hi
      simp only [hi, h2, Bool.false_eq_true, if_false]
      have hstep := upper_rx_pair desc s1 s2 h
      cases h1 : cat_service desc s1 with
      | none =>
        rw [h1] at hstep
        cases h2 : cat_service desc s2 with
        | none => rfl
        | some p2 => rw [h2] at hstep; simp at hstep
      | some p1 =>
        rw [h1] at hstep
        cases h2 : cat_service desc s2 with
        | none => rw [h2] at hstep; simp at hstep
        | some p2 =>
          rw [h2] at hstep
          simp only [Option.map_some', Option.some.injEq, Prod.mk.injEq] at hstep
          exact ih p1.2 p2.2 hstep.2

/-! ## C1, C2: the resolver -/

/-- What the resolver does for an exact name: when the typed name `a` is the name of table
entry `k`, no earlier entry has that name and at most one earlier entry has a name of
which `a` is a strict initial segment, then feeding the prefix, `a` and a terminator makes
the resolver end in `CAT_STATE_COMMAND_FOUND` with `cmd` pointing at entry `k`, nothing
having been emitted or called.  With two such earlier entries the scan stops before it
reaches entry `k`. -/
theorem exact_name_found (desc : cat_descriptor W) (s0 : cat_object W) (a : List Nat)
    (ty : cat_cmd_type) (rest : List (Option Nat)) (k : Nat) (c : cat_command W)
    (hr : ready desc s0)
    (hrx : s0.rx = (65 :: 84 :: a ++ terminator ty).map some ++ rest)
    (ha : typed_name a) (hk : desc.cmd[k]? = some c) (hname : is_name a c.name)
    (hfirst : ∀ (j : Nat) (d : cat_command W), j < k → desc.cmd[j]? = some d →
      ¬ is_name a d.name)
    (hone : ∀ (j1 j2 : Nat) (d1 d2 : cat_command W), j1 < k → j2 < k →
      desc.cmd[j1]? = some d1 →
      desc.cmd[j2]? = some d2 → is_abbreviation a d1.name → is_abbreviation a d2.name →
      j1 = j2) :
    ∃ n x, steps desc n s0 = some x ∧ x.state = CAT_STATE_COMMAND_FOUND ∧ x.cmd = some k ∧
      x.cmd_type = ty ∧ x.rx = rest ∧ x.tx = s0.tx ∧ x.calls = s0.calls := by
  obtain ⟨S, r1, hS, hSi, hSc, hSty, hSrx, hStx, hScalls, _, _, _, hsl⟩ :=
    at_resolver desc s0 a ty rest hr hrx ha
  obtain ⟨hne, hv⟩ := ha
  have hklt : k < desc.cmd_num := (List.getElem?_eq_some_iff.mp hk).1
  have h2 := slot_full desc S.buf a k c hsl hk hne hname
  have entry : ∀ j, j < k → ∃ d, desc.cmd[j]? = some d := by
    intro j hj
    have hjlt : j < desc.cmd.length := by unfold cat_descriptor.cmd_num at hklt; omega
    exact ⟨desc.cmd[j], List.getElem?_eq_getElem hjlt⟩
  have fin : ∀ x : cat_object W, reaches desc s0 x → x.state = CAT_STATE_COMMAND_FOUND →
      x.cmd = some k → x.cmd_type = ty → x.rx = rest → x.tx = s0.tx → x.calls = s0.calls →
      ∃ n x, steps desc n s0 = some x ∧ x.state = CAT_STATE_COMMAND_FOUND ∧ x.cmd = some k ∧
        x.cmd_type = ty ∧ x.rx = rest ∧ x.tx = s0.tx ∧ x.calls = s0.calls := by
    intro x ⟨n, hn⟩ e1 e2 e3 e4 e5 e6
    exact ⟨n, x, steps_of_advances desc n s0 x hn, e1, e2, e3, e4, e5, e6⟩
  by_cases hex : ∃ j, j < k ∧ ∃ d, desc.cmd[j]? = some d ∧ is_abbreviation a d.name
  · obtain ⟨j1, hj1, d1, hd1, hab1⟩ := hex
    have h1 := slot_of_abbrev desc S.buf a j1 d1 hsl hd1 hab1
    have hz : ∀ j, j < k → j ≠ j1 → slot S.buf j = some 0 := by
      intro j hj hne1
      obtain ⟨d, hd⟩ := entry j hj
      exact slot_none desc S.buf a j d hsl hd (hfirst j d hj hd)
        (fun hab => hne1 (hone j j1 d d1 hj hj1 hd hd1 hab hab1))
    have r2 := resolve_full_after_partial desc S j1 k hS hSi hSc hklt hj1 h1 h2 hz
    exact fin _ (reaches_trans desc _ _ _ r1 r2) rfl rfl hSty hSrx hStx hScalls
  · have hz : ∀ j, j < k → slot S.buf j = some 0 := by
      intro j hj
      obtain ⟨d, hd⟩ := entry j hj
      exact slot_none desc S.buf a j d hsl hd (hfirst j d hj hd)
        (fun hab => hex ⟨j, hj, d, hd, hab⟩)
    have r2 := resolve_full_first desc S k hS hSi hklt h2 hz
    exact fin _ (reaches_trans desc _ _ _ r1 r2) rfl rfl hSty hSrx hStx hScalls

/-- C2: when the typed name `p` is a strict initial segment of the names of two table
entries and is the name of no entry, then after the prefix, `p` and a terminator the
resolver ends in `CAT_STATE_COMMAND_NOT_FOUND`, nothing having been emitted or called;
the next call emits exactly `\nERROR\n`, resets the engine and calls no callback. -/
theorem C2_ambiguous_abbreviation (desc : cat_descriptor W) (s0 : cat_object W)
    (p : List Nat) (ty : cat_cmd_type) (rest : List (Option Nat)) (j1 j2 : Nat)
    (c1 c2 : cat_command W) (hr : ready desc s0)
    (hrx : s0.rx = (65 :: 84 :: p ++ terminator ty).map some ++ rest)
    (hp : typed_name p) (hj : j1 ≠ j2)
    (h1 : desc.cmd[j1]? = some c1) (h2 : desc.cmd[j2]? = some c2)
    (ha1 : is_abbreviation p c1.name) (ha2 : is_abbreviation p c2.name)
    (hnone : ∀ (j : Nat) (d : cat_command W), desc.cmd[j]? = some d → ¬ is_name p d.name) :
    ∃ n x v, steps desc n s0 = some x ∧ x.state = CAT_STATE_COMMAND_NOT_FOUND ∧
      x.tx = s0.tx ∧ x.calls = s0.calls ∧
      cat_service desc x = some (1, v) ∧ v.tx = s0.tx ++ STR_ERROR ∧ v.calls = s0.calls ∧
      v.world = s0.world ∧
      v.state = CAT_STATE_PARSE_PREFIX ∧ v.prefix_state = CAT_PREFIX_STATE_WAIT_A := by
  obtain ⟨S, r1, hS, hSi, hSc, hSty, hSrx, hStx, hScalls, hSw, _, _, hsl⟩ :=
    at_resolver desc s0 p ty rest hr hrx hp
  -- the first two entries abbreviated by `p`
  obtain ⟨i1, ⟨d1, hd1, hab1⟩, hmin1⟩ := exists_least
    (fun j => ∃ d : cat_command W, desc.cmd[j]? = some d ∧ is_abbreviation p d.name)
    ⟨j1, c1, h1, ha1⟩
  have hsecond : ∃ j, i1 < j ∧ ∃ d, desc.cmd[j]? = some d ∧ is_abbreviation p d.name := by
    by_cases he : i1 = j1
    · refine ⟨j2, ?_, c2, h2, ha2⟩
      have : ¬ j2 < i1 := fun hlt => hmin1 j2 hlt ⟨c2, h2, ha2⟩
      omega
    · refine ⟨j1, ?_, c1, h1, ha1⟩
      have : ¬ j1 < i1 := fun hlt => hmin1 j1 hlt ⟨c1, h1, ha1⟩
      omega
  obtain ⟨i2, ⟨hlt12, d2, hd2, hab2⟩, hmin2⟩ := exists_least
    (fun j => i1 < j ∧ ∃ d : cat_command W, desc.cmd[j]? = some d ∧ is_abbreviation p d.name)
    hsecond
  have hi2 : i2 < desc.cmd_num := (List.getElem?_eq_some_iff.mp hd2).1
  have hz : ∀ j, j < i2 → j ≠ i1 → slot S.buf j = some 0 := by
    intro j hj hne1
    have hjlt : j < desc.cmd.length := by unfold cat_descriptor.cmd_num at hi2; omega
    refine slot_none desc S.buf p j desc.cmd[j] hsl (List.getElem?_eq_getElem hjlt)
      (hnone j desc.cmd[j] (List.getElem?_eq_getElem hjlt)) ?_
    intro hab
    rcases Nat.lt_or_ge j i1 with hl | hg
    · exact hmin1 j hl ⟨_, List.getElem?_eq_getElem hjlt, hab⟩
    · exact hmin2 j hj ⟨by omega, _, List.getElem?_eq_getElem hjlt, hab⟩
  have r2 := resolve_ambiguous desc S i1 i2 hS hSi hSc hi2 hlt12
    (slot_of_abbrev desc S.buf p i1 d1 hsl hd1 hab1)
    (slot_of_abbrev desc S.buf p i2 d2 hsl hd2 hab2) hz
  obtain ⟨n, hn⟩ := reaches_trans desc _ _ _ r1 r2
  refine ⟨n, _, _, steps_of_advances desc n s0 _ hn, rfl, hStx, hScalls,
    cat_service_not_found desc _ rfl, ?_⟩
  simp [ack_error, reset_state, print_string, hStx, hScalls, hSw]

/-! ## C8, C7: the dispatcher -/

/-- C8: when the execute exchange `AT<name>\n` resolves to command `k` (the engine reaches
`CAT_STATE_COMMAND_FOUND` with `cmd` pointing at entry `k`), the dispatcher step invokes the
execute callback of `k` exactly once if it is present and makes no call otherwise; the
total output of the exchange is `\nOK\n` if the callback is present and returns 0 and
`\nERROR\n` otherwise; the engine ends in the reset state. -/
theorem C8_execute_dispatch (desc : cat_descriptor W) (s0 u : cat_object W)
    (name : List Nat) (k m : Nat) (c : cat_command W) (hr : ready desc s0)
    (hrx : s0.rx = (65 :: 84 :: name ++ [10]).map some)
    (hne : name ≠ []) (hv : ∀ ch ∈ name, is_valid_cmd_name_char (to_upper ch) ≠ 0)
    (hm : steps desc m s0 = some u) (hu : u.state = CAT_STATE_COMMAND_FOUND)
    (huc : u.cmd = some k) (hk : desc.cmd[k]? = some c) :
    ∃ v, cat_service desc u = some (1, v) ∧
      (∃ N, ∀ fuel, N ≤ fuel → run desc fuel s0 = Outcome.done v) ∧
      v.state = CAT_STATE_PARSE_PREFIX ∧ v.prefix_state = CAT_PREFIX_STATE_WAIT_A ∧
      (match c.run with
        | none => v.calls = s0.calls ∧ v.tx = s0.tx ++ STR_ERROR
        | some f => v.calls = s0.calls ++ [Call.run k] ∧
            v.tx = s0.tx ++ (if (f s0.world).1 = 0 then STR_OK else STR_ERROR)) := by
  obtain ⟨r, hurx, hutx, hucalls, huw, huty, _, _⟩ :=
    resolved_found desc s0 u name CAT_CMD_TYPE_EXECUTE k m hr hrx hne hv hm hu huc
  exact dispatch_execute desc s0 u k c r hu huc hk huty hurx hutx hucalls huw

/-- C7 (as amended): when the read exchange `AT<name>?\n` resolves to command `k`: without
a read callback, or when it returns non-zero, the total output is `\nERROR\n`; when it
returns 0 with `size` bytes `V` in the buffer, the total output is
`\n<name of k>=V\n` followed by `\nOK\n`, `V` being written verbatim; the engine ends in
the reset state. -/
theorem C7_read_reply (desc : cat_descriptor W) (s0 u : cat_object W)
    (name : List Nat) (k m : Nat) (c : cat_command W) (hr : ready desc s0)
    (hrx : s0.rx = (65 :: 84 :: name ++ [63, 10]).map some)
    (hne : name ≠ []) (hv : ∀ ch ∈ name, is_valid_cmd_name_char (to_upper ch) ≠ 0)
    (hm : steps desc m s0 = some u) (hu : u.state = CAT_STATE_COMMAND_FOUND)
    (huc : u.cmd = some k) (hk : desc.cmd[k]? = some c)
    (hsize : ∀ f, c.read = some f →
      (f s0.world u.buf u.buf.length).2.2.1 ≤ (f s0.world u.buf u.buf.length).2.1.length) :
    ∃ v, cat_service desc u = some (1, v) ∧
      (∃ N, ∀ fuel, N ≤ fuel → run desc fuel s0 = Outcome.done v) ∧
      v.state = CAT_STATE_PARSE_PREFIX ∧ v.prefix_state = CAT_PREFIX_STATE_WAIT_A ∧
      (match c.read with
        | none => v.calls = s0.calls ∧ v.tx = s0.tx ++ STR_ERROR
        | some f =>
          v.calls = s0.calls ++ [Call.read k u.buf u.buf.length] ∧
          v.tx = s0.tx ++
            (if (f s0.world u.buf u.buf.length).1 = 0 then
              [10] ++ c.name ++ [61]
                ++ (f s0.world u.buf u.buf.length).2.1.take (f s0.world u.buf u.buf.length).2.2.1
                ++ [10] ++ STR_OK
            else STR_ERROR)) := by
  obtain ⟨r, hurx, hutx, hucalls, huw, huty, _, _⟩ :=
    resolved_found desc s0 u name CAT_CMD_TYPE_READ k m hr hrx hne hv hm hu huc
  have hstep := command_found_read desc u k c huc hk huty
  rw [← cat_service_found desc u hu] at hstep
  have hnidle : idle u = false := by simp [idle, hu, reads_input]
  cases hread : c.read with
  | none =>
    rw [hread] at hstep
    simp only [] at hstep
    refine ⟨_, hstep, ?_, ?_⟩
    · exact run_after desc s0 u _ 1 r hnidle hstep
        (by simp [idle, ack_error, reset_state, print_string, hurx, reads_input])
    · simp [ack_error, reset_state, print_string, hutx, hucalls]
  | some f =>
    rw [hread] at hstep
    have hsz := hsize f hread
    simp only [huw] at hstep
    by_cases h0 : (f s0.world u.buf u.buf.length).1 = 0
    · rw [if_neg (by simpa using h0), if_pos hsz] at hstep
      refine ⟨_, hstep, ?_, ?_⟩
      · exact run_after desc s0 u _ 1 r hnidle hstep
          (by simp [idle, ack_ok, reset_state, print_string, hurx, reads_input])
      · simp [h0, ack_ok, reset_state, print_string, hutx, hucalls]
    · rw [if_pos h0] at hstep
      refine ⟨_, hstep, ?_, ?_⟩
      · exact run_after desc s0 u _ 1 r hnidle hstep
          (by simp [idle, ack_error, reset_state, print_string, hurx, reads_input])
      · simp [h0, ack_error, reset_state, print_string, hutx, hucalls]

/-! ## C4: a unique abbreviation -/

/-- C4: when the typed name `p` is a strict initial segment of the name of exactly one
table entry `k` and is the name of no entry, the exchange `AT<p>\n` invokes the execute
callback of entry `k` (when present) exactly once and no other callback; the output is
`\nOK\n` when that callback returns 0 (and `\nERROR\n` otherwise); the engine ends in the
reset state. -/
theorem C4_unique_abbreviation (desc : cat_descriptor W) (s0 : cat_object W)
    (p : List Nat) (k : Nat) (c : cat_command W) (hr : ready desc s0)
    (hrx : s0.rx = (65 :: 84 :: p ++ [10]).map some) (hp : typed_name p)
    (hk : desc.cmd[k]? = some c) (hab : is_abbreviation p c.name)
    (huniq : ∀ (j : Nat) (d : cat_command W), desc.cmd[j]? = some d → j ≠ k →
      ¬ is_abbreviation p d.name)
    (hnone : ∀ (j : Nat) (d : cat_command W), desc.cmd[j]? = some d → ¬ is_name p d.name) :
    ∃ v, (∃ N, ∀ fuel, N ≤ fuel → run desc fuel s0 = Outcome.done v) ∧
      v.state = CAT_STATE_PARSE_PREFIX ∧ v.prefix_state = CAT_PREFIX_STATE_WAIT_A ∧
      (match c.run with
        | none => v.calls = s0.calls ∧ v.tx = s0.tx ++ STR_ERROR
        | some f => v.calls = s0.calls ++ [Call.run k] ∧
            v.tx = s0.tx ++ (if (f s0.world).1 = 0 then STR_OK else STR_ERROR)) := by
  have hrx2 : s0.rx = (65 :: 84 :: p ++ terminator CAT_CMD_TYPE_EXECUTE).map some ++ [] := by
    rw [hrx]; simp [terminator]
  obtain ⟨S, r1, hS, hSi, hSc, hSty, hSrx, hStx, hScalls, hSw, _, _, hsl⟩ :=
    at_resolver desc s0 p CAT_CMD_TYPE_EXECUTE [] hr hrx2 hp
  have hklt : k < desc.cmd_num := (List.getElem?_eq_some_iff.mp hk).1
  have hz : ∀ j, j < desc.cmd_num → j ≠ k → slot S.buf j = some 0 := by
    intro j hj hne
    have hjlt : j < desc.cmd.length := hj
    exact slot_none desc S.buf p j desc.cmd[j] hsl (List.getElem?_eq_getElem hjlt)
      (hnone j _ (List.getElem?_eq_getElem hjlt))
      (huniq j _ (List.getElem?_eq_getElem hjlt) hne)
  have r2 := resolve_unique desc S k hS hSi hSc hklt (slot_of_abbrev desc S.buf p k c hsl hk hab) hz
  obtain ⟨v, _, h2, h3⟩ := dispatch_execute desc s0 _ k c (reaches_trans desc _ _ _ r1 r2)
    rfl rfl hk hSty hSrx hStx hScalls hSw
  exact ⟨v, h2, h3⟩

/-! ## Concrete exchanges -/

theorem demo_ready (desc : cat_descriptor Unit) (input : List Nat)
    (h : 0 < desc.cmd.length ∧ desc.cmd.length ≤ 4) : ready desc (demo_start 1 input) :=
  ⟨rfl, rfl, h.1, by simpa [demo_start, cat_descriptor.cmd_num] using h.2⟩

theorem demo_table1_entries (j : Nat) (d : cat_command Unit)
    (h : demo_table1.cmd[j]? = some d) : j = 0 ∧ d = demo_cmd [43, 84, 69, 83, 84] := by
  cases j with
  | zero => simp [demo_table1] at h; exact ⟨rfl, h.symm⟩
  | succ j => simp [demo_table1] at h

/-- The exact name `+TEST` is found on the table `+TEST1`, `+TEST`. -/
theorem exact_name_found_example :
    ∃ n x, steps demo_table2 n (demo_start 1 [65, 84, 43, 84, 69, 83, 84, 10]) = some x ∧
      x.state = CAT_STATE_COMMAND_FOUND ∧ x.cmd = some 1 ∧
      x.cmd_type = CAT_CMD_TYPE_EXECUTE ∧ x.rx = [] ∧ x.tx = [] ∧ x.calls = [] :=
  exact_name_found demo_table2 (demo_start 1 [65, 84, 43, 84, 69, 83, 84, 10])
    [43, 84, 69, 83, 84] CAT_CMD_TYPE_EXECUTE [] 1 (demo_cmd [43, 84, 69, 83, 84])
    (demo_ready _ _ (by decide)) rfl ⟨by decide, by decide⟩ rfl rfl
    (by
      intro j d hj hd
      have hj0 : j = 0 := by omega
      subst hj0
      simp [demo_table2] at hd
      subst hd
      simp [is_name, demo_cmd])
    (by intro j1 j2 _ _ h1 h2 _ _ _ _; omega)

/-- C1 at its failing input, the table `+TEST1`, `+TEST2`, `+TEST`: `+TEST` and `+TEST1`
are distinct registered names, the first a strict initial segment of the second, yet on
`AT+TEST\n` the resolver ends in `CAT_STATE_COMMAND_NOT_FOUND`, the engine is never in
`CAT_STATE_COMMAND_FOUND`, and the exchange is answered by `\nERROR\n` without a call:
the registered exact name is out of reach behind two longer names. -/
theorem C1_failing_input_trace :
    demo_table3.cmd.map (fun c => c.name)
        = [[43, 84, 69, 83, 84, 49], [43, 84, 69, 83, 84, 50], [43, 84, 69, 83, 84]] ∧
      is_abbreviation [43, 84, 69, 83, 84] [43, 84, 69, 83, 84, 49] ∧
      (∃ x, steps demo_table3 25 (demo_start 1 [65, 84, 43, 84, 69, 83, 84, 10]) = some x ∧
        x.state = CAT_STATE_COMMAND_NOT_FOUND) ∧
      (∀ n x, steps demo_table3 n (demo_start 1 [65, 84, 43, 84, 69, 83, 84, 10]) = some x →
        x.state ≠ CAT_STATE_COMMAND_FOUND) ∧
      transcript demo_table3 64 (demo_start 1 [65, 84, 43, 84, 69, 83, 84, 10])
        = some (STR_ERROR, []) := by
  refine ⟨rfl, ⟨[49], by decide, by decide⟩, ⟨_, rfl, rfl⟩, ?_, by decide⟩
  intro n x hx
  have hsmall : ∀ n < 26, ∀ x,
      steps demo_table3 n (demo_start 1 [65, 84, 43, 84, 69, 83, 84, 10]) = some x →
      x.state ≠ CAT_STATE_COMMAND_FOUND := by decide
  rcases Nat.lt_or_ge n 26 with hlt | hge
  · exact hsmall n hlt x hx
  · obtain ⟨j, rfl⟩ : ∃ j, n = 26 + j := ⟨n - 26, by omega⟩
    have h26 : steps demo_table3 26 (demo_start 1 [65, 84, 43, 84, 69, 83, 84, 10])
        = some { demo_start 1 [] with current_char := 10, index := 1, length := 5,
                                      cmd := some 0, buf := [101], tx := STR_ERROR } := by
      decide
    rw [steps_add, h26] at hx
    simp only [Option.some_bind] at hx
    rw [idle_steps _ _ (by decide)] at hx
    injection hx with hx
    rw [← hx]
    decide

/-- C2 holds at the table `+TEST1`, `+TEST2` and the typed name `+TEST`. -/
theorem C2_ambiguous_abbreviation_witness :
    ∃ n x v, steps demo_table_pair n (demo_start 1 [65, 84, 43, 84, 69, 83, 84, 10]) = some x ∧
      x.state = CAT_STATE_COMMAND_NOT_FOUND ∧ x.tx = [] ∧ x.calls = [] ∧
      cat_service demo_table_pair x = some (1, v) ∧ v.tx = [] ++ STR_ERROR ∧ v.calls = [] ∧
      v.world = () ∧
      v.state = CAT_STATE_PARSE_PREFIX ∧ v.prefix_state = CAT_PREFIX_STATE_WAIT_A :=
  C2_ambiguous_abbreviation demo_table_pair (demo_start 1 [65, 84, 43, 84, 69, 83, 84, 10])
    [43, 84, 69, 83, 84] CAT_CMD_TYPE_EXECUTE [] 0 1
    (demo_cmd [43, 84, 69, 83, 84, 49]) (demo_cmd [43, 84, 69, 83, 84, 50])
    (demo_ready _ _ (by decide)) rfl ⟨by decide, by decide⟩ (by decide) rfl rfl
    ⟨[49], by decide, by decide⟩ ⟨[50], by decide, by decide⟩
    (by
      intro j d hd
      match j, hd with
      | 0, hd => simp [demo_table_pair] at hd; subst hd; simp [is_name, demo_cmd]
      | 1, hd => simp [demo_table_pair] at hd; subst hd; simp [is_name, demo_cmd]
      | j + 2, hd => simp [demo_table_pair] at hd)

/-- C4 holds at the table `+TEST` and the typed name `+TE`. -/
theorem C4_unique_abbreviation_witness :
    ∃ v, (∃ N, ∀ fuel, N ≤ fuel →
        run demo_table1 fuel (demo_start 1 [65, 84, 43, 84, 69, 10]) = Outcome.done v) ∧
      v.state = CAT_STATE_PARSE_PREFIX ∧ v.prefix_state = CAT_PREFIX_STATE_WAIT_A ∧
      v.calls = [] ++ [Call.run 0] ∧ v.tx = [] ++ STR_OK :=
  C4_unique_abbreviation demo_table1 (demo_start 1 [65, 84, 43, 84, 69, 10]) [43, 84, 69] 0
    (demo_cmd [43, 84, 69, 83, 84]) (demo_ready _ _ (by decide)) rfl
    ⟨by decide, by decide⟩ rfl ⟨[83, 84], by decide, by decide⟩
    (by intro j d hd hj; exact absurd (demo_table1_entries j d hd).1 hj)
    (by
      intro j d hd
      rw [(demo_table1_entries j d hd).2]
      simp [is_name, demo_cmd])

/-- C8 holds at the table `+TEST` and the exchange `AT+TEST\n`. -/
theorem C8_execute_dispatch_witness :
    ∃ v, cat_service demo_table1 (demo_found CAT_CMD_TYPE_EXECUTE 10 []) = some (1, v) ∧
      (∃ N, ∀ fuel, N ≤ fuel →
        run demo_table1 fuel (demo_start 1 [65, 84, 43, 84, 69, 83, 84, 10])
          = Outcome.done v) ∧
      v.state = CAT_STATE_PARSE_PREFIX ∧ v.prefix_state = CAT_PREFIX_STATE_WAIT_A ∧
      v.calls = [] ++ [Call.run 0] ∧ v.tx = [] ++ STR_OK :=
  C8_execute_dispatch demo_table1 (demo_start 1 [65, 84, 43, 84, 69, 83, 84, 10])
    (demo_found CAT_CMD_TYPE_EXECUTE 10 []) [43, 84, 69, 83, 84] 0 14
    (demo_cmd [43, 84, 69, 83, 84]) (demo_ready _ _ (by decide)) rfl (by decide) (by decide)
    (by decide) rfl rfl rfl

/-- C7 holds at the table `+TEST` and the exchange `AT+TEST?\n`: the reply carries the
byte `1` stored by the read callback. -/
theorem C7_read_reply_witness :
    ∃ v, cat_service demo_table1 (demo_found CAT_CMD_TYPE_READ 10 []) = some (1, v) ∧
      (∃ N, ∀ fuel, N ≤ fuel →
        run demo_table1 fuel (demo_start 1 [65, 84, 43, 84, 69, 83, 84, 63, 10])
          = Outcome.done v) ∧
      v.state = CAT_STATE_PARSE_PREFIX ∧ v.prefix_state = CAT_PREFIX_STATE_WAIT_A ∧
      v.calls = [] ++ [Call.read 0 [86] 1] ∧
      v.tx = [] ++ ([10] ++ [43, 84, 69, 83, 84] ++ [61] ++ [1] ++ [10] ++ STR_OK) :=
  C7_read_reply demo_table1 (demo_start 1 [65, 84, 43, 84, 69, 83, 84, 63, 10])
    (demo_found CAT_CMD_TYPE_READ 10 []) [43, 84, 69, 83, 84] 0 15
    (demo_cmd [43, 84, 69, 83, 84]) (demo_ready _ _ (by decide)) rfl (by decide) (by decide)
    (by decide) rfl rfl rfl
    (by
      intro f hf
      simp only [demo_cmd, Option.some.injEq] at hf
      subst hf
      decide)

/-- C7 fails as stated: on `AT+TEST?\n` the read callback of `+TEST` returns 0 with the
one byte `1`, and the total output is `\n+TEST=`, the byte, `\n` and `\nOK\n` (two
newlines before `OK`), not `\n+TEST=`, the byte and `\nOK\n`. -/
theorem C7_counterexample :
    transcript demo_table1 64 (demo_start 1 [65, 84, 43, 84, 69, 83, 84, 63, 10])
        = some ([10, 43, 84, 69, 83, 84, 61, 1, 10, 10, 79, 75, 10], [Call.read 0 [86] 1]) ∧
      [10, 43, 84, 69, 83, 84, 61, 1, 10, 10, 79, 75, 10]
        ≠ [10] ++ [43, 84, 69, 83, 84] ++ [61] ++ [1] ++ STR_OK := by
  decide

/-- C3 at its failing input: on the table `+TEST` the write exchange `AT+X=1\n` with the
unknown name `+X` is answered by `\nERROR\n` twice, once at the `=` and once at the
newline. -/
theorem C3_failing_input_output :
    transcript demo_table1 64 (demo_start 1 [65, 84, 43, 88, 61, 49, 10])
      = some (STR_ERROR ++ STR_ERROR, []) := by
  decide

/-! ## C5, C6: write exchanges -/

/-- What a write exchange delivers: when the write exchange `AT<name>=<payload>\n` resolves to command
`k`, which has a write callback and no bound variable, and the payload (bytes, none a
newline) keeps at most `buf_size` bytes once its carriage returns are dropped, then the
write callback is invoked exactly once, with a buffer that starts with the kept bytes of
the payload (carriage returns dropped, letters upper-cased, as `read_cmd_char` delivers
them) and with their number as length; the output is `\nOK\n` if the callback returns 0
and `\nERROR\n` otherwise; the engine ends in the reset state. -/
theorem write_payload_delivered (desc : cat_descriptor W) (s0 u : cat_object W)
    (name payload : List Nat) (k m : Nat) (c : cat_command W)
    (f : W → List Nat → Nat → Int × W) (hr : ready desc s0)
    (hrx : s0.rx = (65 :: 84 :: name ++ [61] ++ payload ++ [10]).map some)
    (hname : typed_name name) (hnl : ∀ ch ∈ payload, ch ≠ 10)
    (hbytes : ∀ ch ∈ payload, ch < 256)
    (hm : steps desc m s0 = some u) (hu : u.state = CAT_STATE_COMMAND_FOUND)
    (huc : u.cmd = some k) (hurx : u.rx = (payload ++ [10]).map some)
    (hk : desc.cmd[k]? = some c) (hw : c.write = some f) (hvar : c.var = false)
    (hfit : (args_kept payload).length ≤ s0.buf.length) :
    ∃ v data, (∃ N, ∀ fuel, N ≤ fuel → run desc fuel s0 = Outcome.done v) ∧
      v.state = CAT_STATE_PARSE_PREFIX ∧ v.prefix_state = CAT_PREFIX_STATE_WAIT_A ∧
      v.calls = s0.calls ++ [Call.write k data (args_kept payload).length] ∧
      data.length = s0.buf.length ∧
      data.take (args_kept payload).length = args_kept payload ∧
      v.tx = s0.tx ++
        (if (f s0.world data (args_kept payload).length).1 = 0 then STR_OK else STR_ERROR) := by
  have hrx2 : s0.rx = (65 :: 84 :: name ++ terminator CAT_CMD_TYPE_WRITE).map some
      ++ (payload ++ [10]).map some := by
    rw [hrx]; simp [terminator]
  obtain ⟨r1, hutx, hucalls, huw, huty, hklt, hub⟩ :=
    resolved_found_at desc s0 u name CAT_CMD_TYPE_WRITE _ k m hr hrx2 hname hm hu huc hurx
  have hstep := command_found_write desc u huty
  rw [← cat_service_found desc u hu] at hstep
  have hurx2 : u.rx = payload.map some ++ some 10 :: [] := by rw [hurx]; simp
  obtain ⟨cc, r2⟩ := args_collect desc [] payload
    { u with length := 0, state := CAT_STATE_PARSE_COMMAND_ARGS } rfl hurx2 hnl
    (by simp only; omega)
  simp only [Nat.zero_add] at r2
  have hnew := args_newline desc
    { u with length := (args_kept payload).length, state := CAT_STATE_PARSE_COMMAND_ARGS,
             rx := some 10 :: [], current_char := cc,
             buf := stored u.buf 0 (args_kept payload) }
    k c f [] rfl rfl huc hk hvar hw
  simp only at hnew
  have r3 := reaches_step desc 1 _ _ (by simp [in_progress, idle]) hnew
  have hkept : (args_kept payload).map (fun x => x % 256) = args_kept payload := by
    conv_rhs => rw [← List.map_id (args_kept payload)]
    apply List.map_congr_left
    intro x hx
    unfold args_kept at hx
    simp only [List.mem_filter, List.mem_map] at hx
    obtain ⟨⟨y, hy, rfl⟩, _⟩ := hx
    exact Nat.mod_eq_of_lt (to_upper_lt y (hbytes y hy))
  have htake : (stored u.buf 0 (args_kept payload)).take (args_kept payload).length
      = args_kept payload := by
    have := stored_take (args_kept payload) u.buf 0 (by omega)
    simpa [hkept] using this
  refine ⟨_, stored u.buf 0 (args_kept payload),
    run_through desc s0 u _ _ 1 r1 (by simp [idle, hu, reads_input]) hstep
      (reaches_trans desc _ _ _ r2 r3) ?_, ?_⟩
  · split <;> simp [idle, ack_error, ack_ok, reset_state, print_string, reads_input]
  · rw [huw]
    by_cases h0 : (f s0.world (stored u.buf 0 (args_kept payload))
        (args_kept payload).length).1 = 0
    · simp [h0, ack_ok, reset_state, print_string, hutx, hucalls, stored_length, hub, htake]
    · simp [h0, ack_error, reset_state, print_string, hutx, hucalls, stored_length, hub, htake]

/-- C6 (as amended): when the write exchange `AT<name>=<payload>\n` resolves to a command
and the payload (no newline) has more than `buf_size` bytes other than carriage returns,
no callback is invoked, the buffer keeps its size, the total output is `\nERROR\n` and the
engine ends in the reset state. -/
theorem C6_write_overflow (desc : cat_descriptor W) (s0 u : cat_object W)
    (name payload : List Nat) (k m : Nat) (hr : ready desc s0)
    (hrx : s0.rx = (65 :: 84 :: name ++ [61] ++ payload ++ [10]).map some)
    (hname : typed_name name) (hnl : ∀ ch ∈ payload, ch ≠ 10)
    (hm : steps desc m s0 = some u) (hu : u.state = CAT_STATE_COMMAND_FOUND)
    (huc : u.cmd = some k) (hurx : u.rx = (payload ++ [10]).map some)
    (hlong : s0.buf.length < (args_kept payload).length) :
    ∃ v, (∃ N, ∀ fuel, N ≤ fuel → run desc fuel s0 = Outcome.done v) ∧
      v.state = CAT_STATE_PARSE_PREFIX ∧ v.prefix_state = CAT_PREFIX_STATE_WAIT_A ∧
      v.calls = s0.calls ∧ v.buf.length = s0.buf.length ∧ v.tx = s0.tx ++ STR_ERROR := by
  have hrx2 : s0.rx = (65 :: 84 :: name ++ terminator CAT_CMD_TYPE_WRITE).map some
      ++ (payload ++ [10]).map some := by
    rw [hrx]; simp [terminator]
  obtain ⟨r1, hutx, hucalls, huw, huty, hklt, hub⟩ :=
    resolved_found_at desc s0 u name CAT_CMD_TYPE_WRITE _ k m hr hrx2 hname hm hu huc hurx
  have hstep := command_found_write desc u huty
  rw [← cat_service_found desc u hu] at hstep
  have hurx2 : u.rx = payload.map some ++ some 10 :: [] := by rw [hurx]; simp
  obtain ⟨b, len, hb, r2⟩ := args_too_long desc [] payload
    { u with length := 0, state := CAT_STATE_PARSE_COMMAND_ARGS } rfl hurx2 hnl
    (by simp) (by simp only; omega)
  refine ⟨_, run_through desc s0 u _ _ 1 r1 (by simp [idle, hu, reads_input]) hstep r2
    (by simp [idle, reads_input]), rfl, rfl, hucalls, ?_, ?_⟩
  · simpa [hub] using hb
  · simp [hutx]

/-- The exchange `AT+TEST=a\rb\n` on the table `+TEST` with a buffer of four bytes: the
write callback receives `AB`. -/
theorem write_payload_delivered_example :
    ∃ v data, (∃ N, ∀ fuel, N ≤ fuel →
        run demo_table1 fuel (demo_start 4 [65, 84, 43, 84, 69, 83, 84, 61, 97, 13, 98, 10])
          = Outcome.done v) ∧
      v.state = CAT_STATE_PARSE_PREFIX ∧ v.prefix_state = CAT_PREFIX_STATE_WAIT_A ∧
      v.calls = [] ++ [Call.write 0 data 2] ∧ data.length = 4 ∧ data.take 2 = [65, 66] ∧
      v.tx = [] ++ STR_OK :=
  write_payload_delivered demo_table1
    (demo_start 4 [65, 84, 43, 84, 69, 83, 84, 61, 97, 13, 98, 10])
    { demo_found CAT_CMD_TYPE_WRITE 61 [97, 13, 98, 10] with buf := [86, 85, 85, 85] }
    [43, 84, 69, 83, 84] [97, 13, 98] 0 14 (demo_cmd [43, 84, 69, 83, 84])
    (fun w _ _ => (0, w))
    ⟨rfl, rfl, by decide, by decide⟩ rfl ⟨by decide, by decide⟩ (by decide) (by decide)
    (by decide) rfl rfl rfl rfl rfl rfl (by decide)

/-- C5 at its failing input: on `AT+TEST=a\n` the write callback of `+TEST` is handed the
byte `A` (65), not the payload byte `a` (97); the payload went through the `to_upper` of
`read_cmd_char`. -/
theorem C5_failing_input_call :
    transcript demo_table1 64 (demo_start 1 [65, 84, 43, 84, 69, 83, 84, 61, 97, 10])
        = some (STR_OK, [Call.write 0 [65] 1]) ∧
      [65] ≠ [97] := by
  decide

/-- C6 holds for the exchange `AT+TEST=ab\n` on the table `+TEST` with a buffer of one
byte. -/
theorem C6_write_overflow_witness :
    ∃ v, (∃ N, ∀ fuel, N ≤ fuel →
        run demo_table1 fuel (demo_start 1 [65, 84, 43, 84, 69, 83, 84, 61, 97, 98, 10])
          = Outcome.done v) ∧
      v.state = CAT_STATE_PARSE_PREFIX ∧ v.prefix_state = CAT_PREFIX_STATE_WAIT_A ∧
      v.calls = [] ∧ v.buf.length = 1 ∧ v.tx = [] ++ STR_ERROR :=
  C6_write_overflow demo_table1
    (demo_start 1 [65, 84, 43, 84, 69, 83, 84, 61, 97, 98, 10])
    (demo_found CAT_CMD_TYPE_WRITE 61 [97, 98, 10])
    [43, 84, 69, 83, 84] [97, 98] 0 14
    ⟨rfl, rfl, by decide, by decide⟩ rfl ⟨by decide, by decide⟩ (by decide)
    (by decide) rfl rfl rfl (by decide)

/-- C6 fails as stated: the payload of `AT+TEST=\r\r\n` has two bytes, more than the
buffer's one byte, yet the write callback is invoked (with length 0) and the output is
`\nOK\n`. -/
theorem C6_counterexample :
    transcript demo_table1 64 (demo_start 1 [65, 84, 43, 84, 69, 83, 84, 61, 13, 13, 10])
        = some (STR_OK, [Call.write 0 [86] 0]) ∧
      (demo_start 1 []).buf.length < [13, 13].length := by
  decide

/-! ## C10: polling without data -/

/-- C10: in a state that polls the transport, a call made when no byte is available
returns 0, emits nothing, calls nothing and leaves every field of the engine and the whole
buffer as they are (only the poll is consumed); a call returns 0 in no other situation. -/
theorem C10_no_data_poll (desc : cat_descriptor W) (s : cat_object W) :
    (reads_input s.state = true ∧ no_data s.rx = true →
      cat_service desc s = some (0, { s with rx := s.rx.tail })) ∧
    (∀ r t, cat_service desc s = some (r, t) →
      (r = 0 ↔ (reads_input s.state = true ∧ no_data s.rx = true))) := by
  refine ⟨fun h => cat_service_no_data desc s h.1 h.2, fun r t h => ?_⟩
  have := cat_service_ret desc s t r h
  split_ifs at this with hc
  · exact ⟨fun _ => hc, fun _ => this⟩
  · exact ⟨fun h0 => by omega, fun h1 => absurd h1 hc⟩

/-- C10 at an engine waiting for the prefix with an empty transport schedule. -/
theorem C10_no_data_poll_witness :
    cat_service demo_table1 (demo_start 1 []) = some (0, demo_start 1 []) ∧
      (0 = 0 ↔ (reads_input (demo_start 1 []).state = true ∧
        no_data (demo_start 1 []).rx = true)) :=
  ⟨(C10_no_data_poll demo_table1 (demo_start 1 [])).1 ⟨rfl, rfl⟩,
    (C10_no_data_poll demo_table1 (demo_start 1 [])).2 0 (demo_start 1 [])
      (by decide)⟩

/-! ## C20: the match-state store -/

/-- C20: for every buffer, every slot `i < 4 * buf_size` and every state value `st`,
`set_cmd_state i st` succeeds, after it `get_cmd_state i` returns `st mod 4` and every
other slot reads as before; and right after `prepare_parse_command` every slot
`i < 4 * buf_size` reads `CAT_CMD_STATE_PARTIAL_MATCH`. -/
theorem C20_match_state_store (s : cat_object W) (i st : Nat) (hi : i < 4 * s.buf.length) :
    (∃ s1, set_cmd_state s i st = some s1 ∧ get_cmd_state s1 i = some (st % 4) ∧
      ∀ j, j ≠ i → get_cmd_state s1 j = get_cmd_state s j) ∧
    get_cmd_state (prepare_parse_command s) i = some CAT_CMD_STATE_PARTIAL_MATCH := by
  constructor
  · obtain ⟨b, _, hs⟩ := set_cmd_state_some s i st (by omega)
    refine ⟨_, hs, ?_, ?_⟩
    · rw [get_set_cmd_state s _ i st i hs, if_pos rfl]
    · intro j hj
      rw [get_set_cmd_state s _ i st j hs, if_neg hj]
  · exact get_cmd_state_replicate (prepare_parse_command s) s.buf.length i (by omega) rfl

/-- C20 at slot 5 of a zeroed buffer of two bytes, storing the value 6. -/
theorem C20_match_state_store_witness :
    (∃ s1, set_cmd_state (demo_start 2 []) 5 6 = some s1 ∧
      get_cmd_state s1 5 = some (6 % 4) ∧
      ∀ j, j ≠ 5 → get_cmd_state s1 j = get_cmd_state (demo_start 2 []) j) ∧
    get_cmd_state (prepare_parse_command (demo_start 2 [])) 5
      = some CAT_CMD_STATE_PARTIAL_MATCH :=
  C20_match_state_store (demo_start 2 []) 5 6 (by decide)

/-! ## C16: the matcher invariant -/

theorem name_or_abbreviation (w name : List Nat) (h1 : is_name w name)
    (h2 : is_abbreviation w name) : False := by
  obtain ⟨t, ht, h⟩ := h2
  unfold is_name at h1
  rw [h1] at h
  have := congrArg List.length h
  simp only [List.length_map, List.length_append] at this
  have : t.length = 0 := by omega
  exact ht (List.length_eq_zero.mp this)

/-- C16: over a valid configuration, after the prefix and a name `w` of at least one
valid character, with all matcher passes completed (the engine is back in
`CAT_STATE_PARSE_COMMAND_CHAR` with cursor 0), every slot `i` of the table reads
`CAT_CMD_STATE_FULL_MATCH` if and only if the upper-cased name of command `i` is the
upper-cased `w`, `CAT_CMD_STATE_PARTIAL_MATCH` if and only if the upper-cased `w` is a
strict initial segment of it, and `CAT_CMD_STATE_NOT_MATCH` otherwise. -/
theorem C16_matcher_invariant (desc : cat_descriptor W) (s0 : cat_object W) (w : List Nat)
    (rest : List (Option Nat)) (hr : ready desc s0)
    (hrx : s0.rx = (65 :: 84 :: w).map some ++ rest) (hw : typed_name w) :
    ∃ x, steps desc (2 + w.length * (desc.cmd_num + 1)) s0 = some x ∧
      x.state = CAT_STATE_PARSE_COMMAND_CHAR ∧ x.index = 0 ∧ x.length = w.length ∧
      x.rx = rest ∧
      ∀ (i : Nat) (c : cat_command W), desc.cmd[i]? = some c →
        ∃ st, get_cmd_state x i = some st ∧
          (st = CAT_CMD_STATE_FULL_MATCH ↔ is_name w c.name) ∧
          (st = CAT_CMD_STATE_PARTIAL_MATCH ↔ is_abbreviation w c.name) ∧
          (st = CAT_CMD_STATE_NOT_MATCH ↔ (¬ is_name w c.name ∧ ¬ is_abbreviation w c.name)) := by
  have hrx2 : s0.rx = some 65 :: some 84 :: (w.map some ++ rest) := by rw [hrx]; simp
  obtain ⟨b, cc, hb, hsl, hadv⟩ :=
    name_phase desc s0 65 84 w rest hr hrx2 (by decide) (by decide) hw.2
  refine ⟨_, steps_of_advances desc _ s0 _ hadv, rfl, rfl, rfl, rfl, ?_⟩
  intro i c hc
  rw [get_cmd_state_slot]
  simp only [CAT_CMD_STATE_FULL_MATCH, CAT_CMD_STATE_PARTIAL_MATCH, CAT_CMD_STATE_NOT_MATCH]
  by_cases h1 : is_name w c.name
  · refine ⟨2, slot_full desc b w i c hsl hc hw.1 h1, ?_, ?_, ?_⟩
    · simp [h1]
    · simp only [OfNat.ofNat_ne_one, false_iff]
      exact fun h2 => name_or_abbreviation w c.name h1 h2
    · simp [h1]
  · by_cases h2 : is_abbreviation w c.name
    · refine ⟨1, slot_of_abbrev desc b w i c hsl hc h2, ?_, ?_, ?_⟩ <;> simp [h1, h2]
    · refine ⟨0, slot_none desc b w i c hsl hc h1 h2, ?_, ?_, ?_⟩ <;> simp [h1, h2]

/-- C16 at the table `+TEST1`, `+TEST` after `AT+TEST`. -/
theorem C16_matcher_invariant_witness :
    ∃ x, steps demo_table2 (2 + 5 * (2 + 1)) (demo_start 1 [65, 84, 43, 84, 69, 83, 84])
        = some x ∧
      x.state = CAT_STATE_PARSE_COMMAND_CHAR ∧ x.index = 0 ∧ x.length = 5 ∧ x.rx = [] ∧
      ∀ (i : Nat) (c : cat_command Unit), demo_table2.cmd[i]? = some c →
        ∃ st, get_cmd_state x i = some st ∧
          (st = CAT_CMD_STATE_FULL_MATCH ↔ is_name [43, 84, 69, 83, 84] c.name) ∧
          (st = CAT_CMD_STATE_PARTIAL_MATCH ↔ is_abbreviation [43, 84, 69, 83, 84] c.name) ∧
          (st = CAT_CMD_STATE_NOT_MATCH ↔
            (¬ is_name [43, 84, 69, 83, 84] c.name ∧
              ¬ is_abbreviation [43, 84, 69, 83, 84] c.name)) :=
  C16_matcher_invariant demo_table2 (demo_start 1 [65, 84, 43, 84, 69, 83, 84])
    [43, 84, 69, 83, 84] [] (demo_ready _ _ (by decide)) rfl ⟨by decide, by decide⟩

/-! ## C17: the error sink -/

theorem error_discard (desc : cat_descriptor W) (rest : List (Option Nat)) (l : List Nat) :
    ∀ s : cat_object W, s.state = CAT_STATE_ERROR →
      s.rx = l.map some ++ some 10 :: rest → (∀ ch ∈ l, ch ≠ 10) →
      ∀ j, j ≤ l.length → ∃ cc, steps desc j s
        = some { s with rx := (l.drop j).map some ++ some 10 :: rest, current_char := cc } := by
  induction l with
  | nil =>
    intro s hs hrx _ j hj
    have hj0 : j = 0 := by simpa using hj
    subst hj0
    refine ⟨s.current_char, ?_⟩
    simp only [steps, List.drop_nil, List.map_nil, List.nil_append]
    congr 1
    cases s; simp_all
  | cons ch l ih =>
    intro s hs hrx hnl j hj
    have hrx1 : s.rx = some ch :: (l.map some ++ some 10 :: rest) := by simpa using hrx
    cases j with
    | zero =>
      refine ⟨s.current_char, ?_⟩
      simp only [steps, List.drop_zero]
      congr 1
      cases s; simp_all
    | succ j =>
      have e : cat_service desc s = some (1,
          { s with rx := l.map some ++ some 10 :: rest, current_char := to_upper ch }) := by
        rw [cat_service_error desc s hs]
        unfold error_state
        rw [read_cmd_char_some s ch _ hrx1]
        have a := (to_upper_eq_10 ch).not.mpr (hnl ch (by simp))
        simp [a]
      obtain ⟨cc, h⟩ := ih
        { s with rx := l.map some ++ some 10 :: rest, current_char := to_upper ch }
        hs rfl (fun c hc => hnl c (by simp [hc])) j (by simpa using hj)
      refine ⟨cc, ?_⟩
      simp only [steps, e, List.drop_succ_cons]
      exact h

/-- C17: from `CAT_STATE_ERROR`, for every byte sequence `l` without newline followed by a
newline: while the bytes of `l` are consumed the engine stays in `CAT_STATE_ERROR`, emits
nothing and calls nothing; the call that consumes the newline emits exactly `\nERROR\n`
and moves to the reset state. -/
theorem C17_error_sink (desc : cat_descriptor W) (s : cat_object W) (l : List Nat)
    (rest : List (Option Nat)) (hs : s.state = CAT_STATE_ERROR)
    (hrx : s.rx = l.map some ++ some 10 :: rest) (hnl : ∀ ch ∈ l, ch ≠ 10) :
    (∀ j, j ≤ l.length → ∃ t, steps desc j s = some t ∧ t.state = CAT_STATE_ERROR ∧
      t.tx = s.tx ∧ t.calls = s.calls ∧ t.rx = (l.drop j).map some ++ some 10 :: rest) ∧
    ∃ v, steps desc (l.length + 1) s = some v ∧ v.tx = s.tx ++ STR_ERROR ∧
      v.calls = s.calls ∧ v.rx = rest ∧
      v.state = CAT_STATE_PARSE_PREFIX ∧ v.prefix_state = CAT_PREFIX_STATE_WAIT_A := by
  constructor
  · intro j hj
    obtain ⟨cc, h⟩ := error_discard desc rest l s hs hrx hnl j hj
    exact ⟨_, h, hs, rfl, rfl, rfl⟩
  · obtain ⟨cc, h⟩ := error_discard desc rest l s hs hrx hnl l.length (le_refl _)
    rw [steps_add, h]
    simp only [List.drop_length, List.map_nil, List.nil_append, Option.some_bind, steps]
    rw [cat_service_error]
    · unfold error_state
      rw [read_cmd_char_some _ 10 rest rfl]
      simp [to_upper, ack_error, reset_state, print_string]
    · exact hs

/-- C17 at the line `xy\n` fed to an engine in `CAT_STATE_ERROR`. -/
theorem C17_error_sink_witness :
    (∀ j, j ≤ 2 → ∃ t, steps demo_table1 j
        { demo_start 1 [120, 121, 10] with state := CAT_STATE_ERROR } = some t ∧
      t.state = CAT_STATE_ERROR ∧ t.tx = [] ∧ t.calls = [] ∧
      t.rx = ([120, 121].drop j).map some ++ some 10 :: []) ∧
    ∃ v, steps demo_table1 (2 + 1)
        { demo_start 1 [120, 121, 10] with state := CAT_STATE_ERROR } = some v ∧
      v.tx = [] ++ STR_ERROR ∧ v.calls = [] ∧ v.rx = [] ∧
      v.state = CAT_STATE_PARSE_PREFIX ∧ v.prefix_state = CAT_PREFIX_STATE_WAIT_A :=
  C17_error_sink demo_table1 { demo_start 1 [120, 121, 10] with state := CAT_STATE_ERROR }
    [120, 121] [] rfl rfl (by decide)

/-! ## C14: initialisation -/

/-- C19 at its failing input: on the table `+TEST` the line `AT+X=AT+TEST\n` is answered
at the `=`: nine calls in, with `AT+TEST\n` still to come, `\nERROR\n` is already out and
the engine is reset; the rest of the line is then taken for a new exchange, which runs
`+TEST` and emits a second acknowledgement. -/
theorem C19_failing_input_trace :
    (steps demo_table1 9 (demo_start 1 [65, 84, 43, 88, 61, 65, 84, 43, 84, 69, 83, 84, 10])).map
        (fun s => (s.state, s.prefix_state, s.tx, s.rx))
      = some (CAT_STATE_PARSE_PREFIX, CAT_PREFIX_STATE_WAIT_A, STR_ERROR,
          [65, 84, 43, 84, 69, 83, 84, 10].map some) ∧
    transcript demo_table1 64
        (demo_start 1 [65, 84, 43, 88, 61, 65, 84, 43, 84, 69, 83, 84, 10])
      = some (STR_ERROR ++ STR_OK, [Call.run 0]) := by
  decide

/-! ## C18: every access is in bounds -/

theorem safe_of_init (desc : cat_descriptor W) (size_bits : Nat) (self s0 : cat_object W)
    (h : cat_init size_bits self desc = some s0) : safe_state desc s0 := by
  unfold cat_init at h
  split_ifs at h with hc
  injection h with h
  subst h
  have hle := Nat.mod_le (self.buf.length * 4) (2 ^ size_bits)
  exact safe_of_ready desc _ ⟨rfl, rfl, hc.1, by simp only [reset_state]; omega⟩

theorem safe_reachable (desc : cat_descriptor W) (size_bits : Nat) (self s0 t : cat_object W)
    (n : Nat) (hinit : cat_init size_bits self desc = some s0) (hc : read_contract desc)
    (hs : steps desc n s0 = some t) : safe_state desc t :=
  safe_steps desc hc n s0 t (safe_of_init desc size_bits self s0 hinit) hs

theorem update_command_slot_some (c : cat_command W) (s : cat_object W)
    (hi : s.index / 4 < s.buf.length) (hl : 1 ≤ s.length) :
    ∃ u, update_command_slot c s = some u := by
  unfold update_command_slot
  simp only []
  by_cases h1 : s.length > c.name.length
  · rw [if_pos h1]
    obtain ⟨b, _, e⟩ := set_cmd_state_some s s.index CAT_CMD_STATE_NOT_MATCH hi
    exact ⟨_, e⟩
  · rw [if_neg h1, if_neg (by omega)]
    rw [List.getElem?_eq_getElem (by omega : s.length - 1 < c.name.length)]
    simp only []
    split_ifs
    · obtain ⟨b, _, e⟩ := set_cmd_state_some s s.index CAT_CMD_STATE_NOT_MATCH hi
      exact ⟨_, e⟩
    · obtain ⟨b, _, e⟩ := set_cmd_state_some s s.index CAT_CMD_STATE_FULL_MATCH hi
      exact ⟨_, e⟩
    · exact ⟨_, rfl⟩

theorem search_command_some (desc : cat_descriptor W) (s : cat_object W)
    (hi : s.index / 4 < s.buf.length) : ∃ r, search_command desc s = some r := by
  obtain ⟨st, e⟩ := get_cmd_state_some s s.index hi
  unfold search_command
  rw [e]
  simp only []
  split_ifs <;> exact ⟨_, rfl⟩

theorem args_store_bound (desc : cat_descriptor W) (s u : cat_object W) (r : Nat)
    (h : parse_command_args desc s = some (r, u)) :
    (u.buf = s.buf ∧ u.length = s.length) ∨
      (s.length < s.buf.length ∧ u.length = s.length + 1 ∧
        u.buf = s.buf.set s.length (u.current_char % 256)) := by
  have hr : (read_cmd_char s).2.buf = s.buf ∧ (read_cmd_char s).2.length = s.length := by
    unfold read_cmd_char; split <;> simp
  obtain ⟨hr1, hr2⟩ := hr
  unfold parse_command_args at h
  simp only [] at h
  split_ifs at h with h1 h2 h3 h4
  · injection h with h; injection h with _ h; rw [← h]
    exact Or.inl ⟨hr1, hr2⟩
  · unfold parse_command_args_newline at h
    split at h
    · cases h
    · split_ifs at h
      split at h
      · injection h with h; injection h with _ h; rw [← h]
        exact Or.inl ⟨by simp [ack_error, reset_state, print_string, hr1],
          by simp [ack_error, reset_state, print_string, hr2]⟩
      · simp only [] at h
        split_ifs at h <;>
          (injection h with h; injection h with _ h; rw [← h]
           exact Or.inl ⟨by simp [ack_error, ack_ok, reset_state, print_string, hr1],
             by simp [ack_error, ack_ok, reset_state, print_string, hr2]⟩)
  · injection h with h; injection h with _ h; rw [← h]
    exact Or.inl ⟨hr1, hr2⟩
  · injection h with h; injection h with _ h; rw [← h]
    exact Or.inl ⟨hr1, hr2⟩
  · injection h with h; injection h with _ h; rw [← h]
    refine Or.inr ⟨?_, ?_, ?_⟩
    · rw [hr1, hr2] at h4; omega
    · simp only [hr2]
    · simp only [hr1, hr2]

theorem bounded_contract : read_contract bounded_table := by
  intro c hcm f hf w buf max
  simp only [bounded_table, List.mem_cons, List.mem_singleton, List.not_mem_nil, or_false] at hcm
  rcases hcm with rfl | rfl <;>
    (simp only [bounded_cmd, Option.some.injEq] at hf
     subst hf
     exact ⟨by simp, Nat.min_le_right _ _⟩)

theorem bounded_no_var : no_bound_variable bounded_table := by
  intro c hcm
  simp only [bounded_table, List.mem_cons, List.mem_singleton, List.not_mem_nil, or_false] at hcm
  rcases hcm with rfl | rfl <;> rfl

/-- C18: in every state reachable from `cat_init` (read callbacks keeping to the buffer
they are handed) every access is in bounds.  In the matcher state the cursor is inside
the table, the slot byte `index >> 2` is inside the buffer, so `get_cmd_state` and
`set_cmd_state` are defined, `1 ≤ length`, the table entry under the cursor exists, its
name is read at `length - 1` inside the name whenever `length ≤ strlen(name)`, and the
whole matcher step is defined.  In the resolver state the cursor is inside the table,
the slot byte inside the buffer and the step defined.  In the dispatcher and in argument
collection the resolved command is an entry of the table.  An argument-collection call
either stores nothing or stores at `length < buf_size`.  With no bound variable in the
table the next call of `cat_service` is defined. -/
theorem C18_indexing_in_bounds (desc : cat_descriptor W) (size_bits : Nat)
    (self s0 t : cat_object W) (n : Nat)
    (hinit : cat_init size_bits self desc = some s0) (hc : read_contract desc)
    (hs : steps desc n s0 = some t) :
    (t.state = CAT_STATE_UPDATE_COMMAND_STATE →
      t.index < desc.cmd_num ∧ t.index >>> 2 < t.buf.length ∧ 1 ≤ t.length ∧
      (∃ st, get_cmd_state t t.index = some st) ∧
      (∀ x, ∃ u, set_cmd_state t t.index x = some u) ∧
      (∃ c, desc.cmd[t.index]? = some c ∧
        (t.length ≤ c.name.length → ∃ ch, c.name[t.length - 1]? = some ch) ∧
        ∃ u, update_command_slot c t = some u) ∧
      ∃ r, update_command desc t = some r) ∧
    (t.state = CAT_STATE_SEARCH_COMMAND →
      t.index < desc.cmd_num ∧ t.index >>> 2 < t.buf.length ∧
      (∃ st, get_cmd_state t t.index = some st) ∧
      ∃ r, search_command desc t = some r) ∧
    (t.state = CAT_STATE_COMMAND_FOUND ∨ t.state = CAT_STATE_PARSE_COMMAND_ARGS →
      ∃ k c, t.cmd = some k ∧ k < desc.cmd_num ∧ cmd_deref desc t = some (k, c)) ∧
    (t.state = CAT_STATE_PARSE_COMMAND_ARGS → ∀ r u, cat_service desc t = some (r, u) →
      (u.buf = t.buf ∧ u.length = t.length) ∨
        (t.length < t.buf.length ∧ u.length = t.length + 1 ∧
          u.buf = t.buf.set t.length (u.current_char % 256))) ∧
    (no_bound_variable desc → ∃ r, cat_service desc t = some r) := by
  have hsafe := safe_reachable desc size_bits self s0 t n hinit hc hs
  obtain ⟨h1, h2, h3⟩ := hsafe
  have hdiv : ∀ i, i < desc.cmd_num → i / 4 < t.buf.length := by
    intro i hi
    exact Nat.div_lt_of_lt_mul (by omega)
  have hderef : ∀ k, t.cmd = some k → k < desc.cmd_num →
      ∃ k c, t.cmd = some k ∧ k < desc.cmd_num ∧ cmd_deref desc t = some (k, c) := by
    intro k hk hlt
    have hklt : k < desc.cmd.length := hlt
    refine ⟨k, desc.cmd[k], hk, hlt, ?_⟩
    unfold cmd_deref
    simp only [hk, List.getElem?_eq_getElem hklt]
  refine ⟨?_, ?_, ?_, ?_, ?_⟩
  · intro hst
    rw [hst] at h3
    simp only at h3
    have hlt : t.index < desc.cmd.length := h3.1
    have hi := hdiv t.index h3.1
    refine ⟨h3.1, by rw [(shift_facts t.index).1]; exact hi, h3.2,
      get_cmd_state_some t t.index hi, ?_, ?_, ?_⟩
    · intro x
      obtain ⟨b, _, e⟩ := set_cmd_state_some t t.index x hi
      exact ⟨_, e⟩
    · refine ⟨desc.cmd[t.index], List.getElem?_eq_getElem hlt, ?_,
        update_command_slot_some _ t hi h3.2⟩
      intro hle
      exact ⟨_, List.getElem?_eq_getElem (by omega)⟩
    · obtain ⟨b, st, _, _, _, e⟩ := update_command_spec desc t desc.cmd[t.index]
        (List.getElem?_eq_getElem hlt) h3.2 (by omega)
      exact ⟨_, e⟩
  · intro hst
    rw [hst] at h3
    simp only at h3
    have hi := hdiv t.index h3.1
    exact ⟨h3.1, by rw [(shift_facts t.index).1]; exact hi, get_cmd_state_some t t.index hi,
      search_command_some desc t hi⟩
  · intro hst
    rcases hst with hst | hst
    · rw [hst] at h3
      simp only at h3
      obtain ⟨k, hk, hlt⟩ := h3
      exact hderef k hk hlt
    · rw [hst] at h3
      simp only at h3
      obtain ⟨k, hk, hlt⟩ := h3
      exact hderef k hk hlt
  · intro hst r u hu
    rw [cat_service_args desc t hst] at hu
    exact args_store_bound desc t u r hu
  · intro hv
    obtain ⟨r, u, e⟩ := defined_step desc t hc hv ⟨h1, h2, h3⟩
    exact ⟨_, e⟩

/-- C18 at work: over `bounded_table`, after `AT+` the engine of `demo_start 1` is in the
matcher, and the matcher state's accesses are in bounds. -/
theorem C18_indexing_in_bounds_witness :
    cat_init 64 (demo_start 1 [65, 84, 43, 84]) bounded_table
        = some (demo_start 1 [65, 84, 43, 84]) ∧
      steps bounded_table 3 (demo_start 1 [65, 84, 43, 84]) = some bounded_mid ∧
      bounded_mid.index < bounded_table.cmd_num ∧
      bounded_mid.index >>> 2 < bounded_mid.buf.length ∧ 1 ≤ bounded_mid.length :=
  have h := (C18_indexing_in_bounds bounded_table 64 (demo_start 1 [65, 84, 43, 84])
    (demo_start 1 [65, 84, 43, 84]) bounded_mid 3 (by decide) bounded_contract
    (by decide)).1 rfl
  ⟨by decide, by decide, h.1, h.2.1, h.2.2.1⟩

/-! ## C13: the engine is always recoverable -/

/-- C13: from every state reachable from `cat_init` over a table without bound
variables (read callbacks honouring their contract), once the transport delivers
newlines the engine is back in the reset state (`CAT_STATE_PARSE_PREFIX`,
`CAT_PREFIX_STATE_WAIT_A`) after at most `2 * cmd_num + 3` calls of `cat_service`; two
newlines suffice, whatever follows them. -/
theorem C13_recoverable (desc : cat_descriptor W) (size_bits : Nat)
    (self s0 t : cat_object W) (n : Nat) (more : List (Option Nat))
    (hinit : cat_init size_bits self desc = some s0) (hc : read_contract desc)
    (hv : no_bound_variable desc) (hs : steps desc n s0 = some t) :
    ∃ j v, j ≤ 2 * desc.cmd_num + 3 ∧
      steps desc j { t with rx := some 10 :: some 10 :: more } = some v ∧
      v.state = CAT_STATE_PARSE_PREFIX ∧ v.prefix_state = CAT_PREFIX_STATE_WAIT_A := by
  have hsafe := safe_reachable desc size_bits self s0 t n hinit hc hs
  have hsafe2 : safe_state desc { t with rx := some 10 :: some 10 :: more } := hsafe
  exact rec_any desc hc hv more _ hsafe2 rfl

/-- C13 at work: the engine stopped in the matcher after `AT+` over `bounded_table`
recovers on newlines within `2 * 2 + 3` calls. -/
theorem C13_recoverable_witness :
    ∃ j v, j ≤ 2 * bounded_table.cmd_num + 3 ∧
      steps bounded_table j { bounded_mid with rx := some 10 :: some 10 :: [] } = some v ∧
      v.state = CAT_STATE_PARSE_PREFIX ∧ v.prefix_state = CAT_PREFIX_STATE_WAIT_A :=
  C13_recoverable bounded_table 64 (demo_start 1 [65, 84, 43, 84])
    (demo_start 1 [65, 84, 43, 84]) bounded_mid 3 [] (by decide) bounded_contract
    bounded_no_var (by decide)

/-! ## C15: bounded work per call -/

/-- C15: every call of `cat_service` takes at most one event off the transport; a call in
the matcher state takes none and touches no slot but the one under the cursor; a call in
the resolver state takes none and leaves the buffer alone.  While a name `w` of valid
characters is read over a configuration inside the bounds, call number
`k * (cmd_num + 1)` is the reading call for character `k`, the `cmd_num` calls after it
are matcher calls on the slots `0 .. cmd_num - 1` in this order, after which the engine
is back in `CAT_STATE_PARSE_COMMAND_CHAR` with cursor 0; among the
`|w| * (cmd_num + 1)` calls exactly `|w| * cmd_num` are matcher calls. -/
theorem C15_bounded_work (desc : cat_descriptor W) (s : cat_object W) (w : List Nat)
    (rest : List (Option Nat)) (hs : s.state = CAT_STATE_PARSE_COMMAND_CHAR)
    (hi : s.index = 0) (hn : 0 < desc.cmd_num) (hb : desc.cmd_num ≤ 4 * s.buf.length)
    (hrx : s.rx = w.map some ++ rest)
    (hv : ∀ ch ∈ w, is_valid_cmd_name_char (to_upper ch) ≠ 0) :
    (∀ (x t : cat_object W) (r : Nat), cat_service desc x = some (r, t) →
      (t.rx = x.rx ∨ t.rx = x.rx.tail) ∧
      (x.state = CAT_STATE_UPDATE_COMMAND_STATE →
        t.rx = x.rx ∧ ∀ j, j ≠ x.index → get_cmd_state t j = get_cmd_state x j) ∧
      (x.state = CAT_STATE_SEARCH_COMMAND → t.rx = x.rx ∧ t.buf = x.buf)) ∧
    (∀ k, k < w.length →
      (∃ v, steps desc (k * (desc.cmd_num + 1)) s = some v ∧
        v.state = CAT_STATE_PARSE_COMMAND_CHAR ∧ v.index = 0 ∧
        v.rx = (w.drop k).map some ++ rest) ∧
      ∀ j, j < desc.cmd_num →
        ∃ v, steps desc (k * (desc.cmd_num + 1) + 1 + j) s = some v ∧
          v.state = CAT_STATE_UPDATE_COMMAND_STATE ∧ v.index = j ∧
          v.rx = (w.drop (k + 1)).map some ++ rest) ∧
    (∃ v, steps desc (w.length * (desc.cmd_num + 1)) s = some v ∧
      v.state = CAT_STATE_PARSE_COMMAND_CHAR ∧ v.index = 0 ∧ v.rx = rest ∧
      v.length = s.length + w.length ∧ v.buf.length = s.buf.length) ∧
    matcher_calls desc (w.length * (desc.cmd_num + 1)) s = w.length * desc.cmd_num := by
  refine ⟨?_, name_cost desc rest w s hs hi hn hb hrx hv⟩
  intro x t r h
  have hrx := cat_service_rx desc x t r h
  refine ⟨?_, ?_, ?_⟩
  · by_cases hr : reads_input x.state = true
    · rw [if_pos hr] at hrx; exact Or.inr hrx
    · rw [if_neg hr] at hrx; exact Or.inl hrx
  · intro hx
    rw [hx] at hrx
    refine ⟨by simpa [reads_input] using hrx, ?_⟩
    rw [cat_service_update desc x hx] at h
    exact update_command_frame desc x t r h
  · intro hx
    rw [cat_service_search desc x hx] at h
    obtain ⟨idx, c, st, e, _⟩ := search_command_shape desc x t r h
    rw [e]
    exact ⟨rfl, rfl⟩

/-- C15 at the table `+TEST1`, `+TEST`: the two characters `+T` cost `2 * 3` calls, `2 * 2`
of them matcher calls. -/
theorem C15_bounded_work_witness :
    (∃ v, steps demo_table2 (2 * (demo_table2.cmd_num + 1)) (demo_name_start [43, 84])
        = some v ∧
      v.state = CAT_STATE_PARSE_COMMAND_CHAR ∧ v.index = 0 ∧ v.rx = [] ∧
      v.length = (demo_name_start [43, 84]).length + 2 ∧
      v.buf.length = (demo_name_start [43, 84]).buf.length) ∧
    matcher_calls demo_table2 (2 * (demo_table2.cmd_num + 1)) (demo_name_start [43, 84])
      = 2 * demo_table2.cmd_num :=
  (C15_bounded_work demo_table2 (demo_name_start [43, 84]) [43, 84] [] rfl rfl
    (by decide) (by decide) rfl (by decide)).2.2

/-! ## C9: polls without data do not change the result -/

/-- C9: for every command table, every engine state `s` and every two transport
schedules `rx1`, `rx2` that carry the same bytes, the drive of `cat_service` until the
schedule is used up and the engine waits for input gives the same result on both: the
same final record (output, callback log and every engine field), or undefined behaviour
on both.  The drive ends: with `calls_bound` fuel it does not run out of fuel. -/
theorem C9_schedule_independence (desc : cat_descriptor W) (s : cat_object W)
    (rx1 rx2 : List (Option Nat)) (fuel : Nat) (hb : bytes rx1 = bytes rx2)
    (h1 : calls_bound desc (with_rx s rx1) ≤ fuel)
    (h2 : calls_bound desc (with_rx s rx2) ≤ fuel) :
    run desc fuel (with_rx s rx1) = run desc fuel (with_rx s rx2) ∧
      run desc fuel (with_rx s rx1) ≠ Outcome.out_of_fuel ∧
      transcript desc fuel (with_rx s rx1) = transcript desc fuel (with_rx s rx2) := by
  have e : run desc fuel (with_rx s rx1) = run desc fuel (with_rx s rx2) := by
    rw [run_enough desc _ fuel h1, run_enough desc _ fuel h2]
    exact run_same_bytes desc _ (with_rx s rx1) (with_rx s rx2) (le_refl _) rfl hb
  refine ⟨e, run_total desc fuel _ h1, ?_⟩
  unfold transcript
  rw [e]

/-- C9 on `AT\n`, fed contiguously and fed with polls without data in between. -/
theorem C9_schedule_independence_witness :
    run demo_table1 40 (with_rx (demo_start 1 []) [some 65, some 84, some 10])
        = run demo_table1 40
            (with_rx (demo_start 1 []) [none, some 65, none, none, some 84, some 10, none]) ∧
      run demo_table1 40 (with_rx (demo_start 1 []) [some 65, some 84, some 10])
        ≠ Outcome.out_of_fuel ∧
      transcript demo_table1 40 (with_rx (demo_start 1 []) [some 65, some 84, some 10])
        = transcript demo_table1 40
            (with_rx (demo_start 1 []) [none, some 65, none, none, some 84, some 10, none]) :=
  C9_schedule_independence demo_table1 (demo_start 1 []) [some 65, some 84, some 10]
    [none, some 65, none, none, some 84, some 10, none] 40 (by decide) (by decide)
    (by decide)

/-! ## C11: after an acknowledgement the engine is as good as new -/

theorem forget_observed (v : cat_object W) :
    (forget_scratch v).tx = v.tx ∧ (forget_scratch v).calls = v.calls ∧
      (forget_scratch v).world = v.world ∧ (forget_scratch v).state = v.state ∧
      (forget_scratch v).prefix_state = v.prefix_state := by
  unfold forget_scratch
  split <;> exact ⟨rfl, rfl, rfl, rfl, rfl⟩

theorem transcript_forget (desc : cat_descriptor W) (fuel : Nat) (s1 s2 : cat_object W)
    (h : (run desc fuel s1).forget = (run desc fuel s2).forget) :
    transcript desc fuel s1 = transcript desc fuel s2 := by
  unfold transcript
  cases h1 : run desc fuel s1 <;> cases h2 : run desc fuel s2 <;>
    rw [h1, h2] at h <;> simp only [Outcome.forget, reduceCtorEq] at h <;> try rfl
  rename_i v1 v2
  injection h with h
  have t1 := forget_observed v1
  have t2 := forget_observed v2
  rw [h] at t1
  simp only [← t1.1, ← t1.2.1, t2.1, t2.2.1]

/-- C11: let `s` be the engine right after an acknowledgement (`ack_ok` or `ack_error`
applied to any record `x`, whatever `x` holds in `index`, `length`, `cmd_type`, `cmd`,
`current_char` and the buffer), and let `s0` be an engine just returned from `cat_init`
over the same table, with a buffer of the same size, the same world and the same
observations so far.  Then on every schedule `q` and with any fuel the drive of `s` and
the drive of `s0` give the same output and the same callback invocations, and the same
outcome up to scratch fields; the drive ends with `calls_bound` fuel. -/
theorem C11_reset_indistinguishable (desc : cat_descriptor W) (size_bits : Nat)
    (x s self s0 : cat_object W) (q : List (Option Nat)) (fuel : Nat)
    (hack : s = ack_ok x ∨ s = ack_error x)
    (hinit : cat_init size_bits self desc = some s0)
    (hbuf : self.buf.length = s.buf.length) (hworld : self.world = s.world)
    (htx : self.tx = s.tx) (hcalls : self.calls = s.calls) :
    transcript desc fuel (with_rx s q) = transcript desc fuel (with_rx s0 q) ∧
      (run desc fuel (with_rx s q)).forget = (run desc fuel (with_rx s0 q)).forget ∧
      (calls_bound desc (with_rx s q) ≤ fuel →
        run desc fuel (with_rx s q) ≠ Outcome.out_of_fuel) := by
  have hs0 : s0 = reset_state self := by
    unfold cat_init at hinit
    split_ifs at hinit
    injection hinit with hinit
    exact hinit.symm
  have hst : s.state = CAT_STATE_PARSE_PREFIX ∧ s.prefix_state = CAT_PREFIX_STATE_WAIT_A := by
    rcases hack with h | h <;> rw [h] <;> exact ⟨rfl, rfl⟩
  have hf : forget_scratch (with_rx s q) = forget_scratch (with_rx s0 q) := by
    rw [hs0]
    cases s
    cases self
    simp only at hst hbuf hworld htx hcalls
    obtain ⟨h1, h2⟩ := hst
    subst h1 h2 hworld htx hcalls
    simp only [forget_scratch, with_rx, reset_state, hbuf]
  have hr := run_forget desc fuel _ _ hf
  exact ⟨transcript_forget desc fuel _ _ hr, hr, fun h => run_total desc fuel _ h⟩

/-- C11 at work: the engine after `ack_ok`, with the leftovers of the exchange `AT+TEST`
in its scratch fields, answers `AT+TEST\n` as a fresh engine does. -/
theorem C11_reset_indistinguishable_witness :
    transcript demo_table1 40 (with_rx (ack_ok (demo_found CAT_CMD_TYPE_EXECUTE 10 []))
        ([65, 84, 43, 84, 69, 83, 84, 10].map some))
      = transcript demo_table1 40 (with_rx (reset_state demo_fresh)
        ([65, 84, 43, 84, 69, 83, 84, 10].map some)) ∧
    (run demo_table1 40 (with_rx (ack_ok (demo_found CAT_CMD_TYPE_EXECUTE 10 []))
        ([65, 84, 43, 84, 69, 83, 84, 10].map some))).forget
      = (run demo_table1 40 (with_rx (reset_state demo_fresh)
        ([65, 84, 43, 84, 69, 83, 84, 10].map some))).forget ∧
    (calls_bound demo_table1 (with_rx (ack_ok (demo_found CAT_CMD_TYPE_EXECUTE 10 []))
        ([65, 84, 43, 84, 69, 83, 84, 10].map some)) ≤ 40 →
      run demo_table1 40 (with_rx (ack_ok (demo_found CAT_CMD_TYPE_EXECUTE 10 []))
        ([65, 84, 43, 84, 69, 83, 84, 10].map some)) ≠ Outcome.out_of_fuel) :=
  C11_reset_indistinguishable demo_table1 64 (demo_found CAT_CMD_TYPE_EXECUTE 10 [])
    (ack_ok (demo_found CAT_CMD_TYPE_EXECUTE 10 [])) demo_fresh (reset_state demo_fresh)
    ([65, 84, 43, 84, 69, 83, 84, 10].map some) 40 (Or.inl rfl) (by decide) (by decide)
    rfl (by decide) (by decide)

/-! ## C12: case-insensitive recognition -/

/-- C12: let two inputs `q1`, `q2` agree up to the case of ASCII letters, and two tables
`desc1`, `desc2` agree up to the case of the letters of the registered names (same
callbacks).  On the same table the two inputs give the same drive, and after any number
of calls the same record but for the bytes still to be read.  On the two tables, after
any number of calls, the engine is in the same state with the same resolved command,
operation kind, buffer, world and callback invocations, and the output is the same up to
the case of letters (a read reply echoes the name as registered; the acknowledgements
`"\nOK\n"` and `"\nERROR\n"` hold no lower-case letter); a call sequence is defined on
one side exactly when it is on the other. -/
theorem C12_case_insensitive (desc1 desc2 : cat_descriptor W) (s : cat_object W)
    (q1 q2 : List (Option Nat)) (n fuel : Nat)
    (hd : upper_names desc1 = upper_names desc2)
    (hq : q1.map (Option.map to_upper) = q2.map (Option.map to_upper)) :
    run desc1 fuel (with_rx s q1) = run desc1 fuel (with_rx s q2) ∧
    (∀ t1, steps desc1 n (with_rx s q1) = some t1 →
      ∃ t2, steps desc1 n (with_rx s q2) = some t2 ∧ t2 = with_rx t1 t2.rx) ∧
    (∀ t1, steps desc1 n (with_rx s q1) = some t1 →
      ∃ t2, steps desc2 n (with_rx s q2) = some t2 ∧
        t1.state = t2.state ∧ t1.prefix_state = t2.prefix_state ∧ t1.cmd = t2.cmd ∧
        t1.cmd_type = t2.cmd_type ∧ t1.calls = t2.calls ∧ t1.world = t2.world ∧
        t1.buf = t2.buf ∧ t1.tx.map to_upper = t2.tx.map to_upper) ∧
    (steps desc1 n (with_rx s q1) = none ↔ steps desc2 n (with_rx s q2) = none) ∧
    (run desc1 fuel (with_rx s q1)).fold_case = (run desc2 fuel (with_rx s q2)).fold_case := by
  have hu : upper_rx (with_rx s q1) = upper_rx (with_rx s q2) := by
    show with_rx s (q1.map (Option.map to_upper)) = with_rx s (q2.map (Option.map to_upper))
    rw [hq]
  have hf : fold_case (with_rx s q1) = fold_case (with_rx s q2) := by
    simp only [fold_case, with_rx, hq]
  have h2 := steps_upper_rx desc1 n _ _ hu
  have h3 := steps_fold desc1 desc2 hd n _ _ hf
  refine ⟨run_upper_rx desc1 fuel _ _ hu, ?_, ?_, ?_, run_fold desc1 desc2 hd fuel _ _ hf⟩
  · intro t1 ht1
    rw [ht1] at h2
    cases ht2 : steps desc1 n (with_rx s q2) with
    | none => rw [ht2] at h2; simp at h2
    | some t2 =>
      rw [ht2] at h2
      simp only [Option.map_some', Option.some.injEq] at h2
      refine ⟨t2, rfl, ?_⟩
      have := congrArg (fun x => with_rx x t2.rx) h2
      simp only [upper_rx, with_rx_with_rx] at this
      rw [this]
      exact (with_rx_self t2).symm
  · intro t1 ht1
    rw [ht1] at h3
    cases ht2 : steps desc2 n (with_rx s q2) with
    | none => rw [ht2] at h3; simp at h3
    | some t2 =>
      rw [ht2] at h3
      simp only [Option.map_some', Option.some.injEq] at h3
      have a1 : (fold_case t1).state = (fold_case t2).state := by rw [h3]
      have a2 : (fold_case t1).prefix_state = (fold_case t2).prefix_state := by rw [h3]
      have a3 : (fold_case t1).cmd = (fold_case t2).cmd := by rw [h3]
      have a4 : (fold_case t1).cmd_type = (fold_case t2).cmd_type := by rw [h3]
      have a5 : (fold_case t1).calls = (fold_case t2).calls := by rw [h3]
      have a6 : (fold_case t1).world = (fold_case t2).world := by rw [h3]
      have a7 : (fold_case t1).buf = (fold_case t2).buf := by rw [h3]
      have a8 : (fold_case t1).tx = (fold_case t2).tx := by rw [h3]
      exact ⟨t2, rfl, a1, a2, a3, a4, a5, a6, a7, a8⟩
  · cases ht1 : steps desc1 n (with_rx s q1) <;>
      cases ht2 : steps desc2 n (with_rx s q2) <;>
      rw [ht1, ht2] at h3 <;> simp at h3 ⊢

/-- C12 at work: `at+Test\n` on the table `+test` and `AT+TEST\n` on the table `+TEST`. -/
theorem C12_case_insensitive_witness :
    run demo_table1 40 (with_rx (demo_start 1 []) ([65, 84, 43, 84, 69, 83, 84, 10].map some))
      = run demo_table1 40
          (with_rx (demo_start 1 []) ([97, 116, 43, 84, 101, 115, 116, 10].map some)) ∧
    (∀ t1, steps demo_table1 10
        (with_rx (demo_start 1 []) ([65, 84, 43, 84, 69, 83, 84, 10].map some)) = some t1 →
      ∃ t2, steps demo_table1 10
          (with_rx (demo_start 1 []) ([97, 116, 43, 84, 101, 115, 116, 10].map some))
          = some t2 ∧ t2 = with_rx t1 t2.rx) ∧
    (∀ t1, steps demo_table1 10
        (with_rx (demo_start 1 []) ([65, 84, 43, 84, 69, 83, 84, 10].map some)) = some t1 →
      ∃ t2, steps demo_table_lower 10
          (with_rx (demo_start 1 []) ([97, 116, 43, 84, 101, 115, 116, 10].map some))
          = some t2 ∧
        t1.state = t2.state ∧ t1.prefix_state = t2.prefix_state ∧ t1.cmd = t2.cmd ∧
        t1.cmd_type = t2.cmd_type ∧ t1.calls = t2.calls ∧ t1.world = t2.world ∧
        t1.buf = t2.buf ∧ t1.tx.map to_upper = t2.tx.map to_upper) ∧
    (steps demo_table1 10
        (with_rx (demo_start 1 []) ([65, 84, 43, 84, 69, 83, 84, 10].map some)) = none ↔
      steps demo_table_lower 10
        (with_rx (demo_start 1 []) ([97, 116, 43, 84, 101, 115, 116, 10].map some)) = none) ∧
    (run demo_table1 40
        (with_rx (demo_start 1 []) ([65, 84, 43, 84, 69, 83, 84, 10].map some))).fold_case
      = (run demo_table_lower 40
        (with_rx (demo_start 1 []) ([97, 116, 43, 84, 101, 115, 116, 10].map some))).fold_case :=
  C12_case_insensitive demo_table1 demo_table_lower (demo_start 1 [])
    ([65, 84, 43, 84, 69, 83, 84, 10].map some) ([97, 116, 43, 84, 101, 115, 116, 10].map some)
    10 40 (by rfl) (by decide)

end CAT
